import Mathlib

/-!
Shallow embedding of the engine-core order book of the Orderbooook repository
(crates `engine-core` and `protocol`), together with proofs about its
matching, book-keeping and event-emission behaviour.

Sources embedded:
  * `protocol/src/types.rs` — scalar types, `Order`, `Side`, `OrderType`,
    outbound `Event` records;
  * `engine-core/src/orderbook/price_levels.rs` — `PriceLevel`;
  * `engine-core/src/orderbook/types.rs` — `Fill`, `Trade`, `Depth`,
    `CachedDepth`, `MatchResult`, `CACHE_LIMIT`;
  * `engine-core/src/orderbook/orderbook.rs` — `OrderEntry`, `OrderBook` and
    its operations (`add_order`, `remove_order`, `match_limit_order`,
    `get_depth`, `update_depth_cache`, `collect_to_fixed_array`);
  * `engine-core/src/engine.rs` — `handle_place_order`, `handle_cancel_order`
    (the outbound event stream only; the oneshot reply channel carries no
    `Event` and is not modelled);
  * `engine-core/src/error.rs` — `OrderBookError` with its `thiserror`
    display strings.

Rust `u64` quantities and prices become `Nat`; the source's
`saturating_add` / `saturating_sub` become `satAdd` (clamping at `U64MAX`)
and `Nat` subtraction (which is exactly saturating subtraction on `Nat`).
`BTreeMap<Price, PriceLevel>` becomes an association list sorted by
strictly increasing price; `HashMap` becomes an unordered association list
(no code path iterates it). `VecDeque<OrderId>` becomes `List OrderId`
with the front at the head. `Utc::now()` timestamps are threaded in as an
explicit parameter. Fallible code returns `Except OrderBookError`.
-/

namespace Orderbook

abbrev OrderId := Nat
abbrev UserId := Nat
abbrev Price := Nat
abbrev Quantity := Nat

/-- Maximum value of a Rust `u64`; used to model `saturating_add`. -/
def U64MAX : Nat := 2 ^ 64 - 1

/-- Model of `u64::saturating_add`. -/
def satAdd (a b : Nat) : Nat := min (a + b) U64MAX

inductive Side where
  | Buy
  | Sell
deriving DecidableEq, Repr

inductive OrderType where
  | Limit
  | Market
deriving DecidableEq, Repr

inductive RejectReason where
  | InvalidPrice
  | InvalidOrder
  | InvalidQuantity
  | InsufficientBalance
  | SymbolNotFound
  | MarketClosed
  | InternalError
deriving DecidableEq, Repr

/-- Model of `engine-core/src/error.rs` `OrderBookError`. -/
inductive OrderBookError where
  | OrderNotFound (oid : OrderId)
  | InvalidOrder (msg : String)
  | InternalError (msg : String)
deriving DecidableEq, Repr

/-- The `thiserror` display strings of `OrderBookError` (`e.to_string()`). -/
def OrderBookError.message : OrderBookError → String
  | .OrderNotFound oid => "Order not found: " ++ toString oid
  | .InvalidOrder m => "Invalid Order: " ++ m
  | .InternalError m => "Internal error: " ++ m

/-- Model of `OrderEntry` in `orderbook.rs`. -/
structure OrderEntry where
  order_id : OrderId
  user_id : UserId
  side : Side
  price : Price
  quantity : Quantity
  remaining_quantity : Quantity
  timestamp : Int
deriving DecidableEq, Repr

/-- Model of `OrderEntry::new` (the wall clock is threaded in as `now`). -/
def OrderEntry.new (order_id : OrderId) (user_id : UserId) (side : Side)
    (price : Price) (quantity : Quantity) (now : Int) : OrderEntry :=
  { order_id := order_id, user_id := user_id, side := side, price := price,
    quantity := quantity, remaining_quantity := quantity, timestamp := now }

/-- Model of `OrderEntry::validate_order`; `price <= 0` on `u64` means `price == 0`. -/
def OrderEntry.validate_order (e : OrderEntry) : Except OrderBookError Unit :=
  if e.quantity = 0 then
    Except.error (OrderBookError.InvalidOrder "Quantity must be greater than 0")
  else if e.price = 0 then
    Except.error (OrderBookError.InvalidOrder "Price must be greater than 0")
  else
    Except.ok ()

/-- Model of `OrderEntry::fill`; `saturating_sub` on `Nat` is plain subtraction. -/
def OrderEntry.fill (e : OrderEntry) (quantity : Quantity) : Except OrderBookError OrderEntry :=
  if e.remaining_quantity < quantity then
    Except.error (OrderBookError.InvalidOrder
      "Quantity must be less than or equal to the remaining quantity")
  else
    Except.ok { e with remaining_quantity := e.remaining_quantity - quantity }

/-- Model of `PriceLevel` in `price_levels.rs`; the `VecDeque` front is the list head. -/
structure PriceLevel where
  price : Price
  orders : List OrderId
  total_quantity : Quantity
deriving DecidableEq, Repr

def PriceLevel.new (price : Price) : PriceLevel :=
  { price := price, orders := [], total_quantity := 0 }

/-- Model of `PriceLevel::add_order`: push the id at the back, saturating-add the quantity. -/
def PriceLevel.add_order (l : PriceLevel) (order_id : OrderId) (quantity : Quantity) : PriceLevel :=
  { l with orders := l.orders ++ [order_id],
           total_quantity := satAdd l.total_quantity quantity }

/-- Model of `PriceLevel::remove_order`: only the aggregate is decremented; the
id queue is untouched (the source takes a quantity, not an id). -/
def PriceLevel.remove_order (l : PriceLevel) (quantity : Quantity) : PriceLevel :=
  { l with total_quantity := l.total_quantity - quantity }

def PriceLevel.get_total_quantity (l : PriceLevel) : Quantity := l.total_quantity

/-- Model of `PriceLevel::is_empty`. -/
def PriceLevel.is_empty (l : PriceLevel) : Bool :=
  l.total_quantity == 0 || l.orders.isEmpty

/-! Association-list model of `HashMap<OrderId, OrderEntry>` (the order table).
No code path iterates the table, so the representation order is free. -/

abbrev Table := List (OrderId × OrderEntry)

def lookupTbl (t : Table) (k : OrderId) : Option OrderEntry :=
  (t.find? (fun kv => kv.1 == k)).map (fun kv => kv.2)

def eraseTbl (t : Table) (k : OrderId) : Table :=
  t.filter (fun kv => kv.1 != k)

def insertTbl (t : Table) (k : OrderId) (v : OrderEntry) : Table :=
  (k, v) :: eraseTbl t k

/-! Sorted association-list model of `BTreeMap<Price, PriceLevel>`
(keys strictly increasing). -/

abbrev LevelMap := List (Price × PriceLevel)

def lookupSM (m : LevelMap) (k : Price) : Option PriceLevel :=
  (m.find? (fun kv => kv.1 == k)).map (fun kv => kv.2)

/-- Point update of the level stored at key `k` (models `get_mut` followed by
mutation); a no-op when the key is absent. -/
def updateSM (m : LevelMap) (k : Price) (f : PriceLevel → PriceLevel) : LevelMap :=
  m.map (fun kv => if kv.1 == k then (kv.1, f kv.2) else kv)

/-- Order-preserving insertion of a fresh key (models `BTreeMap::insert` on a
key that is not present). -/
def insertSM : LevelMap → Price → PriceLevel → LevelMap
  | [], k, v => [(k, v)]
  | (q, w) :: rest, k, v =>
    if k < q then (k, v) :: (q, w) :: rest
    else if k == q then (k, v) :: rest
    else (q, w) :: insertSM rest k v

def eraseSM (m : LevelMap) (k : Price) : LevelMap :=
  m.filter (fun kv => kv.1 != k)

/-- Keys of the map are strictly increasing (the `BTreeMap` representation
invariant of the sorted association list). -/
def SortedKeys (m : LevelMap) : Prop :=
  m.Pairwise (fun a b => a.1 < b.1)

instance (m : LevelMap) : Decidable (SortedKeys m) := by
  unfold SortedKeys; infer_instance

/-! Match-result records from `engine-core/src/orderbook/types.rs`. -/

/-- Internal fill record (`orderbook/types.rs` `Fill`). -/
structure Fill where
  order_id : OrderId
  user_id : UserId
  side : Side
  filled_price : Price
  filled_quantity : Quantity
  remaining_quantity : Quantity
deriving DecidableEq, Repr

/-- Internal trade record (`orderbook/types.rs` `Trade`). -/
structure Trade where
  trade_id : Nat
  maker_order_id : OrderId
  maker_user_id : UserId
  taker_order_id : OrderId
  taker_user_id : UserId
  quantity : Quantity
  price : Price
  timestamp : Int
deriving DecidableEq, Repr

/-- Depth snapshot (`orderbook/types.rs` `Depth`). -/
structure Depth where
  bids : List (Price × Quantity)
  asks : List (Price × Quantity)
deriving DecidableEq, Repr

/-- The `CACHE_LIMIT` constant (`orderbook/types.rs`). -/
def CACHE_LIMIT : Nat := 25

/-- Cached depth: two fixed 25-entry arrays plus a freshness flag, modelled as
lists that are kept at length `CACHE_LIMIT` by construction. -/
structure CachedDepth where
  bids : List (Price × Quantity)
  asks : List (Price × Quantity)
  is_latest : Bool
deriving DecidableEq, Repr

/-- Model of `CachedDepth::new`: both arrays zero-initialised. -/
def CachedDepth.new : CachedDepth :=
  { bids := List.replicate CACHE_LIMIT (0, 0),
    asks := List.replicate CACHE_LIMIT (0, 0),
    is_latest := false }

structure MatchResult where
  fills : List Fill
  trades : List Trade
  book_update : Option Depth
deriving DecidableEq, Repr

/-- Model of `collect_to_fixed_array`: a zeroed 25-entry array whose first
`min (length) 25` slots are overwritten by the iterator's items. -/
def collect_to_fixed_array (l : List (Price × Quantity)) : List (Price × Quantity) :=
  l.take CACHE_LIMIT ++ List.replicate (CACHE_LIMIT - l.length) (0, 0)

/-- Model of the `OrderBook` struct. -/
structure OrderBook where
  symbol : String
  asks : LevelMap
  bids : LevelMap
  orders : Table
  depth_cache : CachedDepth
  next_trade_id : Nat
deriving DecidableEq, Repr

/-- Model of `OrderBook::new`. -/
def OrderBook.new (symbol : String) : OrderBook :=
  { symbol := symbol, asks := [], bids := [], orders := [],
    depth_cache := CachedDepth.new, next_trade_id := 1 }

/-- Model of `OrderBook::add_order`. -/
def OrderBook.add_order (b : OrderBook) (order : OrderEntry) :
    OrderBook × Except OrderBookError Unit :=
  match order.validate_order with
  | Except.error e => (b, Except.error e)
  | Except.ok _ =>
    let order_id := order.order_id
    let price := order.price
    let quantity := order.remaining_quantity
    let b := { b with orders := insertTbl b.orders order_id order }
    let b :=
      match order.side with
      | Side.Buy =>
        match lookupSM b.bids price with
        | some _ => { b with bids := updateSM b.bids price (fun l => l.add_order order_id quantity) }
        | none => { b with bids := insertSM b.bids price ((PriceLevel.new price).add_order order_id quantity) }
      | Side.Sell =>
        match lookupSM b.asks price with
        | some _ => { b with asks := updateSM b.asks price (fun l => l.add_order order_id quantity) }
        | none => { b with asks := insertSM b.asks price ((PriceLevel.new price).add_order order_id quantity) }
    ({ b with depth_cache := { b.depth_cache with is_latest := false } }, Except.ok ())

/-- Model of `OrderBook::remove_order`. The id is removed from the order
table; the owning level only has its aggregate decremented (no id is removed
from the FIFO), and the level is dropped when `is_empty`. -/
def OrderBook.remove_order (b : OrderBook) (order_id : OrderId) :
    OrderBook × Except OrderBookError OrderEntry :=
  match lookupTbl b.orders order_id with
  | none => (b, Except.error (OrderBookError.OrderNotFound order_id))
  | some order =>
    let b := { b with orders := eraseTbl b.orders order_id }
    let price := order.price
    let remaining_quantity := order.remaining_quantity
    let b :=
      match order.side with
      | Side.Buy =>
        match lookupSM b.bids price with
        | some level =>
          let level := level.remove_order remaining_quantity
          if level.is_empty then { b with bids := eraseSM b.bids price }
          else { b with bids := updateSM b.bids price (fun _ => level) }
        | none => b
      | Side.Sell =>
        match lookupSM b.asks price with
        | some level =>
          let level := level.remove_order remaining_quantity
          if level.is_empty then { b with asks := eraseSM b.asks price }
          else { b with asks := updateSM b.asks price (fun _ => level) }
        | none => b
    ({ b with depth_cache := { b.depth_cache with is_latest := false } }, Except.ok order)

/-- Model of `OrderBook::update_depth_cache`. -/
def OrderBook.update_depth_cache (b : OrderBook) : OrderBook :=
  if b.depth_cache.is_latest then b
  else
    { b with depth_cache :=
      { bids := collect_to_fixed_array
          ((b.bids.reverse).map (fun kv => (kv.1, kv.2.get_total_quantity))),
        asks := collect_to_fixed_array
          (b.asks.map (fun kv => (kv.1, kv.2.get_total_quantity))),
        is_latest := true } }

/-- Model of `OrderBook::get_depth`: refresh the cache when stale, then copy
the first `min (cache length) limit` entries of each side. -/
def OrderBook.get_depth (b : OrderBook) (limit : Nat) : OrderBook × Depth :=
  let b := if b.depth_cache.is_latest then b else b.update_depth_cache
  (b, { bids := b.depth_cache.bids.take (min b.depth_cache.bids.length limit),
        asks := b.depth_cache.asks.take (min b.depth_cache.asks.length limit) })

/-- Model of `OrderBook::get_best_bid`. -/
def OrderBook.get_best_bid (b : OrderBook) : Option Price :=
  (b.bids.map (fun kv => kv.1)).getLast?

/-- Model of `OrderBook::get_best_ask`. -/
def OrderBook.get_best_ask (b : OrderBook) : Option Price :=
  (b.asks.map (fun kv => kv.1)).head?

/-! The matching loop of `OrderBook::match_limit_order`.  The mutable locals
of the Rust function (`self.orders`, the taker, the accumulated fills and
trades, `self.next_trade_id`, `book_changed`) are gathered in `MatchAcc`;
the inner `while` loop over one price level becomes `fillLoop` (recursion on
the level's id queue plus the taker's remaining quantity), and the outer
`for price in price_keys` loop becomes `walkPrices`. -/

structure MatchAcc where
  orders : Table
  taker : OrderEntry
  fills : List Fill
  trades : List Trade
  next_trade_id : Nat
  book_changed : Bool
deriving Repr

/-- Result of processing one price level: the updated accumulator, the
level's final id queue and aggregate, whether the price was inserted into
`prices_to_remove`, and a pending `?`-propagated error. -/
structure LevelOut where
  acc : MatchAcc
  fifo : List OrderId
  total : Quantity
  marked : Bool
  err : Option OrderBookError
deriving Repr

/-- Model of the inner `while taker.remaining_quantity > 0 && !level.is_empty()`
loop of `match_limit_order`, at the level with price `price`, id queue `fifo`
and aggregate `total`.  Structural recursion on the id queue: every loop
iteration that continues pops the queue's front; in the branch where the
maker survives the fill, `fill_quantity = min` forces the taker's remaining
quantity to zero, so the Rust loop exits at its `taker.remaining_quantity ==
0` break and no recursion is needed. -/
def fillLoop (now : Int) (price : Price) : MatchAcc → List OrderId → Quantity → LevelOut
  | acc, fifo, total =>
    if acc.taker.remaining_quantity = 0 then ⟨acc, fifo, total, false, none⟩
    else if total = 0 then ⟨acc, fifo, total, false, none⟩
    else
      match fifo with
      | [] => ⟨acc, [], total, false, none⟩
      | maker_order_id :: rest =>
        match lookupTbl acc.orders maker_order_id with
        | none =>
          -- dead id at the front: pop it and continue
          fillLoop now price acc rest total
        | some maker =>
          let fill_quantity := min maker.remaining_quantity acc.taker.remaining_quantity
          match maker.fill fill_quantity, acc.taker.fill fill_quantity with
          | Except.error e, _ =>
            ⟨acc, maker_order_id :: rest, total, false, some e⟩
          | Except.ok mk, Except.error e =>
            ⟨{ acc with orders := insertTbl acc.orders maker_order_id mk },
              maker_order_id :: rest, total, false, some e⟩
          | Except.ok mk, Except.ok tk =>
            let total' := total - fill_quantity
            let fills := acc.fills ++
              [⟨maker_order_id, mk.user_id, mk.side, price, fill_quantity, mk.remaining_quantity⟩,
               ⟨tk.order_id, tk.user_id, tk.side, price, fill_quantity, tk.remaining_quantity⟩]
            let trades := acc.trades ++
              [⟨acc.next_trade_id, maker_order_id, mk.user_id, tk.order_id, tk.user_id,
                fill_quantity, price, now⟩]
            let orders := insertTbl acc.orders maker_order_id mk
            if mk.remaining_quantity = 0 then
              let acc' : MatchAcc :=
                ⟨eraseTbl orders maker_order_id, tk, fills, trades,
                  satAdd acc.next_trade_id 1, true⟩
              let marked := decide (total' = 0) || rest.isEmpty
              if tk.remaining_quantity = 0 then ⟨acc', rest, total', marked, none⟩
              else
                let out := fillLoop now price acc' rest total'
                { out with marked := marked || out.marked }
            else
              -- the maker survives, so `fill_quantity = taker.remaining`:
              -- the taker is exhausted and the Rust loop exits at its break
              ⟨⟨orders, tk, fills, trades, satAdd acc.next_trade_id 1, true⟩,
                maker_order_id :: rest, total', false, none⟩

/-- Result of the outer loop over `price_keys`: the updated opposite-side map,
the accumulator, the `prices_to_remove` set (as a list), and a pending error. -/
structure WalkOut where
  levels : LevelMap
  acc : MatchAcc
  toRemove : List Price
  err : Option OrderBookError
deriving Repr

/-- Model of the outer `for price in price_keys` loop of `match_limit_order`. -/
def walkPrices (now : Int) (levels : LevelMap) (acc : MatchAcc) (toRemove : List Price) :
    List Price → WalkOut
  | [] => ⟨levels, acc, toRemove, none⟩
  | price :: rest =>
    if acc.taker.remaining_quantity = 0 then ⟨levels, acc, toRemove, none⟩
    else
      match lookupSM levels price with
      | none => walkPrices now levels acc toRemove rest
      | some level =>
        let out := fillLoop now price acc level.orders level.total_quantity
        let levels' := updateSM levels price
          (fun l => { l with orders := out.fifo, total_quantity := out.total })
        let toRemove' := if out.marked then toRemove ++ [price] else toRemove
        match out.err with
        | some e => ⟨levels', out.acc, toRemove', some e⟩
        | none => walkPrices now levels' out.acc toRemove' rest

/-- The `price_keys` snapshot of `match_limit_order`: for a Buy taker, the
ascending ask prices in `range(..=taker.price)`; for a Sell taker, the bid
prices in `range(taker.price..)` reversed (descending). -/
def candidatePrices (taker : OrderEntry) (levels : LevelMap) : List Price :=
  if taker.side == Side.Buy then
    (levels.filter (fun kv => kv.1 ≤ taker.price)).map (fun kv => kv.1)
  else
    ((levels.filter (fun kv => taker.price ≤ kv.1)).map (fun kv => kv.1)).reverse

/-- Write the walked opposite side back into the book. -/
def setOpposite (b : OrderBook) (is_buy : Bool) (m : LevelMap) : OrderBook :=
  if is_buy then { b with asks := m } else { b with bids := m }

/-- Model of `OrderBook::match_limit_order`. -/
def OrderBook.match_limit_order (b : OrderBook) (taker : OrderEntry) (now : Int) :
    OrderBook × Except OrderBookError MatchResult :=
  match taker.validate_order with
  | Except.error e => (b, Except.error e)
  | Except.ok _ =>
    let is_buy := taker.side == Side.Buy
    let levels := if is_buy then b.asks else b.bids
    let price_keys := candidatePrices taker levels
    let acc0 : MatchAcc := ⟨b.orders, taker, [], [], b.next_trade_id, false⟩
    let w := walkPrices now levels acc0 [] price_keys
    match w.err with
    | some e =>
      -- the `?` operators return early: mutations so far persist, the
      -- emptied-level sweep, resting and depth handling are skipped
      (setOpposite { b with orders := w.acc.orders, next_trade_id := w.acc.next_trade_id }
        is_buy w.levels, Except.error e)
    | none =>
      let cleaned := w.toRemove.foldl eraseSM w.levels
      let b1 := setOpposite
        { b with orders := w.acc.orders, next_trade_id := w.acc.next_trade_id } is_buy cleaned
      if w.acc.taker.remaining_quantity ≠ 0 then
        match b1.add_order w.acc.taker with
        | (b2, Except.error e) => (b2, Except.error e)
        | (b2, Except.ok _) =>
          let b3 := { b2 with depth_cache := { b2.depth_cache with is_latest := false } }
          let p := b3.get_depth 20
          (p.1, Except.ok ⟨w.acc.fills, w.acc.trades, some p.2⟩)
      else
        if w.acc.book_changed then
          let b3 := { b1 with depth_cache := { b1.depth_cache with is_latest := false } }
          let p := b3.get_depth 20
          (p.1, Except.ok ⟨w.acc.fills, w.acc.trades, some p.2⟩)
        else
          (b1, Except.ok ⟨w.acc.fills, w.acc.trades, none⟩)

/-- Modelled from the spec: the body of `OrderBook::match_market_order` after
its opening statements (the `validate_order()?` call and the `fills`/`trades`
accumulator declarations, which are in the source) is missing from the
sources.  Per the spec (section 4.4) the market algorithm is identical to the
limit algorithm but with no price ceiling or floor on the candidate levels,
the taker NEVER rests, and when opposite-side liquidity is insufficient the
unfilled taker is discarded and an `InvalidOrder` error whose message
mentions liquidity is returned (the engine's error path turns it into the
terminal `OrderReject`, as exercised by `test_market_order_no_liquidity`). -/
def OrderBook.match_market_order (b : OrderBook) (taker : OrderEntry) (now : Int) :
    OrderBook × Except OrderBookError MatchResult :=
  match taker.validate_order with
  | Except.error e => (b, Except.error e)
  | Except.ok _ =>
    let is_buy := taker.side == Side.Buy
    let levels := if is_buy then b.asks else b.bids
    let price_keys :=
      if is_buy then levels.map (fun kv => kv.1)
      else (levels.map (fun kv => kv.1)).reverse
    let acc0 : MatchAcc := ⟨b.orders, taker, [], [], b.next_trade_id, false⟩
    let w := walkPrices now levels acc0 [] price_keys
    match w.err with
    | some e =>
      (setOpposite { b with orders := w.acc.orders, next_trade_id := w.acc.next_trade_id }
        is_buy w.levels, Except.error e)
    | none =>
      let cleaned := w.toRemove.foldl eraseSM w.levels
      let b1 := setOpposite
        { b with orders := w.acc.orders, next_trade_id := w.acc.next_trade_id } is_buy cleaned
      if w.acc.taker.remaining_quantity ≠ 0 then
        let b2 :=
          if w.acc.book_changed then
            { b1 with depth_cache := { b1.depth_cache with is_latest := false } }
          else b1
        (b2, Except.error (OrderBookError.InvalidOrder
          "No liquidity available to fill the market order"))
      else
        if w.acc.book_changed then
          let b3 := { b1 with depth_cache := { b1.depth_cache with is_latest := false } }
          let p := b3.get_depth 20
          (p.1, Except.ok ⟨w.acc.fills, w.acc.trades, some p.2⟩)
        else
          (b1, Except.ok ⟨w.acc.fills, w.acc.trades, none⟩)

/-! Protocol records and outbound events (`protocol/src/types.rs`), and the
conversions of `engine-core/src/orderbook/types.rs`. -/

/-- Protocol-level fill (`protocol::types::Fill`). -/
structure ProtocolFill where
  order_id : OrderId
  user_id : UserId
  symbol : String
  side : Side
  filled_quantity : Quantity
  filled_price : Price
  remaining_quantity : Quantity
deriving DecidableEq, Repr

/-- Protocol-level trade (`protocol::types::Trade`). -/
structure ProtocolTrade where
  trade_id : Nat
  maker_order_id : OrderId
  maker_user_id : UserId
  taker_order_id : OrderId
  taker_user_id : UserId
  symbol : String
  quantity : Quantity
  price : Price
  timestamp : Int
deriving DecidableEq, Repr

/-- Protocol-level aggregated price level (`protocol::types::PriceLevel`). -/
structure ProtocolLevel where
  price : Price
  quantity : Quantity
deriving DecidableEq, Repr

/-- Protocol-level book snapshot (`protocol::types::BookUpdate`). -/
structure BookUpdate where
  symbol : String
  bids : List ProtocolLevel
  asks : List ProtocolLevel
  last_price : Option Price
deriving DecidableEq, Repr

inductive CancelReason where
  | UserRequested
  | SystemCancelled
  | Expired
  | Liquidation
deriving DecidableEq, Repr

/-- Outbound event stream records (`protocol::types::Event`). -/
inductive Event where
  | OrderAck (order_id : OrderId) (user_id : UserId) (symbol : String)
  | OrderReject (order_id : OrderId) (user_id : UserId) (reason : RejectReason) (message : String)
  | Fill (f : ProtocolFill)
  | Trade (t : ProtocolTrade)
  | OrderCancelled (order_id : OrderId) (user_id : UserId) (symbol : String) (reason : CancelReason)
  | BookUpdate (b : BookUpdate)
deriving DecidableEq, Repr

/-- Model of the internal `Fill::into_protocol`. -/
def Fill.into_protocol (f : Fill) (symbol : String) : ProtocolFill :=
  { order_id := f.order_id, user_id := f.user_id, symbol := symbol, side := f.side,
    filled_price := f.filled_price, filled_quantity := f.filled_quantity,
    remaining_quantity := f.remaining_quantity }

/-- Model of the internal `Trade::into_protocol`. -/
def Trade.into_protocol (t : Trade) (symbol : String) : ProtocolTrade :=
  { trade_id := t.trade_id, maker_order_id := t.maker_order_id,
    maker_user_id := t.maker_user_id, taker_order_id := t.taker_order_id,
    taker_user_id := t.taker_user_id, symbol := symbol, quantity := t.quantity,
    price := t.price, timestamp := t.timestamp }

/-- Model of `Depth::into_protocol`: the `last_price` field is hard-coded to
`None` in the source. -/
def Depth.into_protocol (d : Depth) (symbol : String) : BookUpdate :=
  { symbol := symbol,
    bids := d.bids.map (fun pq => { price := pq.1, quantity := pq.2 }),
    asks := d.asks.map (fun pq => { price := pq.1, quantity := pq.2 }),
    last_price := none }

/-- Inbound `protocol::types::Order`. -/
structure Order where
  order_id : OrderId
  user_id : UserId
  symbol : String
  side : Side
  order_type : OrderType
  quantity : Quantity
  price : Option Price
deriving DecidableEq, Repr

/-- Inbound `protocol::types::CancelOrder`. -/
structure CancelOrder where
  order_id : OrderId
  user_id : UserId
  symbol : String
deriving DecidableEq, Repr

/-! The engine (`engine-core/src/engine.rs`).  Only the outbound `Event`
stream (`event_tx`) is modelled; the oneshot reply channel carries
`OrderResponse` values, not `Event`s, and channel send failures do not occur
in the model. -/

/-- Model of `Engine::handle_place_order`: the events sent on `event_tx` for
one `PlaceOrder` command, and the book afterwards. -/
def handle_place_order (b : OrderBook) (order : Order) (now : Int) :
    OrderBook × List Event :=
  if order.quantity = 0 then
    -- on u64, `order.quantity <= 0` is `== 0`
    (b, [Event.OrderReject order.order_id order.user_id RejectReason.InvalidQuantity
          "Quantity must be greater than 0"])
  else if order.order_type == OrderType.Limit && order.price.getD 0 == 0 then
    (b, [Event.OrderReject order.order_id order.user_id RejectReason.InvalidOrder
          "Price is required for limit orders"])
  else
    let ack := Event.OrderAck order.order_id order.user_id order.symbol
    let order_entry := OrderEntry.new order.order_id order.user_id order.side
      (order.price.getD 0) order.quantity now
    let step :=
      match order.order_type with
      | OrderType.Market => b.match_market_order order_entry now
      | OrderType.Limit => b.match_limit_order order_entry now
    match step with
    | (b2, Except.error e) =>
      (b2, [ack, Event.OrderReject order.order_id order.user_id RejectReason.InvalidOrder
            e.message])
    | (b2, Except.ok result) =>
      let symbol := b2.symbol
      (b2, [ack]
        ++ result.fills.map (fun f => Event.Fill (f.into_protocol symbol))
        ++ result.trades.map (fun t => Event.Trade (t.into_protocol symbol))
        ++ (match result.book_update with
            | some d => [Event.BookUpdate (d.into_protocol symbol)]
            | none => []))

/-- Model of `Engine::handle_cancel_order`: the events sent on `event_tx` for
one `CancelOrder` command, and the book afterwards. -/
def handle_cancel_order (b : OrderBook) (c : CancelOrder) : OrderBook × List Event :=
  match b.remove_order c.order_id with
  | (b2, Except.error e) =>
    (b2, [Event.OrderReject c.order_id c.user_id RejectReason.InvalidOrder e.message])
  | (b2, Except.ok cancelled) =>
    let ev := Event.OrderCancelled cancelled.order_id cancelled.user_id b2.symbol
      CancelReason.UserRequested
    let p := b2.get_depth 20
    (p.1, [ev, Event.BookUpdate (p.2.into_protocol p.1.symbol)])

/-- Substring check on character lists: does the pattern occur at the head. -/
def charsLeadMatch : List Char → List Char → Bool
  | [], _ => true
  | _ :: _, [] => false
  | p :: ps, t :: ts => p == t && charsLeadMatch ps ts

/-- Substring check on character lists: does the pattern occur anywhere. -/
def charsContain (pat : List Char) : List Char → Bool
  | [] => pat.isEmpty
  | t :: ts => charsLeadMatch pat (t :: ts) || charsContain pat ts

/-- Does the string `s` contain `pat` as a substring. -/
def strContains (s pat : String) : Bool :=
  charsContain pat.toList s.toList

/-! Basic lemmas about the association-list table and the sorted level map. -/

theorem lookupTbl_cons (kv : OrderId × OrderEntry) (t : Table) (k : OrderId) :
    lookupTbl (kv :: t) k = if kv.1 = k then some kv.2 else lookupTbl t k := by
  by_cases h : kv.1 = k <;> simp [lookupTbl, List.find?_cons, h]

theorem lookupTbl_erase_self (t : Table) (k : OrderId) :
    lookupTbl (eraseTbl t k) k = none := by
  induction t with
  | nil => rfl
  | cons kv t ih =>
    by_cases h : kv.1 = k
    · simpa [eraseTbl, h] using ih
    · simpa [eraseTbl, List.filter_cons, h, lookupTbl_cons] using ih

theorem lookupTbl_erase_ne (t : Table) (k k' : OrderId) (h : k' ≠ k) :
    lookupTbl (eraseTbl t k) k' = lookupTbl t k' := by
  have hne : ¬(k = k') := fun hh => h hh.symm
  induction t with
  | nil => rfl
  | cons kv t ih =>
    rcases kv with ⟨a, v⟩
    by_cases ha : a = k
    · subst ha
      rw [eraseTbl, List.filter_cons]
      simp only [bne_self_eq_false, Bool.false_eq_true, if_false]
      rw [lookupTbl_cons]
      simp only [if_neg hne]
      exact ih
    · rw [eraseTbl, List.filter_cons]
      have : ((a : OrderId) != k) = true := by simpa using ha
      rw [if_pos this, lookupTbl_cons, lookupTbl_cons]
      exact if_congr Iff.rfl rfl ih

theorem lookupTbl_insert_self (t : Table) (k : OrderId) (v : OrderEntry) :
    lookupTbl (insertTbl t k v) k = some v := by
  simp [insertTbl, lookupTbl_cons]

theorem lookupTbl_insert_ne (t : Table) (k k' : OrderId) (v : OrderEntry) (h : k' ≠ k) :
    lookupTbl (insertTbl t k v) k' = lookupTbl t k' := by
  have hne : ¬(k = k') := fun hh => h hh.symm
  rw [insertTbl, lookupTbl_cons, if_neg hne]
  exact lookupTbl_erase_ne t k k' h

theorem lookupSM_cons (kv : Price × PriceLevel) (m : LevelMap) (k : Price) :
    lookupSM (kv :: m) k = if kv.1 = k then some kv.2 else lookupSM m k := by
  by_cases h : kv.1 = k <;> simp [lookupSM, List.find?_cons, h]

theorem lookupSM_erase_self (m : LevelMap) (k : Price) :
    lookupSM (eraseSM m k) k = none := by
  induction m with
  | nil => rfl
  | cons kv m ih =>
    by_cases h : kv.1 = k
    · simpa [eraseSM, h] using ih
    · simpa [eraseSM, List.filter_cons, h, lookupSM_cons] using ih

theorem lookupSM_erase_ne (m : LevelMap) (k k' : Price) (h : k' ≠ k) :
    lookupSM (eraseSM m k) k' = lookupSM m k' := by
  have hne : ¬(k = k') := fun hh => h hh.symm
  induction m with
  | nil => rfl
  | cons kv m ih =>
    rcases kv with ⟨a, v⟩
    by_cases ha : a = k
    · subst ha
      rw [eraseSM, List.filter_cons]
      simp only [bne_self_eq_false, Bool.false_eq_true, if_false]
      rw [lookupSM_cons]
      simp only [if_neg hne]
      exact ih
    · rw [eraseSM, List.filter_cons]
      have : ((a : Price) != k) = true := by simpa using ha
      rw [if_pos this, lookupSM_cons, lookupSM_cons]
      exact if_congr Iff.rfl rfl ih

theorem lookupSM_update_self (m : LevelMap) (k : Price) (f : PriceLevel → PriceLevel) :
    lookupSM (updateSM m k f) k = (lookupSM m k).map f := by
  induction m with
  | nil => rfl
  | cons kv m ih =>
    rcases kv with ⟨a, v⟩
    by_cases h : a = k
    · subst h
      simp [updateSM, lookupSM_cons]
    · have hb : ((a : Price) == k) = false := by simpa using h
      simp only [updateSM, List.map_cons, hb, Bool.false_eq_true, if_false]
      rw [lookupSM_cons, lookupSM_cons]
      simp only [if_neg h]
      exact ih

theorem lookupSM_update_ne (m : LevelMap) (k k' : Price) (f : PriceLevel → PriceLevel)
    (h : k' ≠ k) : lookupSM (updateSM m k f) k' = lookupSM m k' := by
  have hne : ¬(k = k') := fun hh => h hh.symm
  induction m with
  | nil => rfl
  | cons kv m ih =>
    rcases kv with ⟨a, v⟩
    by_cases ha : a = k
    · subst ha
      simp only [updateSM, List.map_cons, beq_self_eq_true, if_true]
      rw [lookupSM_cons, lookupSM_cons]
      simp only [if_neg hne]
      exact ih
    · have hb : ((a : Price) == k) = false := by simpa using ha
      simp only [updateSM, List.map_cons, hb, Bool.false_eq_true, if_false]
      rw [lookupSM_cons, lookupSM_cons]
      exact if_congr Iff.rfl rfl ih

theorem lookupSM_insert_self (m : LevelMap) (k : Price) (v : PriceLevel) :
    lookupSM (insertSM m k v) k = some v := by
  induction m with
  | nil => simp [insertSM, lookupSM_cons]
  | cons kv m ih =>
    rcases kv with ⟨q, w⟩
    rw [insertSM]
    by_cases h1 : k < q
    · simp [h1, lookupSM_cons]
    · by_cases h2 : k = q
      · simp [h1, h2, lookupSM_cons]
      · have hb : ((k : Price) == q) = false := by simpa using h2
        have hq : ¬((q : Price) = k) := fun hh => h2 hh.symm
        rw [if_neg h1]
        simp only [hb, Bool.false_eq_true, if_false]
        rw [lookupSM_cons, if_neg hq]
        exact ih

theorem lookupSM_insert_ne (m : LevelMap) (k k' : Price) (v : PriceLevel) (h : k' ≠ k) :
    lookupSM (insertSM m k v) k' = lookupSM m k' := by
  have hne : ¬(k = k') := fun hh => h hh.symm
  induction m with
  | nil => simp [insertSM, lookupSM_cons, if_neg hne]
  | cons kv m ih =>
    rcases kv with ⟨q, w⟩
    rw [insertSM]
    by_cases h1 : k < q
    · rw [if_pos h1, lookupSM_cons]
      simp only [if_neg hne]
    · by_cases h2 : k = q
      · subst h2
        rw [if_neg h1]
        simp only [beq_self_eq_true, if_true]
        rw [lookupSM_cons, lookupSM_cons]
        simp only [if_neg hne]
      · have hb : ((k : Price) == q) = false := by simpa using h2
        rw [if_neg h1]
        simp only [hb, Bool.false_eq_true, if_false]
        rw [lookupSM_cons, lookupSM_cons]
        exact if_congr Iff.rfl rfl ih

theorem keys_updateSM (m : LevelMap) (k : Price) (f : PriceLevel → PriceLevel) :
    (updateSM m k f).map (fun kv => kv.1) = m.map (fun kv => kv.1) := by
  induction m with
  | nil => rfl
  | cons kv m ih =>
    rcases kv with ⟨a, v⟩
    by_cases h : a = k
    · subst h
      simpa [updateSM] using ih
    · have hb : ((a : Price) == k) = false := by simpa using h
      simp only [updateSM, List.map_cons, hb, Bool.false_eq_true, if_false] at ih ⊢
      rw [ih]

theorem sortedKeys_updateSM (m : LevelMap) (k : Price) (f : PriceLevel → PriceLevel)
    (h : SortedKeys m) : SortedKeys (updateSM m k f) := by
  unfold SortedKeys at h ⊢
  rw [← List.pairwise_map (f := fun kv : Price × PriceLevel => kv.1)
    (R := fun a b => a < b)] at h ⊢
  rw [keys_updateSM]
  exact h

theorem sortedKeys_eraseSM (m : LevelMap) (k : Price) (h : SortedKeys m) :
    SortedKeys (eraseSM m k) := h.sublist (List.filter_sublist m)

theorem mem_insertSM (m : LevelMap) (k : Price) (v : PriceLevel) (x : Price × PriceLevel)
    (hx : x ∈ insertSM m k v) : x ∈ m ∨ x = (k, v) := by
  induction m with
  | nil => simpa [insertSM] using hx
  | cons kv m ih =>
    rcases kv with ⟨q, w⟩
    rw [insertSM] at hx
    by_cases h1 : k < q
    · rw [if_pos h1] at hx
      rcases List.mem_cons.mp hx with hh | hh
      · exact Or.inr hh
      · exact Or.inl hh
    · by_cases h2 : k = q
      · subst h2
        rw [if_neg h1] at hx
        simp only [beq_self_eq_true, if_true] at hx
        rcases List.mem_cons.mp hx with hh | hh
        · exact Or.inr hh
        · exact Or.inl (List.mem_cons_of_mem _ hh)
      · have hb : ((k : Price) == q) = false := by simpa using h2
        rw [if_neg h1] at hx
        simp only [hb, Bool.false_eq_true, if_false] at hx
        rcases List.mem_cons.mp hx with hh | hh
        · exact Or.inl (hh ▸ List.mem_cons_self _ _)
        · rcases ih hh with hh3 | hh3
          · exact Or.inl (List.mem_cons_of_mem _ hh3)
          · exact Or.inr hh3

theorem sortedKeys_insertSM (m : LevelMap) (k : Price) (v : PriceLevel)
    (h : SortedKeys m) : SortedKeys (insertSM m k v) := by
  induction m with
  | nil => simp [insertSM, SortedKeys]
  | cons kv m ih =>
    rcases kv with ⟨q, w⟩
    rw [SortedKeys, List.pairwise_cons] at h
    rw [insertSM]
    by_cases h1 : k < q
    · rw [if_pos h1]
      refine List.Pairwise.cons ?_ (List.Pairwise.cons h.1 h.2)
      intro b hb
      rcases List.mem_cons.mp hb with hb | hb
      · rw [hb]; exact h1
      · exact lt_trans h1 (h.1 b hb)
    · by_cases h2 : k = q
      · subst h2
        rw [if_neg h1]
        simp only [beq_self_eq_true, if_true]
        exact List.Pairwise.cons h.1 h.2
      · have hb : ((k : Price) == q) = false := by simpa using h2
        rw [if_neg h1]
        simp only [hb, Bool.false_eq_true, if_false]
        refine List.Pairwise.cons ?_ (ih h.2)
        have hqk : q < k := by
          rcases Nat.lt_trichotomy k q with hh | hh | hh
          · exact absurd hh h1
          · exact absurd hh h2
          · exact hh
        intro b hbm
        rcases mem_insertSM m k v b hbm with hb2 | hb2
        · exact h.1 b hb2
        · rw [hb2]; exact hqk

/-! Well-formedness of a book state.  These are the structural invariants
that the spec attributes to the data model (section 3) and that the claims
quantify over; they are stated as bounded quantifiers over the underlying
lists so that they are decidable on concrete books. -/

/-- Contribution of one id to a level sum: the `remaining_quantity` of the
table entry, or `0` when the id is absent from the table. -/
def contrib (t : Table) (oid : OrderId) : Quantity :=
  match lookupTbl t oid with
  | some e => e.remaining_quantity
  | none => 0

/-- Sum of `remaining_quantity` over the ids of a FIFO that are present in
the order table (absent ids contribute zero). -/
def levelSum (t : Table) (fifo : List OrderId) : Quantity :=
  (fifo.map (contrib t)).sum

/-- The ids of a FIFO that are present in the order table, in FIFO order. -/
def liveOrders (t : Table) (fifo : List OrderId) : List OrderId :=
  fifo.filter (fun oid => (lookupTbl t oid).isSome)

/-- The side book that holds orders of side `s`. -/
def sideLevels (b : OrderBook) (s : Side) : LevelMap :=
  match s with
  | Side.Buy => b.bids
  | Side.Sell => b.asks

/-- The other side of the book. -/
def opposite : Side → Side
  | Side.Buy => Side.Sell
  | Side.Sell => Side.Buy

/-- Aggregate invariant of one side: every level's `total_quantity` equals
the sum of table-resident remaining quantities over its FIFO. -/
def AggInv (t : Table) (m : LevelMap) : Prop :=
  ∀ kv ∈ m, kv.2.total_quantity = levelSum t kv.2.orders

/-- Side/price coherence of one side: every FIFO id that is present in the
table belongs to an entry with this side and this level's price. -/
def LocInv (t : Table) (m : LevelMap) (s : Side) : Prop :=
  ∀ kv ∈ m, ∀ oid ∈ kv.2.orders, ∀ e, lookupTbl t oid = some e → e.side = s ∧ e.price = kv.1

/-- Every table entry has nonzero remaining quantity. -/
def PosInv (t : Table) : Prop :=
  ∀ kv ∈ t, kv.2.remaining_quantity ≠ 0

/-- Every level in the map has nonzero aggregate. -/
def NeInv (m : LevelMap) : Prop :=
  ∀ kv ∈ m, kv.2.total_quantity ≠ 0

/-- All FIFO ids of the book, both sides, joined. -/
def allFifoIds (b : OrderBook) : List OrderId :=
  (b.bids.map (fun kv => kv.2.orders)).join ++ (b.asks.map (fun kv => kv.2.orders)).join

/-- The id `oid` is listed in the FIFO of the level at `(e.side, e.price)`. -/
def inOwnLevel (b : OrderBook) (oid : OrderId) (e : OrderEntry) : Prop :=
  ∃ l, lookupSM (sideLevels b e.side) e.price = some l ∧ oid ∈ l.orders

instance (b : OrderBook) (oid : OrderId) (e : OrderEntry) : Decidable (inOwnLevel b oid e) :=
  match h : lookupSM (sideLevels b e.side) e.price with
  | some l =>
    decidable_of_iff (oid ∈ l.orders) (by
      constructor
      · intro hm; exact ⟨l, h, hm⟩
      · rintro ⟨l', hl', hm⟩
        rw [h] at hl'
        cases hl'
        exact hm)
  | none =>
    isFalse (by
      rintro ⟨l', hl', _⟩
      rw [h] at hl'
      cases hl')

/-- Every table entry is listed in the FIFO of its own level. -/
def MemInv (b : OrderBook) : Prop :=
  ∀ kv ∈ b.orders, inOwnLevel b kv.1 kv.2

/-- Well-formedness of a book state: sorted sides, no duplicate table keys,
aggregate/side/price coherence, positive remaining quantities, nonzero level
aggregates, no id listed twice across FIFOs, and every table entry listed in
its own level. -/
def WF (b : OrderBook) : Prop :=
  SortedKeys b.bids ∧ SortedKeys b.asks ∧
  (b.orders.map (fun kv => kv.1)).Nodup ∧
  AggInv b.orders b.bids ∧ AggInv b.orders b.asks ∧
  LocInv b.orders b.bids Side.Buy ∧ LocInv b.orders b.asks Side.Sell ∧
  PosInv b.orders ∧ NeInv b.bids ∧ NeInv b.asks ∧
  (allFifoIds b).Nodup ∧ MemInv b

instance (b : OrderBook) : Decidable (WF b) := by
  unfold WF AggInv LocInv PosInv NeInv MemInv
  infer_instance

/-- Correctness of the depth cache when it is marked fresh. -/
def CacheWF (b : OrderBook) : Prop :=
  b.depth_cache.is_latest = true →
    b.depth_cache.bids = collect_to_fixed_array
      ((b.bids.reverse).map (fun kv => (kv.1, kv.2.get_total_quantity))) ∧
    b.depth_cache.asks = collect_to_fixed_array
      (b.asks.map (fun kv => (kv.1, kv.2.get_total_quantity)))

instance (b : OrderBook) : Decidable (CacheWF b) := by
  unfold CacheWF
  infer_instance

/-- Congruence for `levelSum`: if the table lookups agree on every id of the
FIFO, the sums agree. -/
theorem levelSum_congr (t1 t2 : Table) (fifo : List OrderId)
    (h : ∀ oid ∈ fifo, lookupTbl t1 oid = lookupTbl t2 oid) :
    levelSum t1 fifo = levelSum t2 fifo := by
  unfold levelSum
  induction fifo with
  | nil => rfl
  | cons x xs ih =>
    simp only [List.map_cons, List.sum_cons]
    rw [ih (fun oid hm => h oid (List.mem_cons_of_mem _ hm))]
    unfold contrib
    rw [h x (List.mem_cons_self _ _)]

theorem levelSum_cons (t : Table) (x : OrderId) (xs : List OrderId) :
    levelSum t (x :: xs) = contrib t x + levelSum t xs := by
  simp [levelSum]

theorem levelSum_append (t : Table) (xs ys : List OrderId) :
    levelSum t (xs ++ ys) = levelSum t xs + levelSum t ys := by
  simp [levelSum]

/-- C10: every `BookUpdate` event the engine emits — on the place path and on
the cancel path — carries `last_price = none`, because `Depth::into_protocol`
hard-codes the field to `None`. -/
theorem every_book_update_has_no_last_price (b : OrderBook) (o : Order) (c : CancelOrder)
    (now : Int) :
    (∀ e ∈ (handle_place_order b o now).2, ∀ u, e = Event.BookUpdate u → u.last_price = none) ∧
    (∀ e ∈ (handle_cancel_order b c).2, ∀ u, e = Event.BookUpdate u → u.last_price = none) := by
  constructor
  · intro e he u hu
    subst hu
    by_cases h1 : o.quantity = 0
    · simp only [handle_place_order, if_pos h1] at he
      simp at he
    · by_cases h2 : (o.order_type == OrderType.Limit && o.price.getD 0 == 0) = true
      · simp only [handle_place_order, if_neg h1, if_pos h2] at he
        simp at he
      · simp only [handle_place_order, if_neg h1, if_neg h2] at he
        rcases hs : (match o.order_type with
          | OrderType.Market =>
            b.match_market_order (OrderEntry.new o.order_id o.user_id o.side
              (o.price.getD 0) o.quantity now) now
          | OrderType.Limit =>
            b.match_limit_order (OrderEntry.new o.order_id o.user_id o.side
              (o.price.getD 0) o.quantity now) now) with ⟨b2, res⟩
        rw [hs] at he
        rcases res with e' | r
        · simp at he
        · dsimp only at he
          rcases hbu : r.book_update with _ | d
          · rw [hbu] at he
            simp at he
          · rw [hbu] at he
            simp at he
            rw [he]
            rfl
  · intro e he u hu
    subst hu
    rcases hr : b.remove_order c.order_id with ⟨b2, res⟩
    rcases res with e' | cancelled
    · simp only [handle_cancel_order, hr] at he
      simp at he
    · simp only [handle_cancel_order, hr] at he
      simp only [List.mem_cons, List.not_mem_nil, or_false] at he
      rcases he with he | he
      · cases he
      · simp only [Event.BookUpdate.injEq] at he
        rw [he]
        rfl

/-- Witness for C10 on a concrete run: placing a resting limit bid emits a
`BookUpdate`, and its `last_price` is `none`. -/
theorem every_book_update_has_no_last_price_witness :
    (BookUpdate.mk "S"
      (ProtocolLevel.mk 100 5 :: List.replicate 19 (ProtocolLevel.mk 0 0))
      (List.replicate 20 (ProtocolLevel.mk 0 0)) none).last_price = none :=
  (every_book_update_has_no_last_price (OrderBook.new "S")
    ⟨1, 2, "S", Side.Buy, OrderType.Limit, 5, some 100⟩ ⟨1, 2, "S"⟩ 0).1
    (Event.BookUpdate (BookUpdate.mk "S"
      (ProtocolLevel.mk 100 5 :: List.replicate 19 (ProtocolLevel.mk 0 0))
      (List.replicate 20 (ProtocolLevel.mk 0 0)) none))
    (by decide) _ rfl

/-- C8: a Place with `quantity == 0` yields exactly one `InvalidQuantity`
reject and no book change; a Limit place with missing or zero price yields
exactly one `InvalidOrder` reject and no book change. -/
theorem place_validation_rejects (b : OrderBook) (o : Order) (now : Int) :
    (o.quantity = 0 →
      (handle_place_order b o now).2 =
        [Event.OrderReject o.order_id o.user_id RejectReason.InvalidQuantity
          "Quantity must be greater than 0"] ∧
      (handle_place_order b o now).1 = b) ∧
    (o.quantity ≠ 0 → o.order_type = OrderType.Limit → o.price.getD 0 = 0 →
      (handle_place_order b o now).2 =
        [Event.OrderReject o.order_id o.user_id RejectReason.InvalidOrder
          "Price is required for limit orders"] ∧
      (handle_place_order b o now).1 = b) := by
  constructor
  · intro h1
    rw [handle_place_order, if_pos h1]
    exact ⟨rfl, rfl⟩
  · intro h1 h2 h3
    have hcond : (o.order_type == OrderType.Limit && o.price.getD 0 == 0) = true := by
      simp [h2, h3]
    rw [handle_place_order, if_neg h1, if_pos hcond]
    exact ⟨rfl, rfl⟩

/-- Witness for C8 on concrete rejected places. -/
theorem place_validation_rejects_witness :
    ((handle_place_order (OrderBook.new "S") ⟨1, 2, "S", Side.Buy, OrderType.Limit, 0, some 5⟩ 0).2
       = [Event.OrderReject 1 2 RejectReason.InvalidQuantity "Quantity must be greater than 0"]) ∧
    ((handle_place_order (OrderBook.new "S") ⟨1, 2, "S", Side.Buy, OrderType.Limit, 7, none⟩ 0).2
       = [Event.OrderReject 1 2 RejectReason.InvalidOrder "Price is required for limit orders"]) :=
  ⟨((place_validation_rejects (OrderBook.new "S")
      ⟨1, 2, "S", Side.Buy, OrderType.Limit, 0, some 5⟩ 0).1 rfl).1,
   ((place_validation_rejects (OrderBook.new "S")
      ⟨1, 2, "S", Side.Buy, OrderType.Limit, 7, none⟩ 0).2 (by decide) rfl rfl).1⟩

/-! Concrete example books used by counterexamples. -/

instance {ε α : Type} [DecidableEq ε] [DecidableEq α] : DecidableEq (Except ε α)
  | Except.error a, Except.error b =>
    if h : a = b then isTrue (h ▸ rfl) else isFalse (fun hh => h (by injection hh))
  | Except.error _, Except.ok _ => isFalse (fun hh => Except.noConfusion hh)
  | Except.ok _, Except.error _ => isFalse (fun hh => Except.noConfusion hh)
  | Except.ok a, Except.ok b =>
    if h : a = b then isTrue (h ▸ rfl) else isFalse (fun hh => h (by injection hh))

/-- A resting bid, id 1, 5 lots at price 100. -/
def exOrder1 : OrderEntry := OrderEntry.new 1 10 Side.Buy 100 5 0

/-- A second resting bid at the same price, id 2, 3 lots at price 100. -/
def exOrder2 : OrderEntry := OrderEntry.new 2 11 Side.Buy 100 3 0

/-- A book holding only the first bid. -/
def exBookOneBid : OrderBook := ((OrderBook.new "S").add_order exOrder1).1

/-- A book holding the two bids above at one price level. -/
def exBookTwoBids : OrderBook := (exBookOneBid.add_order exOrder2).1

/-- C3 counterexample: cancelling order 2 on `exBookTwoBids` succeeds and
subtracts its quantity from the aggregate, but the id 2 is NOT removed from
the level's FIFO — the claim says it is removed by identity. -/
theorem remove_order_counterexample :
    (exBookTwoBids.remove_order 2).2 = Except.ok exOrder2 ∧
    lookupSM (exBookTwoBids.remove_order 2).1.bids 100 =
      some { price := 100, orders := [1, 2], total_quantity := 5 } := by
  decide

/-- Full behaviour of `remove_order`: fails with `OrderNotFound` exactly on a
table miss (book unchanged); otherwise removes the entry from the table,
subtracts its remaining quantity from the owning level's aggregate WITHOUT
removing the id from the level's FIFO, drops the level when it becomes
`is_empty`, invalidates the depth cache, and returns the removed order. -/
theorem remove_order_spec (b : OrderBook) (oid : OrderId) :
    (lookupTbl b.orders oid = none →
      b.remove_order oid = (b, Except.error (OrderBookError.OrderNotFound oid))) ∧
    (∀ e, lookupTbl b.orders oid = some e →
      (b.remove_order oid).2 = Except.ok e ∧
      (b.remove_order oid).1.orders = eraseTbl b.orders oid ∧
      (b.remove_order oid).1.depth_cache = { b.depth_cache with is_latest := false } ∧
      (b.remove_order oid).1.symbol = b.symbol ∧
      (b.remove_order oid).1.next_trade_id = b.next_trade_id ∧
      sideLevels (b.remove_order oid).1 (opposite e.side) = sideLevels b (opposite e.side) ∧
      (lookupSM (sideLevels b e.side) e.price = none →
        sideLevels (b.remove_order oid).1 e.side = sideLevels b e.side) ∧
      (∀ l, lookupSM (sideLevels b e.side) e.price = some l →
        ((l.remove_order e.remaining_quantity).is_empty = true →
          sideLevels (b.remove_order oid).1 e.side = eraseSM (sideLevels b e.side) e.price) ∧
        ((l.remove_order e.remaining_quantity).is_empty = false →
          sideLevels (b.remove_order oid).1 e.side =
            updateSM (sideLevels b e.side) e.price
              (fun _ => l.remove_order e.remaining_quantity)))) := by
  constructor
  · intro h
    simp [OrderBook.remove_order, h]
  · intro e he
    rcases e with ⟨eoid, euid, eside, eprice, eq, erem, ets⟩
    cases eside
    · rcases hl : lookupSM b.bids eprice with _ | l
      · refine ⟨?_, ?_, ?_, ?_, ?_, ?_, ?_, ?_⟩ <;>
          first
          | (intro l' hll
             rw [show sideLevels b Side.Buy = b.bids from rfl, hl] at hll
             cases hll)
          | simp [OrderBook.remove_order, he, hl, sideLevels, opposite]
      · by_cases hemp : (l.remove_order erem).is_empty = true
        · refine ⟨?_, ?_, ?_, ?_, ?_, ?_, ?_, ?_⟩
          · simp [OrderBook.remove_order, he, hl, hemp]
          · simp [OrderBook.remove_order, he, hl, hemp]
          · simp [OrderBook.remove_order, he, hl, hemp]
          · simp [OrderBook.remove_order, he, hl, hemp]
          · simp [OrderBook.remove_order, he, hl, hemp]
          · simp [OrderBook.remove_order, he, hl, hemp, sideLevels, opposite]
          · intro hll
            rw [show sideLevels b Side.Buy = b.bids from rfl, hl] at hll
            cases hll
          · intro l' hll
            rw [show sideLevels b Side.Buy = b.bids from rfl, hl] at hll
            injection hll with hll
            subst hll
            refine ⟨?_, ?_⟩
            · intro _
              simp [OrderBook.remove_order, he, hl, hemp, sideLevels]
            · intro hfalse
              rw [hemp] at hfalse
              cases hfalse
        · refine ⟨?_, ?_, ?_, ?_, ?_, ?_, ?_, ?_⟩
          · simp [OrderBook.remove_order, he, hl, hemp]
          · simp [OrderBook.remove_order, he, hl, hemp]
          · simp [OrderBook.remove_order, he, hl, hemp]
          · simp [OrderBook.remove_order, he, hl, hemp]
          · simp [OrderBook.remove_order, he, hl, hemp]
          · simp [OrderBook.remove_order, he, hl, hemp, sideLevels, opposite]
          · intro hll
            rw [show sideLevels b Side.Buy = b.bids from rfl, hl] at hll
            cases hll
          · intro l' hll
            rw [show sideLevels b Side.Buy = b.bids from rfl, hl] at hll
            injection hll with hll
            subst hll
            refine ⟨?_, ?_⟩
            · intro htrue
              exact absurd htrue hemp
            · intro _
              simp [OrderBook.remove_order, he, hl, hemp, sideLevels]
    · rcases hl : lookupSM b.asks eprice with _ | l
      · refine ⟨?_, ?_, ?_, ?_, ?_, ?_, ?_, ?_⟩ <;>
          first
          | (intro l' hll
             rw [show sideLevels b Side.Sell = b.asks from rfl, hl] at hll
             cases hll)
          | simp [OrderBook.remove_order, he, hl, sideLevels, opposite]
      · by_cases hemp : (l.remove_order erem).is_empty = true
        · refine ⟨?_, ?_, ?_, ?_, ?_, ?_, ?_, ?_⟩
          · simp [OrderBook.remove_order, he, hl, hemp]
          · simp [OrderBook.remove_order, he, hl, hemp]
          · simp [OrderBook.remove_order, he, hl, hemp]
          · simp [OrderBook.remove_order, he, hl, hemp]
          · simp [OrderBook.remove_order, he, hl, hemp]
          · simp [OrderBook.remove_order, he, hl, hemp, sideLevels, opposite]
          · intro hll
            rw [show sideLevels b Side.Sell = b.asks from rfl, hl] at hll
            cases hll
          · intro l' hll
            rw [show sideLevels b Side.Sell = b.asks from rfl, hl] at hll
            injection hll with hll
            subst hll
            refine ⟨?_, ?_⟩
            · intro _
              simp [OrderBook.remove_order, he, hl, hemp, sideLevels]
            · intro hfalse
              rw [hemp] at hfalse
              cases hfalse
        · refine ⟨?_, ?_, ?_, ?_, ?_, ?_, ?_, ?_⟩
          · simp [OrderBook.remove_order, he, hl, hemp]
          · simp [OrderBook.remove_order, he, hl, hemp]
          · simp [OrderBook.remove_order, he, hl, hemp]
          · simp [OrderBook.remove_order, he, hl, hemp]
          · simp [OrderBook.remove_order, he, hl, hemp]
          · simp [OrderBook.remove_order, he, hl, hemp, sideLevels, opposite]
          · intro hll
            rw [show sideLevels b Side.Sell = b.asks from rfl, hl] at hll
            cases hll
          · intro l' hll
            rw [show sideLevels b Side.Sell = b.asks from rfl, hl] at hll
            injection hll with hll
            subst hll
            refine ⟨?_, ?_⟩
            · intro htrue
              exact absurd htrue hemp
            · intro _
              simp [OrderBook.remove_order, he, hl, hemp, sideLevels]

/-- C3 amended claim theorem (restatement of `remove_order_spec`). -/
theorem remove_order_contract (b : OrderBook) (oid : OrderId) :
    (lookupTbl b.orders oid = none →
      b.remove_order oid = (b, Except.error (OrderBookError.OrderNotFound oid))) ∧
    (∀ e, lookupTbl b.orders oid = some e →
      (b.remove_order oid).2 = Except.ok e ∧
      (b.remove_order oid).1.orders = eraseTbl b.orders oid ∧
      (b.remove_order oid).1.depth_cache = { b.depth_cache with is_latest := false } ∧
      (∀ l, lookupSM (sideLevels b e.side) e.price = some l →
        (l.remove_order e.remaining_quantity).orders = l.orders ∧
        (if (l.remove_order e.remaining_quantity).is_empty = true then
           lookupSM (sideLevels (b.remove_order oid).1 e.side) e.price = none
         else
           lookupSM (sideLevels (b.remove_order oid).1 e.side) e.price =
             some (l.remove_order e.remaining_quantity)))) := by
  rcases remove_order_spec b oid with ⟨h1, h2⟩
  refine ⟨h1, ?_⟩
  intro e he
  rcases h2 e he with ⟨r1, r2, r3, _, _, _, _, h8⟩
  refine ⟨r1, r2, r3, ?_⟩
  intro l hl
  refine ⟨rfl, ?_⟩
  rcases h8 l hl with ⟨he1, he2⟩
  cases hbool : (l.remove_order e.remaining_quantity).is_empty
  · rw [if_neg (fun hh => Bool.noConfusion hh)]
    rw [he2 hbool, lookupSM_update_self, hl]
    rfl
  · rw [if_pos rfl, he1 hbool]
    exact lookupSM_erase_self _ _

/-- Witness for the amended C3 contract on concrete inputs: a missing id and
a present id. -/
theorem remove_order_contract_witness :
    ((OrderBook.new "S").remove_order 7 =
      ((OrderBook.new "S"), Except.error (OrderBookError.OrderNotFound 7))) ∧
    (exBookTwoBids.remove_order 2).2 = Except.ok exOrder2 :=
  ⟨(remove_order_contract (OrderBook.new "S") 7).1 rfl,
   ((remove_order_contract exBookTwoBids 2).2 exOrder2 (by decide)).1⟩

/-! Depth-cache lemmas for C7 and C9. -/

theorem lookupSM_of_mem (m : LevelMap) (kv : Price × PriceLevel) (hs : SortedKeys m)
    (h : kv ∈ m) : lookupSM m kv.1 = some kv.2 := by
  induction m with
  | nil => cases h
  | cons hd tl ih =>
    rw [SortedKeys, List.pairwise_cons] at hs
    rcases List.mem_cons.mp h with h | h
    · subst h
      rw [lookupSM_cons, if_pos rfl]
    · rw [lookupSM_cons]
      have hne : hd.1 ≠ kv.1 := Nat.ne_of_lt (hs.1 kv h)
      rw [if_neg hne]
      exact ih hs.2 h

/-- The bid-side depth data: (price, aggregate) pairs, best (highest) first. -/
def bidsData (b : OrderBook) : List (Price × Quantity) :=
  (b.bids.reverse).map (fun kv => (kv.1, kv.2.get_total_quantity))

/-- The ask-side depth data: (price, aggregate) pairs, best (lowest) first. -/
def asksData (b : OrderBook) : List (Price × Quantity) :=
  b.asks.map (fun kv => (kv.1, kv.2.get_total_quantity))

theorem collect_length (X : List (Price × Quantity)) :
    (collect_to_fixed_array X).length = CACHE_LIMIT := by
  simp only [collect_to_fixed_array, List.length_append, List.length_take,
    List.length_replicate]
  omega

theorem collect_take (X : List (Price × Quantity)) (k : Nat) (hk : k ≤ CACHE_LIMIT) :
    (collect_to_fixed_array X).take k = X.take k ++ List.replicate (k - X.length) (0, 0) := by
  unfold collect_to_fixed_array
  rw [List.take_append_eq_append_take]
  congr 1
  · rw [List.take_take]
    congr 1
    simp only [CACHE_LIMIT] at hk ⊢
    omega
  · rw [List.take_replicate]
    congr 1
    simp only [List.length_take, CACHE_LIMIT] at hk ⊢
    omega

theorem get_depth_eq (b : OrderBook) (limit : Nat) (hc : CacheWF b) :
    (b.get_depth limit).2.bids =
      (bidsData b).take (min CACHE_LIMIT limit) ++
        List.replicate (min CACHE_LIMIT limit - (bidsData b).length) (0, 0) ∧
    (b.get_depth limit).2.asks =
      (asksData b).take (min CACHE_LIMIT limit) ++
        List.replicate (min CACHE_LIMIT limit - (asksData b).length) (0, 0) := by
  rcases hfresh : b.depth_cache.is_latest with _ | _
  · have hbids : (b.get_depth limit).2.bids =
        (collect_to_fixed_array (bidsData b)).take
          (min (collect_to_fixed_array (bidsData b)).length limit) := by
      simp [OrderBook.get_depth, OrderBook.update_depth_cache, hfresh, bidsData]
    have hasks : (b.get_depth limit).2.asks =
        (collect_to_fixed_array (asksData b)).take
          (min (collect_to_fixed_array (asksData b)).length limit) := by
      simp [OrderBook.get_depth, OrderBook.update_depth_cache, hfresh, asksData]
    rw [hbids, hasks, collect_length, collect_length]
    exact ⟨collect_take _ _ (Nat.min_le_left _ _), collect_take _ _ (Nat.min_le_left _ _)⟩
  · rcases hc hfresh with ⟨hcb, hca⟩
    have hbids : (b.get_depth limit).2.bids =
        b.depth_cache.bids.take (min b.depth_cache.bids.length limit) := by
      simp [OrderBook.get_depth, hfresh]
    have hasks : (b.get_depth limit).2.asks =
        b.depth_cache.asks.take (min b.depth_cache.asks.length limit) := by
      simp [OrderBook.get_depth, hfresh]
    rw [hbids, hasks, hcb, hca, collect_length, collect_length]
    refine ⟨?_, ?_⟩
    · rw [show (b.bids.reverse).map (fun kv => (kv.1, kv.2.get_total_quantity)) = bidsData b
        from rfl]
      exact collect_take _ _ (Nat.min_le_left _ _)
    · rw [show b.asks.map (fun kv => (kv.1, kv.2.get_total_quantity)) = asksData b from rfl]
      exact collect_take _ _ (Nat.min_le_left _ _)

/-- Full behaviour of `add_order` on a validated order. -/
theorem add_order_spec (b : OrderBook) (o : OrderEntry)
    (hq : o.quantity ≠ 0) (hp : o.price ≠ 0) :
    (b.add_order o).2 = Except.ok () ∧
    (b.add_order o).1.orders = insertTbl b.orders o.order_id o ∧
    (b.add_order o).1.depth_cache = { b.depth_cache with is_latest := false } ∧
    (b.add_order o).1.symbol = b.symbol ∧
    (b.add_order o).1.next_trade_id = b.next_trade_id ∧
    sideLevels (b.add_order o).1 (opposite o.side) = sideLevels b (opposite o.side) ∧
    sideLevels (b.add_order o).1 o.side =
      (match lookupSM (sideLevels b o.side) o.price with
       | some _ => updateSM (sideLevels b o.side) o.price
           (fun l => l.add_order o.order_id o.remaining_quantity)
       | none => insertSM (sideLevels b o.side) o.price
           ((PriceLevel.new o.price).add_order o.order_id o.remaining_quantity)) := by
  have hval : o.validate_order = Except.ok () := by
    rw [OrderEntry.validate_order, if_neg hq, if_neg hp]
  rcases o with ⟨oid, uid, side, price, q, rem, ts⟩
  cases side
  · rcases hl : lookupSM b.bids price with _ | l <;>
      refine ⟨?_, ?_, ?_, ?_, ?_, ?_, ?_⟩ <;>
      simp [OrderBook.add_order, hval, hl, sideLevels, opposite]
  · rcases hl : lookupSM b.asks price with _ | l <;>
      refine ⟨?_, ?_, ?_, ?_, ?_, ?_, ?_⟩ <;>
      simp [OrderBook.add_order, hval, hl, sideLevels, opposite]

theorem eraseTbl_insertTbl (t : Table) (k : OrderId) (v : OrderEntry) :
    eraseTbl (insertTbl t k v) k = eraseTbl t k := by
  simp [insertTbl, eraseTbl, List.filter_filter]

theorem eraseTbl_of_lookup_none (t : Table) (k : OrderId) (h : lookupTbl t k = none) :
    eraseTbl t k = t := by
  induction t with
  | nil => rfl
  | cons kv t ih =>
    rw [lookupTbl_cons] at h
    by_cases hk : kv.1 = k
    · rw [if_pos hk] at h
      cases h
    · rw [if_neg hk] at h
      rw [eraseTbl, List.filter_cons]
      have : (kv.1 != k) = true := by simpa using hk
      rw [if_pos this]
      rw [show List.filter (fun kv => kv.1 != k) t = eraseTbl t k from rfl, ih h]

theorem eraseSM_id_of_forall (m : LevelMap) (k : Price) (h : ∀ kv ∈ m, kv.1 ≠ k) :
    eraseSM m k = m := by
  induction m with
  | nil => rfl
  | cons kv m ih =>
    have hk : (kv.1 != k) = true := by simpa using h kv (List.mem_cons_self _ _)
    rw [eraseSM, List.filter_cons, if_pos hk]
    congr 1
    exact ih (fun x hx => h x (List.mem_cons_of_mem _ hx))

theorem eraseSM_insertSM_fresh (m : LevelMap) (k : Price) (v : PriceLevel)
    (h : ∀ kv ∈ m, kv.1 ≠ k) : eraseSM (insertSM m k v) k = m := by
  induction m with
  | nil => simp [insertSM, eraseSM]
  | cons kv m ih =>
    rcases kv with ⟨q, w⟩
    have hq : q ≠ k := h (q, w) (List.mem_cons_self _ _)
    have hqb : ((q : Price) != k) = true := by simpa using hq
    have htail : ∀ kv ∈ m, kv.1 ≠ k := fun x hx => h x (List.mem_cons_of_mem _ hx)
    rw [insertSM]
    by_cases h1 : k < q
    · rw [if_pos h1, eraseSM, List.filter_cons]
      simp only [bne_self_eq_false, Bool.false_eq_true, if_false]
      rw [List.filter_cons, if_pos hqb]
      congr 1
      exact eraseSM_id_of_forall m k htail
    · by_cases h2 : k = q
      · exact absurd h2.symm hq
      · have hb : ((k : Price) == q) = false := by simpa using h2
        rw [if_neg h1]
        simp only [hb, Bool.false_eq_true, if_false]
        rw [eraseSM, List.filter_cons, if_pos hqb]
        congr 1
        exact ih htail

theorem updateSM_cons (q : Price) (w : PriceLevel) (m : LevelMap) (k : Price)
    (f : PriceLevel → PriceLevel) :
    updateSM ((q, w) :: m) k f =
      (if q = k then (q, f w) else (q, w)) :: updateSM m k f := by
  by_cases h : q = k
  · subst h
    simp [updateSM]
  · have hb : ((q : Price) == k) = false := by simpa using h
    simp [updateSM, hb, h]

theorem updateSM_comp (m : LevelMap) (k : Price) (f g : PriceLevel → PriceLevel) :
    updateSM (updateSM m k f) k g = updateSM m k (fun l => g (f l)) := by
  induction m with
  | nil => rfl
  | cons kv m ih =>
    rcases kv with ⟨q, w⟩
    by_cases h : q = k
    · subst h
      rw [updateSM_cons, if_pos rfl, updateSM_cons, if_pos rfl, updateSM_cons, if_pos rfl]
      exact congrArg (List.cons _) ih
    · rw [updateSM_cons, if_neg h, updateSM_cons, if_neg h, updateSM_cons, if_neg h]
      exact congrArg (List.cons _) ih

theorem updateSM_id_of_none (m : LevelMap) (k : Price) (f : PriceLevel → PriceLevel)
    (h : ∀ kv ∈ m, kv.1 ≠ k) : updateSM m k f = m := by
  induction m with
  | nil => rfl
  | cons kv m ih =>
    have hk : kv.1 ≠ k := h kv (List.mem_cons_self _ _)
    have hb : (kv.1 == k) = false := by simpa using hk
    simp only [updateSM, List.map_cons, hb, Bool.false_eq_true, if_false]
    congr 1
    exact ih (fun x hx => h x (List.mem_cons_of_mem _ hx))

/-- Keys strictly after a sorted head are distinct from the head's key. -/
theorem sorted_tail_ne (m : LevelMap) (k : Price) (w : PriceLevel)
    (hs : SortedKeys ((k, w) :: m)) : ∀ kv ∈ m, kv.1 ≠ k := by
  rw [SortedKeys, List.pairwise_cons] at hs
  intro kv hkv
  exact Nat.ne_of_gt (hs.1 kv hkv)

/-- Replacing the level at a key by one with the same aggregate leaves the
side's depth data unchanged. -/
theorem dataMap_update_const (m : LevelMap) (k : Price) (lvl : PriceLevel)
    (hs : SortedKeys m) (l : PriceLevel) (hl : lookupSM m k = some l)
    (htot : lvl.get_total_quantity = l.get_total_quantity) :
    (updateSM m k (fun _ => lvl)).map (fun kv => (kv.1, kv.2.get_total_quantity)) =
      m.map (fun kv => (kv.1, kv.2.get_total_quantity)) := by
  induction m with
  | nil => rfl
  | cons kv m ih =>
    rcases kv with ⟨q, w⟩
    rw [lookupSM_cons] at hl
    by_cases h : q = k
    · subst h
      rw [if_pos rfl] at hl
      injection hl with hl
      subst hl
      rw [updateSM_cons, if_pos rfl,
        updateSM_id_of_none m q _ (sorted_tail_ne m q w hs),
        List.map_cons, List.map_cons]
      congr 1
      simp only [PriceLevel.get_total_quantity] at htot
      simp [PriceLevel.get_total_quantity, htot]
    · have hs2 : SortedKeys m := by
        rw [SortedKeys, List.pairwise_cons] at hs
        exact hs.2
      rw [if_neg h] at hl
      rw [updateSM_cons, if_neg h, List.map_cons, List.map_cons]
      congr 1
      exact ih hs2 hl

theorem depth_eq_of_parts {d1 d2 : Depth} (h1 : d1.bids = d2.bids)
    (h2 : d1.asks = d2.asks) : d1 = d2 := by
  cases d1
  cases d2
  cases h1
  cases h2
  rfl

/-- Books with equal depth data return equal `get_depth` snapshots. -/
theorem get_depth_data_eq (b1 b2 : OrderBook) (limit : Nat)
    (h1 : CacheWF b1) (h2 : CacheWF b2)
    (hb : bidsData b1 = bidsData b2) (ha : asksData b1 = asksData b2) :
    (b1.get_depth limit).2 = (b2.get_depth limit).2 := by
  rcases get_depth_eq b1 limit h1 with ⟨x1, y1⟩
  rcases get_depth_eq b2 limit h2 with ⟨x2, y2⟩
  refine depth_eq_of_parts ?_ ?_
  · rw [x1, x2, hb]
  · rw [y1, y2, ha]

/-- A book whose cache is stale is vacuously cache-well-formed. -/
theorem cacheWF_of_stale (b : OrderBook) (h : b.depth_cache.is_latest = false) :
    CacheWF b := by
  intro hh
  rw [h] at hh
  cases hh

theorem satAdd_eq (a c : Nat) (h : a + c ≤ U64MAX) : satAdd a c = a + c :=
  Nat.min_eq_left h

theorem forall_ne_of_lookupSM_none (m : LevelMap) (k : Price)
    (h : lookupSM m k = none) : ∀ kv ∈ m, kv.1 ≠ k := by
  induction m with
  | nil => intro kv hkv; cases hkv
  | cons hd tl ih =>
    rw [lookupSM_cons] at h
    by_cases hh : hd.1 = k
    · rw [if_pos hh] at h
      cases h
    · rw [if_neg hh] at h
      intro kv hkv
      rcases List.mem_cons.mp hkv with hkv | hkv
      · rw [hkv]; exact hh
      · exact ih h kv hkv

/-- Equal per-side depth data (own side up to aggregates, opposite side
exactly) gives equal `get_depth` snapshots. -/
theorem get_depth_eq_of_side_data (r b : OrderBook) (s : Side) (limit : Nat)
    (hr : CacheWF r) (hb : CacheWF b)
    (hown : (sideLevels r s).map (fun kv => (kv.1, kv.2.get_total_quantity)) =
      (sideLevels b s).map (fun kv => (kv.1, kv.2.get_total_quantity)))
    (hopp : sideLevels r (opposite s) = sideLevels b (opposite s)) :
    (r.get_depth limit).2 = (b.get_depth limit).2 := by
  cases s
  · refine get_depth_data_eq r b limit hr hb ?_ ?_
    · unfold bidsData
      rw [List.map_reverse, List.map_reverse]
      rw [show r.bids = sideLevels r Side.Buy from rfl,
        show b.bids = sideLevels b Side.Buy from rfl, hown]
    · unfold asksData
      rw [show r.asks = sideLevels r (opposite Side.Buy) from rfl,
        show b.asks = sideLevels b (opposite Side.Buy) from rfl, hopp]
  · refine get_depth_data_eq r b limit hr hb ?_ ?_
    · unfold bidsData
      rw [show r.bids = sideLevels r (opposite Side.Sell) from rfl,
        show b.bids = sideLevels b (opposite Side.Sell) from rfl, hopp]
    · unfold asksData
      rw [show r.asks = sideLevels r Side.Sell from rfl,
        show b.asks = sideLevels b Side.Sell from rfl, hown]

/-- C9 counterexample: on a book with one resting bid at price 100, adding a
second order at that price and removing it restores the aggregate (5) and the
depth data, but the FIFO at the price is `[1, 2]` instead of the pre-add
`[1]` — the removed id remains as a stale entry, so FIFO membership is not
restored and the two books differ. -/
theorem add_remove_roundtrip_counterexample :
    lookupSM (((OrderBook.new "S").add_order exOrder1).1).bids 100 =
      some { price := 100, orders := [1], total_quantity := 5 } ∧
    lookupSM ((exBookTwoBids.remove_order 2).1).bids 100 =
      some { price := 100, orders := [1, 2], total_quantity := 5 } ∧
    (exBookTwoBids.remove_order 2).1 ≠ ((OrderBook.new "S").add_order exOrder1).1 := by
  decide

/-- C9 amended: adding a fresh valid order and then removing it restores the
order table exactly, restores the owning level's aggregate and the depth
snapshots (for every `get_depth` limit), and restores the price level itself
when the add created it; but when a level already existed at that price, its
FIFO keeps the removed id as a stale trailing entry. -/
theorem add_then_remove_restores (b : OrderBook) (o : OrderEntry)
    (hq : o.quantity ≠ 0) (hp : o.price ≠ 0)
    (hfresh : lookupTbl b.orders o.order_id = none)
    (hsortb : SortedKeys b.bids) (hsorta : SortedKeys b.asks)
    (hrm : o.remaining_quantity ≤ U64MAX)
    (hlev : ∀ l, lookupSM (sideLevels b o.side) o.price = some l →
      l.total_quantity + o.remaining_quantity ≤ U64MAX ∧ l.total_quantity ≠ 0)
    (hcache : CacheWF b) :
    ((b.add_order o).1.remove_order o.order_id).2 = Except.ok o ∧
    ((b.add_order o).1.remove_order o.order_id).1.orders = b.orders ∧
    (lookupSM (sideLevels b o.side) o.price = none →
      lookupSM (sideLevels ((b.add_order o).1.remove_order o.order_id).1 o.side) o.price
        = none) ∧
    (∀ l, lookupSM (sideLevels b o.side) o.price = some l →
      lookupSM (sideLevels ((b.add_order o).1.remove_order o.order_id).1 o.side) o.price =
        some { price := l.price, orders := l.orders ++ [o.order_id],
               total_quantity := l.total_quantity }) ∧
    (∀ limit, (((b.add_order o).1.remove_order o.order_id).1.get_depth limit).2 =
      (b.get_depth limit).2) := by
  rcases add_order_spec b o hq hp with ⟨a1, a2, a3, a4, a5, a6, a7⟩
  have hlook1 : lookupTbl (b.add_order o).1.orders o.order_id = some o := by
    rw [a2]
    exact lookupTbl_insert_self _ _ _
  rcases (remove_order_spec (b.add_order o).1 o.order_id).2 o hlook1 with
    ⟨r1, r2, r3, r4, r5, r6, r7, r8⟩
  have horders : ((b.add_order o).1.remove_order o.order_id).1.orders = b.orders := by
    rw [r2, a2, eraseTbl_insertTbl, eraseTbl_of_lookup_none _ _ hfresh]
  have hrstale : ((b.add_order o).1.remove_order o.order_id).1.depth_cache.is_latest
      = false := by
    rw [r3]
  have hrcache : CacheWF ((b.add_order o).1.remove_order o.order_id).1 :=
    cacheWF_of_stale _ hrstale
  have hopp : sideLevels ((b.add_order o).1.remove_order o.order_id).1 (opposite o.side) =
      sideLevels b (opposite o.side) := r6.trans a6
  have hsortown : SortedKeys (sideLevels b o.side) := by
    cases hside : o.side
    · exact hsortb
    · exact hsorta
  rcases hm : lookupSM (sideLevels b o.side) o.price with _ | l
  · -- no level existed at the price before the add
    have hkeys : ∀ kv ∈ sideLevels b o.side, kv.1 ≠ o.price :=
      forall_ne_of_lookupSM_none _ _ hm
    have hb1side : sideLevels (b.add_order o).1 o.side =
        insertSM (sideLevels b o.side) o.price
          ((PriceLevel.new o.price).add_order o.order_id o.remaining_quantity) :=
      a7.trans (by rw [hm])
    have hlookb1 : lookupSM (sideLevels (b.add_order o).1 o.side) o.price =
        some ((PriceLevel.new o.price).add_order o.order_id o.remaining_quantity) := by
      rw [hb1side]
      exact lookupSM_insert_self _ _ _
    have hemp : (((PriceLevel.new o.price).add_order o.order_id
        o.remaining_quantity).remove_order o.remaining_quantity).is_empty = true := by
      have : satAdd 0 o.remaining_quantity = o.remaining_quantity := by
        rw [satAdd_eq 0 o.remaining_quantity (by simpa using hrm), Nat.zero_add]
      simp [PriceLevel.is_empty, PriceLevel.remove_order, PriceLevel.add_order,
        PriceLevel.new, this]
    have hrside : sideLevels ((b.add_order o).1.remove_order o.order_id).1 o.side =
        sideLevels b o.side := by
      rw [(r8 _ hlookb1).1 hemp, hb1side]
      exact eraseSM_insertSM_fresh _ _ _ hkeys
    refine ⟨r1, horders, ?_, ?_, ?_⟩
    · intro _
      rw [hrside]
      exact hm
    · intro l hl
      exact Option.noConfusion hl
    · intro limit
      refine get_depth_eq_of_side_data _ _ o.side limit hrcache hcache ?_ hopp
      rw [hrside]
  · -- a level already existed at the price
    rcases hlev l hm with ⟨hbound, hnz⟩
    have hb1side : sideLevels (b.add_order o).1 o.side =
        updateSM (sideLevels b o.side) o.price
          (fun lv => lv.add_order o.order_id o.remaining_quantity) :=
      a7.trans (by rw [hm])
    have hlookb1 : lookupSM (sideLevels (b.add_order o).1 o.side) o.price =
        some (l.add_order o.order_id o.remaining_quantity) := by
      rw [hb1side, lookupSM_update_self, hm]
      rfl
    have htotal : ((l.add_order o.order_id o.remaining_quantity).remove_order
        o.remaining_quantity).total_quantity = l.total_quantity := by
      simp only [PriceLevel.add_order, PriceLevel.remove_order]
      rw [satAdd_eq _ _ hbound]
      simp
    have hempf : ((l.add_order o.order_id o.remaining_quantity).remove_order
        o.remaining_quantity).is_empty = false := by
      rw [PriceLevel.is_empty]
      have h1 : (((l.add_order o.order_id o.remaining_quantity).remove_order
          o.remaining_quantity).total_quantity == 0) = false := by
        rw [htotal]
        simpa using hnz
      have h2 : ((l.add_order o.order_id o.remaining_quantity).remove_order
          o.remaining_quantity).orders.isEmpty = false := by
        simp [PriceLevel.add_order, PriceLevel.remove_order]
      rw [h1, h2]
      rfl
    have hrside : sideLevels ((b.add_order o).1.remove_order o.order_id).1 o.side =
        updateSM (sideLevels b o.side) o.price
          (fun _ => (l.add_order o.order_id o.remaining_quantity).remove_order
            o.remaining_quantity) := by
      rw [(r8 _ hlookb1).2 hempf, hb1side, updateSM_comp]
    refine ⟨r1, horders, ?_, ?_, ?_⟩
    · intro hnone
      exact Option.noConfusion hnone
    · intro l' hl'
      injection hl' with hl'
      subst hl'
      have hstep : lookupSM (sideLevels ((b.add_order o).1.remove_order o.order_id).1
          o.side) o.price = some ((l.add_order o.order_id o.remaining_quantity).remove_order
            o.remaining_quantity) := by
        rw [hrside, lookupSM_update_self, hm]
        rfl
      rw [hstep]
      congr 1
      rcases l with ⟨lp, lo, lt⟩
      simp only [PriceLevel.add_order, PriceLevel.remove_order] at htotal ⊢
      rw [htotal]
    · intro limit
      refine get_depth_eq_of_side_data _ _ o.side limit hrcache hcache ?_ hopp
      rw [hrside]
      refine dataMap_update_const _ _ _ hsortown l hm ?_
      exact htotal

/-- Witness for C9 on a concrete book: remove after add restores the table
and the depth snapshot. -/
theorem add_then_remove_restores_witness :
    ((exBookOneBid.add_order exOrder2).1.remove_order 2).2 = Except.ok exOrder2 ∧
    ((exBookOneBid.add_order exOrder2).1.remove_order 2).1.orders = exBookOneBid.orders ∧
    (((exBookOneBid.add_order exOrder2).1.remove_order 2).1.get_depth 20).2 =
      (exBookOneBid.get_depth 20).2 := by
  have h := add_then_remove_restores exBookOneBid exOrder2 (by decide) (by decide)
    (by decide) (by decide) (by decide) (by decide)
    (by decide) (by decide)
  exact ⟨h.1, h.2.1, h.2.2.2.2 20⟩

/-- C7 counterexample: on an empty book, `get_depth 1` returns one `(0, 0)`
entry per side although no level exists at price 0 — the claim says no
entries are returned for prices at which no level exists. -/
theorem get_depth_counterexample :
    ((OrderBook.new "S").get_depth 1).2 = { bids := [(0, 0)], asks := [(0, 0)] } ∧
    lookupSM (OrderBook.new "S").bids 0 = none ∧
    lookupSM (OrderBook.new "S").asks 0 = none := by
  decide

/-- C7 amended: `get_depth limit` refreshes the cache when stale and returns,
per side, the top `min (limit, 25)` cache entries: the existing levels in
priority order (bids descending, asks ascending) as (price, aggregate) pairs,
padded with `(0, 0)` placeholder entries up to `min (limit, 25)` when fewer
levels exist. -/
theorem get_depth_returns_top_levels (b : OrderBook) (limit : Nat)
    (hb : SortedKeys b.bids) (ha : SortedKeys b.asks) (hc : CacheWF b) :
    ((b.get_depth limit).2.bids =
      (bidsData b).take (min CACHE_LIMIT limit) ++
        List.replicate (min CACHE_LIMIT limit - (bidsData b).length) (0, 0)) ∧
    ((b.get_depth limit).2.asks =
      (asksData b).take (min CACHE_LIMIT limit) ++
        List.replicate (min CACHE_LIMIT limit - (asksData b).length) (0, 0)) ∧
    ((bidsData b).map Prod.fst).Pairwise (fun a c => c < a) ∧
    ((asksData b).map Prod.fst).Pairwise (fun a c => a < c) ∧
    (∀ pq ∈ bidsData b, ∃ l, lookupSM b.bids pq.1 = some l ∧ l.get_total_quantity = pq.2) ∧
    (∀ pq ∈ asksData b, ∃ l, lookupSM b.asks pq.1 = some l ∧ l.get_total_quantity = pq.2) := by
  rcases get_depth_eq b limit hc with ⟨h1, h2⟩
  refine ⟨h1, h2, ?_, ?_, ?_, ?_⟩
  · unfold bidsData
    rw [List.map_map, List.pairwise_map, List.pairwise_reverse]
    exact hb
  · unfold asksData
    rw [List.map_map, List.pairwise_map]
    exact ha
  · intro pq hpq
    unfold bidsData at hpq
    rcases List.mem_map.mp hpq with ⟨kv, hkv, hkveq⟩
    rw [List.mem_reverse] at hkv
    refine ⟨kv.2, ?_, ?_⟩
    · rw [← hkveq]
      exact lookupSM_of_mem b.bids kv hb hkv
    · rw [← hkveq]
  · intro pq hpq
    unfold asksData at hpq
    rcases List.mem_map.mp hpq with ⟨kv, hkv, hkveq⟩
    refine ⟨kv.2, ?_, ?_⟩
    · rw [← hkveq]
      exact lookupSM_of_mem b.asks kv ha hkv
    · rw [← hkveq]

/-- Witness for C7 applying the depth theorem on a concrete book. -/
theorem get_depth_returns_top_levels_witness :
    (exBookTwoBids.get_depth 2).2.bids =
      (bidsData exBookTwoBids).take (min CACHE_LIMIT 2) ++
        List.replicate (min CACHE_LIMIT 2 - (bidsData exBookTwoBids).length) (0, 0) :=
  (get_depth_returns_top_levels exBookTwoBids 2 (by decide) (by decide) (by decide)).1

/-! Concrete scenario for C5: two resting asks of 10 at price 50000, then a
buy limit for 20 at 50000 that matches both. -/

/-- Book after placing sell order 1 (user 100) and sell order 2 (user 101),
each 10 lots at price 50000. -/
def exSellBook : OrderBook :=
  (handle_place_order
    (handle_place_order (OrderBook.new "SOL/USD")
      ⟨1, 100, "SOL/USD", Side.Sell, OrderType.Limit, 10, some 50000⟩ 0).1
    ⟨2, 101, "SOL/USD", Side.Sell, OrderType.Limit, 10, some 50000⟩ 0).1

/-- The place command that matches both resting asks. -/
def exBigBuy : Order := ⟨3, 200, "SOL/USD", Side.Buy, OrderType.Limit, 20, some 50000⟩

/-- C5 counterexample: with two matches, the engine emits Ack, then the four
Fills (maker, taker, maker, taker), then the two Trades, then the
BookUpdate — the event at index 3 is the second maker's Fill, not the first
match's Trade as the claimed triple grouping {maker Fill, taker Fill, Trade}
would put there. -/
theorem place_event_order_counterexample :
    (handle_place_order exSellBook exBigBuy 0).2 =
      [Event.OrderAck 3 200 "SOL/USD",
       Event.Fill ⟨1, 100, "SOL/USD", Side.Sell, 10, 50000, 0⟩,
       Event.Fill ⟨3, 200, "SOL/USD", Side.Buy, 10, 50000, 10⟩,
       Event.Fill ⟨2, 101, "SOL/USD", Side.Sell, 10, 50000, 0⟩,
       Event.Fill ⟨3, 200, "SOL/USD", Side.Buy, 10, 50000, 0⟩,
       Event.Trade ⟨1, 1, 100, 3, 200, "SOL/USD", 10, 50000, 0⟩,
       Event.Trade ⟨2, 2, 101, 3, 200, "SOL/USD", 10, 50000, 0⟩,
       Event.BookUpdate ⟨"SOL/USD", List.replicate 20 ⟨0, 0⟩, List.replicate 20 ⟨0, 0⟩, none⟩] ∧
    (handle_place_order exSellBook exBigBuy 0).2.get? 3 =
      some (Event.Fill ⟨2, 101, "SOL/USD", Side.Sell, 10, 50000, 0⟩) := by
  decide

/-! C5 amended: the engine emits, for one accepted Place, the Ack first, then
ALL Fill events (maker fill then taker fill for each match, matches in
priority order), then ALL Trade events in the same order, then at most one
BookUpdate; on a match error (market orders included) the only events are the
Ack and the terminal Reject.  `Paired fills trades` records that the fill
list consists of consecutive (maker, taker) pairs aligned with the trades. -/

/-- The fill list consists of consecutive (maker fill, taker fill) pairs, one
pair per trade and in trade order, with matching ids, users, price and
quantity. -/
inductive Paired : List Fill → List Trade → Prop where
  | nil : Paired [] []
  | cons : ∀ (mf tf : Fill) (t : Trade) (fs : List Fill) (ts : List Trade),
      mf.order_id = t.maker_order_id → mf.user_id = t.maker_user_id →
      mf.filled_price = t.price → mf.filled_quantity = t.quantity →
      tf.order_id = t.taker_order_id → tf.user_id = t.taker_user_id →
      tf.filled_price = t.price → tf.filled_quantity = t.quantity →
      Paired fs ts → Paired (mf :: tf :: fs) (t :: ts)

theorem Paired.append {fs ts fs' ts'} (h : Paired fs ts) (h' : Paired fs' ts') :
    Paired (fs ++ fs') (ts ++ ts') := by
  induction h with
  | nil => simpa using h'
  | cons mf tf t fs ts e1 e2 e3 e4 e5 e6 e7 e8 hp ih =>
    simpa using Paired.cons mf tf t _ _ e1 e2 e3 e4 e5 e6 e7 e8 ih

theorem fillLoop_paired (now : Int) (price : Price) :
    ∀ (fifo : List OrderId) (acc : MatchAcc) (total : Quantity),
      Paired acc.fills acc.trades →
      Paired (fillLoop now price acc fifo total).acc.fills
        (fillLoop now price acc fifo total).acc.trades := by
  intro fifo
  induction fifo with
  | nil =>
    intro acc total h
    rw [fillLoop]
    split
    · exact h
    · split
      · exact h
      · exact h
  | cons mid rest ih =>
    intro acc total h
    rw [fillLoop]
    split
    · exact h
    · split
      · exact h
      · rcases hlk : lookupTbl acc.orders mid with _ | maker
        · simp only [hlk]
          exact ih acc total h
        · simp only [hlk]
          rcases hf1 : maker.fill (min maker.remaining_quantity acc.taker.remaining_quantity)
              with e | mk <;>
            rcases hf2 : acc.taker.fill
                (min maker.remaining_quantity acc.taker.remaining_quantity) with e2 | tk <;>
            simp only [hf1, hf2]
          · exact h
          · exact h
          · exact h
          · have hpair : Paired
                (acc.fills ++
                  [⟨mid, mk.user_id, mk.side, price,
                    min maker.remaining_quantity acc.taker.remaining_quantity,
                    mk.remaining_quantity⟩,
                   ⟨tk.order_id, tk.user_id, tk.side, price,
                    min maker.remaining_quantity acc.taker.remaining_quantity,
                    tk.remaining_quantity⟩])
                (acc.trades ++
                  [⟨acc.next_trade_id, mid, mk.user_id, tk.order_id, tk.user_id,
                    min maker.remaining_quantity acc.taker.remaining_quantity,
                    price, now⟩]) :=
              h.append (Paired.cons _ _ _ [] [] rfl rfl rfl rfl rfl rfl rfl rfl Paired.nil)
            split
            · split
              · exact hpair
              · exact ih _ _ hpair
            · exact hpair

theorem walkPrices_paired (now : Int) :
    ∀ (keys : List Price) (levels : LevelMap) (acc : MatchAcc) (toRemove : List Price),
      Paired acc.fills acc.trades →
      Paired (walkPrices now levels acc toRemove keys).acc.fills
        (walkPrices now levels acc toRemove keys).acc.trades := by
  intro keys
  induction keys with
  | nil =>
    intro levels acc toRemove h
    exact h
  | cons price rest ih =>
    intro levels acc toRemove h
    rw [walkPrices]
    split
    · exact h
    · rcases hlk : lookupSM levels price with _ | level
      · simp only [hlk]
        exact ih _ _ _ h
      · simp only [hlk]
        have hout := fillLoop_paired now price level.orders acc level.total_quantity h
        rcases herr : (fillLoop now price acc level.orders level.total_quantity).err
            with _ | e <;>
          simp only [herr]
        · exact ih _ _ _ hout
        · exact hout

/-- Fills and trades of a successful `match_limit_order` are paired. -/
theorem match_limit_order_paired (b : OrderBook) (taker : OrderEntry) (now : Int)
    (b' : OrderBook) (r : MatchResult)
    (h : b.match_limit_order taker now = (b', Except.ok r)) :
    Paired r.fills r.trades := by
  unfold OrderBook.match_limit_order at h
  rcases hval : taker.validate_order with e | u
  · rw [hval] at h
    dsimp only at h
    injection h with h1 h2
    cases h2
  · rw [hval] at h
    dsimp only at h
    generalize (taker.side == Side.Buy) = isb at h
    cases isb <;>
      simp only [Bool.false_eq_true, if_false, if_true] at h <;>
      [(have hw := walkPrices_paired now (candidatePrices taker b.bids) b.bids
          ⟨b.orders, taker, [], [], b.next_trade_id, false⟩ [] Paired.nil;
        rcases herr : (walkPrices now b.bids
          ⟨b.orders, taker, [], [], b.next_trade_id, false⟩ []
          (candidatePrices taker b.bids)).err with _ | e);
       (have hw := walkPrices_paired now (candidatePrices taker b.asks) b.asks
          ⟨b.orders, taker, [], [], b.next_trade_id, false⟩ [] Paired.nil;
        rcases herr : (walkPrices now b.asks
          ⟨b.orders, taker, [], [], b.next_trade_id, false⟩ []
          (candidatePrices taker b.asks)).err with _ | e)] <;>
      rw [herr] at h <;>
      dsimp only at h
    · split at h
      · split at h
        · injection h with h1 h2
          cases h2
        · injection h with h1 h2
          injection h2 with h2
          rw [← h2]
          exact hw
      · split at h
        · injection h with h1 h2
          injection h2 with h2
          rw [← h2]
          exact hw
        · injection h with h1 h2
          injection h2 with h2
          rw [← h2]
          exact hw
    · injection h with h1 h2
      cases h2
    · split at h
      · split at h
        · injection h with h1 h2
          cases h2
        · injection h with h1 h2
          injection h2 with h2
          rw [← h2]
          exact hw
      · split at h
        · injection h with h1 h2
          injection h2 with h2
          rw [← h2]
          exact hw
        · injection h with h1 h2
          injection h2 with h2
          rw [← h2]
          exact hw
    · injection h with h1 h2
      cases h2

/-- Fills and trades of a successful `match_market_order` are paired. -/
theorem match_market_order_paired (b : OrderBook) (taker : OrderEntry) (now : Int)
    (b' : OrderBook) (r : MatchResult)
    (h : b.match_market_order taker now = (b', Except.ok r)) :
    Paired r.fills r.trades := by
  unfold OrderBook.match_market_order at h
  rcases hval : taker.validate_order with e | u
  · rw [hval] at h
    dsimp only at h
    injection h with h1 h2
    cases h2
  · rw [hval] at h
    dsimp only at h
    generalize (taker.side == Side.Buy) = isb at h
    cases isb <;>
      simp only [Bool.false_eq_true, if_false, if_true] at h <;>
      [(have hw := walkPrices_paired now ((b.bids.map (fun kv => kv.1)).reverse) b.bids
          ⟨b.orders, taker, [], [], b.next_trade_id, false⟩ [] Paired.nil;
        rcases herr : (walkPrices now b.bids
          ⟨b.orders, taker, [], [], b.next_trade_id, false⟩ []
          ((b.bids.map (fun kv => kv.1)).reverse)).err with _ | e);
       (have hw := walkPrices_paired now (b.asks.map (fun kv => kv.1)) b.asks
          ⟨b.orders, taker, [], [], b.next_trade_id, false⟩ [] Paired.nil;
        rcases herr : (walkPrices now b.asks
          ⟨b.orders, taker, [], [], b.next_trade_id, false⟩ []
          (b.asks.map (fun kv => kv.1))).err with _ | e)] <;>
      rw [herr] at h <;>
      dsimp only at h
    · split at h
      · injection h with h1 h2
        cases h2
      · split at h
        · injection h with h1 h2
          injection h2 with h2
          rw [← h2]
          exact hw
        · injection h with h1 h2
          injection h2 with h2
          rw [← h2]
          exact hw
    · injection h with h1 h2
      cases h2
    · split at h
      · injection h with h1 h2
        cases h2
      · split at h
        · injection h with h1 h2
          injection h2 with h2
          rw [← h2]
          exact hw
        · injection h with h1 h2
          injection h2 with h2
          rw [← h2]
          exact hw
    · injection h with h1 h2
      cases h2

/-- The matching step dispatched by `handle_place_order` for an accepted
order (`engine.rs:146-149`). -/
def matchStep (b : OrderBook) (o : Order) (now : Int) :
    OrderBook × Except OrderBookError MatchResult :=
  match o.order_type with
  | OrderType.Market =>
    b.match_market_order (OrderEntry.new o.order_id o.user_id o.side
      (o.price.getD 0) o.quantity now) now
  | OrderType.Limit =>
    b.match_limit_order (OrderEntry.new o.order_id o.user_id o.side
      (o.price.getD 0) o.quantity now) now

/-- C5 amended: for one accepted Place the outbound events are the Ack, then
all Fills (one maker/taker pair per match, in match priority order), then all
Trades in the same order, then at most one BookUpdate; when the matching step
fails (market orders with insufficient liquidity included) the only events
are the Ack and the terminal Reject — no Fill, Trade or BookUpdate is
emitted. -/
theorem place_event_order (b : OrderBook) (o : Order) (now : Int)
    (h1 : o.quantity ≠ 0)
    (h2 : ¬((o.order_type == OrderType.Limit && o.price.getD 0 == 0) = true)) :
    (∀ b2 e, matchStep b o now = (b2, Except.error e) →
      (handle_place_order b o now).2 =
        [Event.OrderAck o.order_id o.user_id o.symbol,
         Event.OrderReject o.order_id o.user_id RejectReason.InvalidOrder e.message]) ∧
    (∀ b2 r, matchStep b o now = (b2, Except.ok r) →
      (handle_place_order b o now).2 =
        [Event.OrderAck o.order_id o.user_id o.symbol]
          ++ r.fills.map (fun f => Event.Fill (f.into_protocol b2.symbol))
          ++ r.trades.map (fun t => Event.Trade (t.into_protocol b2.symbol))
          ++ (match r.book_update with
              | some d => [Event.BookUpdate (d.into_protocol b2.symbol)]
              | none => []) ∧
      Paired r.fills r.trades) := by
  constructor
  · intro b2 e hstep
    unfold matchStep at hstep
    simp only [handle_place_order, if_neg h1, if_neg h2, hstep]
  · intro b2 r hstep
    constructor
    · unfold matchStep at hstep
      simp only [handle_place_order, if_neg h1, if_neg h2, hstep]
    · unfold matchStep at hstep
      rcases ht : o.order_type
      · rw [ht] at hstep
        exact match_limit_order_paired _ _ _ _ _ hstep
      · rw [ht] at hstep
        exact match_market_order_paired _ _ _ _ _ hstep

/-- Book with one resting ask of 50 at 50000 (the maker for the C6 scenario). -/
def exAskBook : OrderBook :=
  (handle_place_order (OrderBook.new "SOL/USD")
    ⟨1, 100, "SOL/USD", Side.Sell, OrderType.Limit, 50, some 50000⟩ 0).1

/-- C6 failing input: a market buy with no price.  The engine builds the
taker with `price.unwrap_or(0) = 0` and `match_market_order` starts with
`validate_order()?` (both in the sources), so EVERY priceless market order is
rejected right after the Ack with the message "Invalid Order: Price must be
greater than 0" — which does not contain "liquidity" — and no fill is
produced even though the book has liquidity.  This contradicts the repo's own
tests `test_market_order_no_liquidity` (asserts a reject whose message
contains "liquidity") and `test_market_order_matches_limit_order` (asserts a
trade of 30 at 50000 for exactly this input). -/
theorem market_order_validation_bug :
    (handle_place_order exAskBook ⟨2, 200, "SOL/USD", Side.Buy, OrderType.Market, 30, none⟩ 0).2
      = [Event.OrderAck 2 200 "SOL/USD",
         Event.OrderReject 2 200 RejectReason.InvalidOrder
           "Invalid Order: Price must be greater than 0"] ∧
    strContains "Invalid Order: Price must be greater than 0" "liquidity" = false ∧
    (handle_place_order exAskBook ⟨2, 200, "SOL/USD", Side.Buy, OrderType.Market, 30, none⟩ 0).1
      = exAskBook := by
  decide

/-- Witness for C5: applying the event-order theorem on a concrete accepted
place whose matching step succeeds with one match, and on one whose matching
step fails. -/
theorem place_event_order_witness :
    ((handle_place_order exAskBook ⟨2, 200, "SOL/USD", Side.Buy, OrderType.Limit, 30, some 50000⟩ 0).2 =
      [Event.OrderAck 2 200 "SOL/USD"]
        ++ (MatchResult.mk
            [⟨1, 100, Side.Sell, 50000, 30, 20⟩, ⟨2, 200, Side.Buy, 50000, 30, 0⟩]
            [⟨1, 1, 100, 2, 200, 30, 50000, 0⟩]
            (some ⟨List.replicate 20 (0, 0),
              (50000, 20) :: List.replicate 19 (0, 0)⟩)).fills.map
            (fun f => Event.Fill (f.into_protocol
              (matchStep exAskBook ⟨2, 200, "SOL/USD", Side.Buy, OrderType.Limit, 30, some 50000⟩ 0).1.symbol))
        ++ (MatchResult.mk
            [⟨1, 100, Side.Sell, 50000, 30, 20⟩, ⟨2, 200, Side.Buy, 50000, 30, 0⟩]
            [⟨1, 1, 100, 2, 200, 30, 50000, 0⟩]
            (some ⟨List.replicate 20 (0, 0),
              (50000, 20) :: List.replicate 19 (0, 0)⟩)).trades.map
            (fun t => Event.Trade (t.into_protocol
              (matchStep exAskBook ⟨2, 200, "SOL/USD", Side.Buy, OrderType.Limit, 30, some 50000⟩ 0).1.symbol))
        ++ [Event.BookUpdate ((Depth.mk (List.replicate 20 (0, 0))
              ((50000, 20) :: List.replicate 19 (0, 0))).into_protocol
              (matchStep exAskBook ⟨2, 200, "SOL/USD", Side.Buy, OrderType.Limit, 30, some 50000⟩ 0).1.symbol)]) ∧
    Paired [⟨1, 100, Side.Sell, 50000, 30, 20⟩, ⟨2, 200, Side.Buy, 50000, 30, 0⟩]
      [⟨1, 1, 100, 2, 200, 30, 50000, 0⟩] := by
  have happ := (place_event_order exAskBook
    ⟨2, 200, "SOL/USD", Side.Buy, OrderType.Limit, 30, some 50000⟩ 0
    (by decide) (by decide)).2
    (matchStep exAskBook ⟨2, 200, "SOL/USD", Side.Buy, OrderType.Limit, 30, some 50000⟩ 0).1
    (MatchResult.mk
      [⟨1, 100, Side.Sell, 50000, 30, 20⟩, ⟨2, 200, Side.Buy, 50000, 30, 0⟩]
      [⟨1, 1, 100, 2, 200, 30, 50000, 0⟩]
      (some ⟨List.replicate 20 (0, 0), (50000, 20) :: List.replicate 19 (0, 0)⟩))
    (by decide)
  exact ⟨happ.1, happ.2⟩

/-! Machinery for the invariant claims: the joined FIFO list of one side,
its behaviour under the map operations, and `levelSum` bookkeeping under
table updates. -/

/-- All FIFO ids of one side's level map, joined in map order. -/
def joinFifos (m : LevelMap) : List OrderId :=
  (m.map (fun kv => kv.2.orders)).flatten

theorem allFifoIds_eq (b : OrderBook) :
    allFifoIds b = joinFifos b.bids ++ joinFifos b.asks := rfl

theorem joinFifos_cons (kv : Price × PriceLevel) (m : LevelMap) :
    joinFifos (kv :: m) = kv.2.orders ++ joinFifos m := rfl

theorem mem_joinFifos (m : LevelMap) (oid : OrderId) :
    oid ∈ joinFifos m ↔ ∃ kv ∈ m, oid ∈ kv.2.orders := by
  simp only [joinFifos, List.mem_flatten, List.mem_map]
  constructor
  · rintro ⟨l, ⟨kv, hm, rfl⟩, ho⟩
    exact ⟨kv, hm, ho⟩
  · rintro ⟨kv, hm, ho⟩
    exact ⟨kv.2.orders, ⟨kv, hm, rfl⟩, ho⟩

theorem fifo_sublist_joinFifos (m : LevelMap) (kv : Price × PriceLevel) (h : kv ∈ m) :
    List.Sublist kv.2.orders (joinFifos m) := by
  induction m with
  | nil => cases h
  | cons a t ih =>
    rw [joinFifos_cons]
    rcases List.mem_cons.1 h with h | h
    · rw [h]
      exact List.sublist_append_left _ _
    · exact (ih h).trans (List.sublist_append_right _ _)

theorem joinFifos_disjoint (m : LevelMap) (hnd : (joinFifos m).Nodup)
    (p : Price) (l : PriceLevel) (hm : (p, l) ∈ m) (kv : Price × PriceLevel)
    (hkv : kv ∈ m) (hne : kv.1 ≠ p) (oid : OrderId) (ho : oid ∈ kv.2.orders) :
    oid ∉ l.orders := by
  induction m with
  | nil => cases hm
  | cons a t ih =>
    rw [joinFifos_cons] at hnd
    have hnd' := List.nodup_append.1 hnd
    rcases List.mem_cons.1 hm with hma | hma
    · rcases List.mem_cons.1 hkv with hkva | hkva
      · exact absurd (by rw [hkva, ← hma]) hne
      · intro hol
        have h1 : oid ∈ joinFifos t := (fifo_sublist_joinFifos t kv hkva).subset ho
        have h2 : oid ∈ a.2.orders := by rw [← hma]; exact hol
        exact hnd'.2.2 h2 h1
    · rcases List.mem_cons.1 hkv with hkva | hkva
      · intro hol
        have h1 : oid ∈ joinFifos t := (fifo_sublist_joinFifos t (p, l) hma).subset hol
        have h2 : oid ∈ a.2.orders := by rw [← hkva]; exact ho
        exact hnd'.2.2 h2 h1
      · exact ih hnd'.2.1 hma hkva

theorem lookupSM_eq_none_of_forall_ne (m : LevelMap) (k : Price)
    (h : ∀ kv ∈ m, kv.1 ≠ k) : lookupSM m k = none := by
  induction m with
  | nil => rfl
  | cons a t ih =>
    rw [lookupSM_cons, if_neg (h a (List.mem_cons_self _ _))]
    exact ih (fun kv hm => h kv (List.mem_cons_of_mem _ hm))

theorem lookupSM_mem (m : LevelMap) (p : Price) (l : PriceLevel)
    (h : lookupSM m p = some l) : (p, l) ∈ m := by
  induction m with
  | nil => cases h
  | cons a t ih =>
    rw [lookupSM_cons] at h
    by_cases hk : a.1 = p
    · rw [if_pos hk] at h
      injection h with h2
      have ha : a = (p, l) := by
        rcases a with ⟨q, w⟩
        simp only at hk h2
        rw [hk, h2]
      rw [← ha]
      exact List.mem_cons_self _ _
    · rw [if_neg hk] at h
      exact List.mem_cons_of_mem _ (ih h)

theorem lookupSM_isSome_of_mem_keys (m : LevelMap) (p : Price)
    (h : p ∈ m.map (fun kv => kv.1)) : (lookupSM m p).isSome := by
  induction m with
  | nil => cases h
  | cons a t ih =>
    rw [List.map_cons] at h
    rw [lookupSM_cons]
    by_cases hk : a.1 = p
    · rw [if_pos hk]; rfl
    · rw [if_neg hk]
      rcases List.mem_cons.1 h with h' | h'
      · exact absurd h'.symm hk
      · exact ih h'

theorem mem_updateSM_cases (m : LevelMap) (p : Price) (g : PriceLevel → PriceLevel)
    (kv' : Price × PriceLevel) (h : kv' ∈ updateSM m p g) :
    (kv' ∈ m ∧ kv'.1 ≠ p) ∨ ∃ w, (p, w) ∈ m ∧ kv' = (p, g w) := by
  induction m with
  | nil => cases h
  | cons a t ih =>
    rcases a with ⟨q, w⟩
    rw [updateSM_cons] at h
    by_cases hq : q = p
    · rw [if_pos hq] at h
      rcases List.mem_cons.1 h with h' | h'
      · right
        exact ⟨w, by rw [← hq]; exact List.mem_cons_self _ _, by rw [h', hq]⟩
      · rcases ih h' with h'' | ⟨w', hw1, hw2⟩
        · exact Or.inl ⟨List.mem_cons_of_mem _ h''.1, h''.2⟩
        · exact Or.inr ⟨w', List.mem_cons_of_mem _ hw1, hw2⟩
    · rw [if_neg hq] at h
      rcases List.mem_cons.1 h with h' | h'
      · left
        rw [h']
        exact ⟨List.mem_cons_self _ _, hq⟩
      · rcases ih h' with h'' | ⟨w', hw1, hw2⟩
        · exact Or.inl ⟨List.mem_cons_of_mem _ h''.1, h''.2⟩
        · exact Or.inr ⟨w', List.mem_cons_of_mem _ hw1, hw2⟩

theorem joinFifos_updateSM_sublist (m : LevelMap) (hs : SortedKeys m)
    (p : Price) (l : PriceLevel) (hm : (p, l) ∈ m) (g : PriceLevel → PriceLevel)
    (hg : List.Sublist (g l).orders l.orders) :
    List.Sublist (joinFifos (updateSM m p g)) (joinFifos m) := by
  induction m with
  | nil => cases hm
  | cons a t ih =>
    have hs' : SortedKeys t := List.Pairwise.of_cons hs
    rcases a with ⟨q, w⟩
    rw [updateSM_cons]
    by_cases hq : q = p
    · have hwl : w = l := by
        rcases List.mem_cons.1 hm with hm' | hm'
        · exact (congrArg Prod.snd hm').symm
        · exfalso
          exact sorted_tail_ne t q w hs (p, l) hm' (by rw [hq])
      have htid : updateSM t p g = t :=
        updateSM_id_of_none t p g (fun kv hkv => by
          rw [← hq]; exact sorted_tail_ne t q w hs kv hkv)
      rw [if_pos hq, htid, joinFifos_cons, joinFifos_cons]
      subst hwl
      exact hg.append (List.Sublist.refl _)
    · have hm' : (p, l) ∈ t := by
        rcases List.mem_cons.1 hm with hm' | hm'
        · exact absurd (congrArg Prod.fst hm').symm hq
        · exact hm'
      rw [if_neg hq, joinFifos_cons, joinFifos_cons]
      exact (List.Sublist.refl w.orders).append (ih hs' hm')

theorem joinFifos_updateSM_orders_eq (m : LevelMap) (p : Price)
    (g : PriceLevel → PriceLevel) (hg : ∀ w, (g w).orders = w.orders) :
    joinFifos (updateSM m p g) = joinFifos m := by
  induction m with
  | nil => rfl
  | cons a t ih =>
    rcases a with ⟨q, w⟩
    rw [updateSM_cons]
    by_cases hq : q = p
    · rw [if_pos hq, joinFifos_cons, joinFifos_cons, ih]
      have : ((q, g w) : Price × PriceLevel).2.orders = (g w).orders := rfl
      rw [this, hg]
    · rw [if_neg hq, joinFifos_cons, joinFifos_cons, ih]

theorem joinFifos_updateSM_append (m : LevelMap) (hs : SortedKeys m)
    (p : Price) (l : PriceLevel) (hm : (p, l) ∈ m) (a : OrderId)
    (g : PriceLevel → PriceLevel) (hg : ∀ w, (g w).orders = w.orders ++ [a]) :
    List.Perm (joinFifos (updateSM m p g)) (a :: joinFifos m) := by
  induction m with
  | nil => cases hm
  | cons kv t ih =>
    have hs' : SortedKeys t := List.Pairwise.of_cons hs
    rcases kv with ⟨q, w⟩
    rw [updateSM_cons]
    by_cases hq : q = p
    · have htid : updateSM t p g = t :=
        updateSM_id_of_none t p g (fun kv hkv => by
          rw [← hq]; exact sorted_tail_ne t q w hs kv hkv)
      rw [if_pos hq, htid, joinFifos_cons, joinFifos_cons]
      have h1 : ((q, g w) : Price × PriceLevel).2.orders = w.orders ++ [a] := hg w
      rw [h1, List.append_assoc]
      exact List.perm_middle
    · have hm' : (p, l) ∈ t := by
        rcases List.mem_cons.1 hm with hm' | hm'
        · exact absurd (congrArg Prod.fst hm').symm hq
        · exact hm'
      rw [if_neg hq, joinFifos_cons, joinFifos_cons]
      exact (List.Perm.append_left w.orders (ih hs' hm')).trans List.perm_middle

theorem joinFifos_insertSM (m : LevelMap) (p : Price) (v : PriceLevel)
    (h : ∀ kv ∈ m, kv.1 ≠ p) :
    List.Perm (joinFifos (insertSM m p v)) (v.orders ++ joinFifos m) := by
  induction m with
  | nil => exact List.Perm.refl _
  | cons kv t ih =>
    rcases kv with ⟨q, w⟩
    have hq : ¬(p = q) := fun hc => absurd hc.symm (h (q, w) (List.mem_cons_self _ _))
    show List.Perm (joinFifos (if p < q then (p, v) :: (q, w) :: t
        else if p == q then (p, v) :: t else (q, w) :: insertSM t p v)) _
    by_cases hlt : p < q
    · rw [if_pos hlt]
      exact List.Perm.refl _
    · have hb : (p == q) = false := by simpa using hq
      rw [if_neg hlt, hb]
      simp only [Bool.false_eq_true, if_false]
      have ih' := ih (fun kv hm => h kv (List.mem_cons_of_mem _ hm))
      rw [joinFifos_cons, joinFifos_cons]
      have s1 : List.Perm (w.orders ++ joinFifos (insertSM t p v))
          (w.orders ++ (v.orders ++ joinFifos t)) := List.Perm.append_left _ ih'
      have s2 : List.Perm (w.orders ++ (v.orders ++ joinFifos t))
          (v.orders ++ (w.orders ++ joinFifos t)) := by
        rw [← List.append_assoc, ← List.append_assoc]
        exact List.Perm.append_right _ List.perm_append_comm
      exact s1.trans s2

theorem joinFifos_eraseSM_sublist (m : LevelMap) (p : Price) :
    List.Sublist (joinFifos (eraseSM m p)) (joinFifos m) := by
  induction m with
  | nil => exact List.Sublist.refl _
  | cons kv t ih =>
    show List.Sublist (joinFifos (List.filter _ (kv :: t))) _
    rw [List.filter_cons, joinFifos_cons]
    by_cases hk : kv.1 = p
    · have hb : (kv.1 != p) = false := by simpa using hk
      rw [hb]
      simp only [Bool.false_eq_true, if_false]
      exact ih.trans (List.sublist_append_right _ _)
    · have hb : (kv.1 != p) = true := by simpa using hk
      rw [hb]
      simp only [if_true]
      rw [joinFifos_cons]
      exact (List.Sublist.refl kv.2.orders).append ih

theorem mem_eraseSM (m : LevelMap) (p : Price) (kv : Price × PriceLevel) :
    kv ∈ eraseSM m p ↔ kv ∈ m ∧ kv.1 ≠ p := by
  simp [eraseSM, List.mem_filter]

theorem mem_foldl_eraseSM (ps : List Price) :
    ∀ (m : LevelMap) (kv : Price × PriceLevel),
      kv ∈ ps.foldl eraseSM m ↔ kv ∈ m ∧ kv.1 ∉ ps := by
  induction ps with
  | nil => intro m kv; simp
  | cons p ps ih =>
    intro m kv
    show kv ∈ ps.foldl eraseSM (eraseSM m p) ↔ _
    rw [ih, mem_eraseSM]
    simp only [List.mem_cons]
    constructor
    · rintro ⟨⟨h1, h2⟩, h3⟩
      exact ⟨h1, fun hc => hc.elim h2 h3⟩
    · rintro ⟨h1, h2⟩
      exact ⟨⟨h1, fun hc => h2 (Or.inl hc)⟩, fun hc => h2 (Or.inr hc)⟩

theorem sortedKeys_foldl_eraseSM (ps : List Price) :
    ∀ (m : LevelMap), SortedKeys m → SortedKeys (ps.foldl eraseSM m) := by
  induction ps with
  | nil => intro m h; exact h
  | cons p ps ih =>
    intro m h
    exact ih _ (sortedKeys_eraseSM m p h)

theorem joinFifos_foldl_eraseSM_sublist (ps : List Price) :
    ∀ (m : LevelMap), List.Sublist (joinFifos (ps.foldl eraseSM m)) (joinFifos m) := by
  induction ps with
  | nil => intro m; exact List.Sublist.refl _
  | cons p ps ih =>
    intro m
    exact (ih (eraseSM m p)).trans (joinFifos_eraseSM_sublist m p)

theorem lookupSM_foldl_eraseSM (ps : List Price) :
    ∀ (m : LevelMap) (p : Price), p ∉ ps →
      lookupSM (ps.foldl eraseSM m) p = lookupSM m p := by
  induction ps with
  | nil => intro m p _; rfl
  | cons q ps ih =>
    intro m p hp
    have h1 : p ∉ ps := fun hc => hp (List.mem_cons_of_mem _ hc)
    have h2 : p ≠ q := fun hc => hp (hc ▸ List.mem_cons_self _ _)
    show lookupSM (ps.foldl eraseSM (eraseSM m q)) p = _
    rw [ih _ p h1, lookupSM_erase_ne m q p h2]

theorem posInv_insertTbl (t : Table) (k : OrderId) (v : OrderEntry)
    (hp : PosInv t) (hv : v.remaining_quantity ≠ 0) : PosInv (insertTbl t k v) := by
  intro kv hm
  rcases List.mem_cons.1 hm with hm | hm
  · rw [hm]; exact hv
  · exact hp kv (List.mem_of_mem_filter hm)

theorem posInv_eraseTbl (t : Table) (k : OrderId) (hp : PosInv t) :
    PosInv (eraseTbl t k) :=
  fun kv hm => hp kv (List.mem_of_mem_filter hm)

theorem fill_ok (e : OrderEntry) (q : Quantity) (h : q ≤ e.remaining_quantity) :
    e.fill q = Except.ok { e with remaining_quantity := e.remaining_quantity - q } := by
  unfold OrderEntry.fill
  rw [if_neg (not_lt.mpr h)]

theorem levelSum_nil (t : Table) : levelSum t [] = 0 := rfl

theorem levelSum_insertTbl_not_mem (t : Table) (k : OrderId) (v : OrderEntry)
    (fifo : List OrderId) (h : k ∉ fifo) :
    levelSum (insertTbl t k v) fifo = levelSum t fifo :=
  levelSum_congr _ _ _ (fun oid hm =>
    lookupTbl_insert_ne t k oid v (fun hc => h (hc ▸ hm)))

theorem levelSum_eraseTbl_not_mem (t : Table) (k : OrderId)
    (fifo : List OrderId) (h : k ∉ fifo) :
    levelSum (eraseTbl t k) fifo = levelSum t fifo :=
  levelSum_congr _ _ _ (fun oid hm =>
    lookupTbl_erase_ne t k oid (fun hc => h (hc ▸ hm)))

theorem levelSum_eraseTbl_of_mem (t : Table) (k : OrderId) (e : OrderEntry)
    (fifo : List OrderId) (hnd : fifo.Nodup) (hmem : k ∈ fifo)
    (hl : lookupTbl t k = some e) :
    levelSum t fifo = levelSum (eraseTbl t k) fifo + e.remaining_quantity := by
  rcases List.append_of_mem hmem with ⟨s, r, rfl⟩
  have hks : k ∉ s := by
    have hd := List.disjoint_of_nodup_append hnd
    intro hc
    exact hd hc (List.mem_cons_self _ _)
  have hkr : k ∉ r := by
    have h2 : (k :: r).Nodup := hnd.sublist (List.sublist_append_right _ _)
    exact (List.nodup_cons.1 h2).1
  rw [levelSum_append, levelSum_append, levelSum_cons, levelSum_cons]
  rw [levelSum_eraseTbl_not_mem t k s hks, levelSum_eraseTbl_not_mem t k r hkr]
  have hc1 : contrib t k = e.remaining_quantity := by
    unfold contrib; rw [hl]
  have hc2 : contrib (eraseTbl t k) k = 0 := by
    unfold contrib; rw [lookupTbl_erase_self]
  rw [hc1, hc2]
  ring

theorem bOrT {a b : Bool} (h : (a || b) = true) : a = true ∨ b = true := by
  simpa using h

theorem bOrF {a b : Bool} (h : (a || b) = false) : a = false ∧ b = false := by
  simpa using h

theorem natA (a s f : Nat) (h1 : f ≤ a) (h2 : a - f = 0) : a + s - f = s := by omega

theorem natB (a s f : Nat) (h1 : f ≤ a) : a + s - f = a - f + s := by omega

theorem natC (a s f : Nat) (h1 : f ≤ a) (h2 : a - f ≠ 0) : a + s - f ≠ 0 := by omega

theorem keys_sublist_eraseTbl (t : Table) (k : OrderId) :
    List.Sublist ((eraseTbl t k).map (fun kv => kv.1)) (t.map (fun kv => kv.1)) :=
  List.Sublist.map _ (List.filter_sublist t)

theorem keysNodup_insertTbl (t : Table) (k : OrderId) (v : OrderEntry)
    (hnd : (t.map (fun kv => kv.1)).Nodup) :
    ((insertTbl t k v).map (fun kv => kv.1)).Nodup := by
  show (k :: (eraseTbl t k).map (fun kv => kv.1)).Nodup
  refine List.nodup_cons.2 ⟨?_, hnd.sublist (keys_sublist_eraseTbl t k)⟩
  intro hc
  rcases List.mem_map.1 hc with ⟨kv, hkv, hk⟩
  exact absurd hk (by simpa using (List.mem_filter.1 hkv).2)

/-- What one pass of the inner fill loop guarantees: no error is returned, the
queue is only popped from the front, table entries are only updated in place
(shrinking `remaining_quantity`, keeping identity, side and price) or removed,
only ids of this queue are touched, the returned aggregate equals the
level-sum over the returned queue, every surviving entry of the queue is still
listed, a marked level has zero aggregate and an unmarked one kept a nonzero
aggregate, and the taker only loses remaining quantity. -/
structure LoopPost (tblIn : Table) (takerIn : OrderEntry) (fifoIn : List OrderId)
    (tqIn : Quantity) (out : LevelOut) : Prop where
  err_none : out.err = none
  suffix : ∃ g, fifoIn = g ++ out.fifo
  frame : ∀ oid, oid ∉ fifoIn → lookupTbl out.acc.orders oid = lookupTbl tblIn oid
  agg : out.total = levelSum out.acc.orders out.fifo
  pos : PosInv out.acc.orders
  shrink : ∀ oid e', lookupTbl out.acc.orders oid = some e' →
    ∃ e0, lookupTbl tblIn oid = some e0 ∧ e'.side = e0.side ∧ e'.price = e0.price ∧
      e'.order_id = e0.order_id ∧ e'.remaining_quantity ≤ e0.remaining_quantity
  none_from : ∀ oid, lookupTbl out.acc.orders oid = none →
    lookupTbl tblIn oid = none ∨ oid ∈ fifoIn
  live_mem : ∀ oid ∈ fifoIn, (lookupTbl out.acc.orders oid).isSome = true → oid ∈ out.fifo
  marked_total : out.marked = true → out.total = 0
  unmarked_total : out.marked = false → tqIn ≠ 0 → out.total ≠ 0
  zero_frozen : tqIn = 0 → out.total = 0
  keysnd : (tblIn.map (fun kv => kv.1)).Nodup →
    (out.acc.orders.map (fun kv => kv.1)).Nodup
  taker_fields : out.acc.taker.order_id = takerIn.order_id ∧
    out.acc.taker.user_id = takerIn.user_id ∧ out.acc.taker.side = takerIn.side ∧
    out.acc.taker.price = takerIn.price ∧ out.acc.taker.quantity = takerIn.quantity ∧
    out.acc.taker.remaining_quantity ≤ takerIn.remaining_quantity ∧
    out.acc.taker.timestamp = takerIn.timestamp

/-- The inner fill loop satisfies `LoopPost` whenever it starts from a table
with positive remaining quantities, a duplicate-free queue and a correct
aggregate. -/
theorem fillLoop_post (now : Int) (price : Price) :
    ∀ (fifo : List OrderId) (acc : MatchAcc) (total : Quantity),
      total = levelSum acc.orders fifo → fifo.Nodup → PosInv acc.orders →
      LoopPost acc.orders acc.taker fifo total (fillLoop now price acc fifo total) := by
  intro fifo
  induction fifo with
  | nil =>
    intro acc total hagg hnd hpos
    have hsame : LoopPost acc.orders acc.taker [] total
        ⟨acc, [], total, false, none⟩ :=
      { err_none := rfl
        suffix := ⟨[], rfl⟩
        frame := fun _ _ => rfl
        agg := hagg
        pos := hpos
        shrink := fun _ e' h => ⟨e', h, rfl, rfl, rfl, le_refl _⟩
        none_from := fun _ h => Or.inl h
        live_mem := fun _ hm _ => absurd hm (List.not_mem_nil _)
        marked_total := fun h => Bool.noConfusion h
        unmarked_total := fun _ ht => ht
        zero_frozen := fun h => h
        keysnd := fun h => h
        taker_fields := ⟨rfl, rfl, rfl, rfl, rfl, le_refl _, rfl⟩ }
    rw [fillLoop]
    split
    · exact hsame
    · split
      · exact hsame
      · exact hsame
  | cons mid rest ih =>
    intro acc total hagg hnd hpos
    have hndr : rest.Nodup := (List.nodup_cons.1 hnd).2
    have hmidr : mid ∉ rest := (List.nodup_cons.1 hnd).1
    rw [fillLoop]
    split
    next h0 =>
      exact
        { err_none := rfl
          suffix := ⟨[], rfl⟩
          frame := fun _ _ => rfl
          agg := hagg
          pos := hpos
          shrink := fun _ e' h => ⟨e', h, rfl, rfl, rfl, le_refl _⟩
          none_from := fun _ h => Or.inl h
          live_mem := fun _ hm _ => hm
          marked_total := fun h => Bool.noConfusion h
          unmarked_total := fun _ ht => ht
          zero_frozen := fun h => h
          keysnd := fun h => h
          taker_fields := ⟨rfl, rfl, rfl, rfl, rfl, le_refl _, rfl⟩ }
    next h0 =>
      split
      next ht0 =>
        exact
          { err_none := rfl
            suffix := ⟨[], rfl⟩
            frame := fun _ _ => rfl
            agg := hagg
            pos := hpos
            shrink := fun _ e' h => ⟨e', h, rfl, rfl, rfl, le_refl _⟩
            none_from := fun _ h => Or.inl h
            live_mem := fun _ hm _ => hm
            marked_total := fun h => Bool.noConfusion h
            unmarked_total := fun _ ht => absurd ht0 ht
            zero_frozen := fun h => h
            keysnd := fun h => h
            taker_fields := ⟨rfl, rfl, rfl, rfl, rfl, le_refl _, rfl⟩ }
      next ht0 =>
        rcases hlk : lookupTbl acc.orders mid with _ | maker
        · simp only [hlk]
          have hagg' : total = levelSum acc.orders rest := by
            rw [hagg, levelSum_cons]
            have hc : contrib acc.orders mid = 0 := by unfold contrib; rw [hlk]
            rw [hc, Nat.zero_add]
          have hpost := ih acc total hagg' hndr hpos
          refine
            { err_none := hpost.err_none
              suffix := ?_
              frame := ?_
              agg := hpost.agg
              pos := hpost.pos
              shrink := hpost.shrink
              none_from := ?_
              live_mem := ?_
              marked_total := hpost.marked_total
              unmarked_total := hpost.unmarked_total
              zero_frozen := hpost.zero_frozen
              keysnd := hpost.keysnd
              taker_fields := hpost.taker_fields }
          · rcases hpost.suffix with ⟨g, hg⟩
            exact ⟨mid :: g, by rw [List.cons_append, ← hg]⟩
          · exact fun oid ho => hpost.frame oid (fun hc => ho (List.mem_cons_of_mem _ hc))
          · intro oid h
            rcases hpost.none_from oid h with h' | h'
            · exact Or.inl h'
            · exact Or.inr (List.mem_cons_of_mem _ h')
          · intro oid hm hs
            rcases List.mem_cons.1 hm with rfl | hm'
            · rw [hpost.frame oid hmidr, hlk] at hs
              cases hs
            · exact hpost.live_mem oid hm' hs
        · simp only [hlk]
          generalize hfq : min maker.remaining_quantity acc.taker.remaining_quantity = fq
          have hle1 : fq ≤ maker.remaining_quantity := hfq ▸ min_le_left _ _
          have hle2 : fq ≤ acc.taker.remaining_quantity := hfq ▸ min_le_right _ _
          have hmkok := fill_ok maker fq hle1
          have htkok := fill_ok acc.taker fq hle2
          simp only [hmkok, htkok]
          have hcm : contrib acc.orders mid = maker.remaining_quantity := by
            unfold contrib; rw [hlk]
          have haggc : total = maker.remaining_quantity + levelSum acc.orders rest := by
            rw [hagg, levelSum_cons, hcm]
          split
          next hz =>
            have hz' : maker.remaining_quantity - fq = 0 := hz
            have htbl : eraseTbl (insertTbl acc.orders mid
                { maker with remaining_quantity := maker.remaining_quantity - fq }) mid
                = eraseTbl acc.orders mid := eraseTbl_insertTbl _ _ _
            have htot' : total - fq = levelSum (eraseTbl acc.orders mid) rest := by
              rw [haggc, natA _ _ _ hle1 hz', levelSum_eraseTbl_not_mem _ _ _ hmidr]
            split
            next hz2 =>
              refine
                { err_none := rfl
                  suffix := ⟨[mid], rfl⟩
                  frame := ?_
                  agg := ?_
                  pos := ?_
                  shrink := ?_
                  none_from := ?_
                  live_mem := ?_
                  marked_total := ?_
                  unmarked_total := ?_
                  zero_frozen := fun h => absurd h ht0
                  keysnd := ?_
                  taker_fields := ⟨rfl, rfl, rfl, rfl, rfl, Nat.sub_le _ _, rfl⟩ }
              · intro oid ho
                have hne : oid ≠ mid := fun hc => ho (hc ▸ List.mem_cons_self _ _)
                show lookupTbl (eraseTbl (insertTbl acc.orders mid _) mid) oid = _
                rw [htbl, lookupTbl_erase_ne _ _ _ hne]
              · show total - fq = levelSum (eraseTbl (insertTbl acc.orders mid _) mid) rest
                rw [htbl]
                exact htot'
              · show PosInv (eraseTbl (insertTbl acc.orders mid _) mid)
                rw [htbl]
                exact posInv_eraseTbl _ _ hpos
              · intro oid e' h
                rw [htbl] at h
                by_cases hc : oid = mid
                · rw [hc, lookupTbl_erase_self] at h
                  cases h
                · rw [lookupTbl_erase_ne _ _ _ hc] at h
                  exact ⟨e', h, rfl, rfl, rfl, le_refl _⟩
              · intro oid h
                by_cases hc : oid = mid
                · exact Or.inr (hc ▸ List.mem_cons_self _ _)
                · rw [htbl, lookupTbl_erase_ne _ _ _ hc] at h
                  exact Or.inl h
              · intro oid hm hs
                rcases List.mem_cons.1 hm with rfl | hm'
                · rw [htbl, lookupTbl_erase_self] at hs
                  cases hs
                · exact hm'
              · intro h
                rcases bOrT h with h' | h'
                · exact of_decide_eq_true h'
                · have hre : rest = [] := List.isEmpty_iff.1 h'
                  rw [htot', hre, levelSum_nil]
              · intro h _
                have h1 : decide (total - fq = 0) = false := (bOrF h).1
                exact of_decide_eq_false h1
              · intro h
                rw [htbl]
                exact h.sublist (keys_sublist_eraseTbl _ _)
            next hz2 =>
              have hagg2 : total - fq = levelSum (eraseTbl (insertTbl acc.orders mid
                  { maker with remaining_quantity := maker.remaining_quantity - fq }) mid) rest := by
                rw [htbl]
                exact htot'
              have hpos2 : PosInv (eraseTbl (insertTbl acc.orders mid
                  { maker with remaining_quantity := maker.remaining_quantity - fq }) mid) := by
                rw [htbl]
                exact posInv_eraseTbl _ _ hpos
              have hpost := ih ⟨eraseTbl (insertTbl acc.orders mid
                  { maker with remaining_quantity := maker.remaining_quantity - fq }) mid,
                { acc.taker with remaining_quantity := acc.taker.remaining_quantity - fq },
                acc.fills ++
                  [⟨mid, maker.user_id, maker.side, price, fq, maker.remaining_quantity - fq⟩,
                   ⟨acc.taker.order_id, acc.taker.user_id, acc.taker.side, price, fq,
                    acc.taker.remaining_quantity - fq⟩],
                acc.trades ++
                  [⟨acc.next_trade_id, mid, maker.user_id, acc.taker.order_id,
                    acc.taker.user_id, fq, price, now⟩],
                satAdd acc.next_trade_id 1, true⟩ (total - fq) hagg2 hndr hpos2
              refine
                { err_none := hpost.err_none
                  suffix := ?_
                  frame := ?_
                  agg := hpost.agg
                  pos := hpost.pos
                  shrink := ?_
                  none_from := ?_
                  live_mem := ?_
                  marked_total := ?_
                  unmarked_total := ?_
                  zero_frozen := fun h => absurd h ht0
                  keysnd := fun h => hpost.keysnd (by
                    rw [htbl]
                    exact h.sublist (keys_sublist_eraseTbl _ _))
                  taker_fields := ?_ }
              · rcases hpost.suffix with ⟨g, hg⟩
                exact ⟨mid :: g, by rw [List.cons_append, ← hg]⟩
              · intro oid ho
                have hne : oid ≠ mid := fun hc => ho (hc ▸ List.mem_cons_self _ _)
                have hor : oid ∉ rest := fun hc => ho (List.mem_cons_of_mem _ hc)
                rw [hpost.frame oid hor, htbl, lookupTbl_erase_ne _ _ _ hne]
              · intro oid e' h
                rcases hpost.shrink oid e' h with ⟨e0, he0, hp1, hp2, hp3, hp4⟩
                rw [htbl] at he0
                by_cases hc : oid = mid
                · rw [hc, lookupTbl_erase_self] at he0
                  cases he0
                · rw [lookupTbl_erase_ne _ _ _ hc] at he0
                  exact ⟨e0, he0, hp1, hp2, hp3, hp4⟩
              · intro oid h
                rcases hpost.none_from oid h with h' | h'
                · rw [htbl] at h'
                  by_cases hc : oid = mid
                  · exact Or.inr (hc ▸ List.mem_cons_self _ _)
                  · rw [lookupTbl_erase_ne _ _ _ hc] at h'
                    exact Or.inl h'
                · exact Or.inr (List.mem_cons_of_mem _ h')
              · intro oid hm hs
                rcases List.mem_cons.1 hm with rfl | hm'
                · rcases Option.isSome_iff_exists.1 hs with ⟨e', he'⟩
                  rcases hpost.shrink oid e' he' with ⟨e0, he0, _⟩
                  rw [htbl, lookupTbl_erase_self] at he0
                  cases he0
                · exact hpost.live_mem oid hm' hs
              · intro h
                rcases bOrT h with h' | h'
                · rcases bOrT h' with h'' | h''
                  · exact hpost.zero_frozen (of_decide_eq_true h'')
                  · have hre : rest = [] := List.isEmpty_iff.1 h''
                    refine hpost.zero_frozen ?_
                    rw [htot', hre, levelSum_nil]
                · exact hpost.marked_total h'
              · intro h _
                have h1 := bOrF h
                have h2 : decide (total - fq = 0) = false := (bOrF h1.1).1
                exact hpost.unmarked_total h1.2 (of_decide_eq_false h2)
              · rcases hpost.taker_fields with ⟨t1, t2, t3, t4, t5, t6, t7⟩
                exact ⟨t1, t2, t3, t4, t5, le_trans t6 (Nat.sub_le _ _), t7⟩
          next hz =>
            have hzn : maker.remaining_quantity - fq ≠ 0 := hz
            refine
              { err_none := rfl
                suffix := ⟨[], rfl⟩
                frame := ?_
                agg := ?_
                pos := ?_
                shrink := ?_
                none_from := ?_
                live_mem := fun _ hm _ => hm
                marked_total := fun h => Bool.noConfusion h
                unmarked_total := ?_
                zero_frozen := fun h => absurd h ht0
                keysnd := fun h => keysNodup_insertTbl _ _ _ h
                taker_fields := ⟨rfl, rfl, rfl, rfl, rfl, Nat.sub_le _ _, rfl⟩ }
            · intro oid ho
              have hne : oid ≠ mid := fun hc => ho (hc ▸ List.mem_cons_self _ _)
              exact lookupTbl_insert_ne _ _ _ _ hne
            · show total - fq = levelSum (insertTbl acc.orders mid
                { maker with remaining_quantity := maker.remaining_quantity - fq }) (mid :: rest)
              have hci : contrib (insertTbl acc.orders mid
                  { maker with remaining_quantity := maker.remaining_quantity - fq }) mid
                  = maker.remaining_quantity - fq := by
                unfold contrib; rw [lookupTbl_insert_self]
              rw [levelSum_cons, hci, levelSum_insertTbl_not_mem _ _ _ _ hmidr, haggc]
              exact natB _ _ _ hle1
            · exact posInv_insertTbl _ _ _ hpos hzn
            · intro oid e' h
              by_cases hc : oid = mid
              · subst hc
                rw [lookupTbl_insert_self] at h
                injection h with h2
                refine ⟨maker, hlk, ?_, ?_, ?_, ?_⟩
                · rw [← h2]
                · rw [← h2]
                · rw [← h2]
                · rw [← h2]
                  exact Nat.sub_le _ _
              · rw [lookupTbl_insert_ne _ _ _ _ hc] at h
                exact ⟨e', h, rfl, rfl, rfl, le_refl _⟩
            · intro oid h
              by_cases hc : oid = mid
              · rw [hc, lookupTbl_insert_self] at h
                cases h
              · rw [lookupTbl_insert_ne _ _ _ _ hc] at h
                exact Or.inl h
            · intro _ _
              rw [haggc]
              exact natC _ _ _ hle1 hzn

theorem bNeT {a : Bool} (h : a = false) : ¬(a = true) := by
  rw [h]
  exact Bool.false_ne_true

theorem mem_unique_of_sorted (m : LevelMap) (hs : SortedKeys m) (p : Price)
    (w l : PriceLevel) (hw : (p, w) ∈ m) (hl : (p, l) ∈ m) : w = l := by
  induction m with
  | nil => cases hw
  | cons kv t ih =>
    rcases kv with ⟨q, v⟩
    have hs' : SortedKeys t := List.Pairwise.of_cons hs
    rcases List.mem_cons.1 hw with hw' | hw'
    · rcases List.mem_cons.1 hl with hl' | hl'
      · have e1 := congrArg Prod.snd hw'
        have e2 := congrArg Prod.snd hl'
        simp only at e1 e2
        rw [e1, e2]
      · exfalso
        have hq : p = q := congrArg Prod.fst hw'
        exact sorted_tail_ne t q v hs (p, l) hl' hq
    · rcases List.mem_cons.1 hl with hl' | hl'
      · exfalso
        have hq : p = q := congrArg Prod.fst hl'
        exact sorted_tail_ne t q v hs (p, w) hw' hq
      · exact ih hs' hw' hl'

/-- What the outer walk over candidate prices guarantees, starting from table
`tblIn`, taker `takerIn` and opposite-side map `mIn`: no error, keys
preserved, sortedness preserved, aggregates correct, positivity preserved,
FIFOs only shrink, untouched ids keep their entries, entries only shrink in
place or disappear, surviving fifo members stay listed at their level, a
level is either scheduled for removal or keeps a nonzero aggregate, scheduled
levels have zero aggregate, and the taker only loses remaining quantity. -/
structure WalkPost (tblIn : Table) (takerIn : OrderEntry) (mIn : LevelMap)
    (w : WalkOut) : Prop where
  err_none : w.err = none
  keys_eq : w.levels.map (fun kv => kv.1) = mIn.map (fun kv => kv.1)
  sorted : SortedKeys w.levels
  agg : AggInv w.acc.orders w.levels
  pos : PosInv w.acc.orders
  join_sub : List.Sublist (joinFifos w.levels) (joinFifos mIn)
  frame : ∀ oid, oid ∉ joinFifos mIn → lookupTbl w.acc.orders oid = lookupTbl tblIn oid
  shrink : ∀ oid e', lookupTbl w.acc.orders oid = some e' →
    ∃ e0, lookupTbl tblIn oid = some e0 ∧ e'.side = e0.side ∧ e'.price = e0.price ∧
      e'.order_id = e0.order_id ∧ e'.remaining_quantity ≤ e0.remaining_quantity
  none_from : ∀ oid, lookupTbl w.acc.orders oid = none →
    lookupTbl tblIn oid = none ∨ oid ∈ joinFifos mIn
  live_mem : ∀ p l l', lookupSM mIn p = some l → lookupSM w.levels p = some l' →
    ∀ oid ∈ l.orders, (lookupTbl w.acc.orders oid).isSome = true → oid ∈ l'.orders
  ne_rem : ∀ kv ∈ w.levels, kv.1 ∈ w.toRemove ∨ kv.2.total_quantity ≠ 0
  dead : ∀ kv ∈ w.levels, kv.1 ∈ w.toRemove → kv.2.total_quantity = 0
  keysnd : (tblIn.map (fun kv => kv.1)).Nodup →
    (w.acc.orders.map (fun kv => kv.1)).Nodup
  fifo_sub : ∀ p l l', lookupSM mIn p = some l → lookupSM w.levels p = some l' →
    List.Sublist l'.orders l.orders
  taker_fields : w.acc.taker.order_id = takerIn.order_id ∧
    w.acc.taker.user_id = takerIn.user_id ∧ w.acc.taker.side = takerIn.side ∧
    w.acc.taker.price = takerIn.price ∧ w.acc.taker.quantity = takerIn.quantity ∧
    w.acc.taker.remaining_quantity ≤ takerIn.remaining_quantity ∧
    w.acc.taker.timestamp = takerIn.timestamp

/-- The outer walk of the matching loop satisfies `WalkPost` when it starts
from a sorted opposite side with correct aggregates, positive table entries,
duplicate-free joined FIFOs, and a removal set that is exactly the set of
zero-aggregate levels. -/
theorem walkPrices_post (now : Int) :
    ∀ (ps : List Price) (m : LevelMap) (acc : MatchAcc) (toRemove : List Price),
      SortedKeys m →
      AggInv acc.orders m →
      PosInv acc.orders →
      (joinFifos m).Nodup →
      (∀ kv ∈ m, kv.1 ∈ toRemove ∨ kv.2.total_quantity ≠ 0) →
      (∀ kv ∈ m, kv.1 ∈ toRemove → kv.2.total_quantity = 0) →
      WalkPost acc.orders acc.taker m (walkPrices now m acc toRemove ps) := by
  intro ps
  induction ps with
  | nil =>
    intro m acc toRemove hs hagg hpos hndJ hne hdead
    exact
      { err_none := rfl
        keys_eq := rfl
        sorted := hs
        agg := hagg
        pos := hpos
        join_sub := List.Sublist.refl _
        frame := fun _ _ => rfl
        shrink := fun _ e' h => ⟨e', h, rfl, rfl, rfl, le_refl _⟩
        none_from := fun _ h => Or.inl h
        live_mem := fun p l l' h1 h2 oid hm _ => by
          have h2' : lookupSM m p = some l' := h2
          rw [h1] at h2'
          injection h2' with h2'
          rw [← h2']
          exact hm
        ne_rem := hne
        dead := hdead
        keysnd := fun h => h
        fifo_sub := fun p l l' h1 h2 => by
          have h2' : lookupSM m p = some l' := h2
          rw [h1] at h2'
          injection h2' with h2'
          rw [← h2']
        taker_fields := ⟨rfl, rfl, rfl, rfl, rfl, le_refl _, rfl⟩ }
  | cons price rest ih =>
    intro m acc toRemove hs hagg hpos hndJ hne hdead
    rw [walkPrices]
    split
    next h0 =>
      exact
        { err_none := rfl
          keys_eq := rfl
          sorted := hs
          agg := hagg
          pos := hpos
          join_sub := List.Sublist.refl _
          frame := fun _ _ => rfl
          shrink := fun _ e' h => ⟨e', h, rfl, rfl, rfl, le_refl _⟩
          none_from := fun _ h => Or.inl h
          live_mem := fun p l l' h1 h2 oid hm _ => by
            have h2' : lookupSM m p = some l' := h2
            rw [h1] at h2'
            injection h2' with h2'
            rw [← h2']
            exact hm
          ne_rem := hne
          dead := hdead
          keysnd := fun h => h
          fifo_sub := fun p l l' h1 h2 => by
            have h2' : lookupSM m p = some l' := h2
            rw [h1] at h2'
            injection h2' with h2'
            rw [← h2']
          taker_fields := ⟨rfl, rfl, rfl, rfl, rfl, le_refl _, rfl⟩ }
    next h0 =>
      rcases hlvl : lookupSM m price with _ | l
      · simp only [hlvl]
        exact ih m acc toRemove hs hagg hpos hndJ hne hdead
      · simp only [hlvl]
        have hkv := lookupSM_mem m price l hlvl
        have hsubf := fifo_sublist_joinFifos m (price, l) hkv
        have hfnd : l.orders.Nodup := hndJ.sublist hsubf
        have htq : l.total_quantity = levelSum acc.orders l.orders := hagg (price, l) hkv
        have hlp := fillLoop_post now price l.orders acc l.total_quantity htq hfnd hpos
        simp only [hlp.err_none]
        have hfsub : List.Sublist (fillLoop now price acc l.orders l.total_quantity).fifo
            l.orders := by
          rcases hlp.suffix with ⟨g, hg⟩
          conv_rhs => rw [hg]
          exact List.sublist_append_right _ _
        have hjsub : List.Sublist
            (joinFifos (updateSM m price (fun w => { w with
              orders := (fillLoop now price acc l.orders l.total_quantity).fifo,
              total_quantity := (fillLoop now price acc l.orders l.total_quantity).total })))
            (joinFifos m) :=
          joinFifos_updateSM_sublist m hs price l hkv _ hfsub
        have hs' : SortedKeys (updateSM m price (fun w => { w with
            orders := (fillLoop now price acc l.orders l.total_quantity).fifo,
            total_quantity := (fillLoop now price acc l.orders l.total_quantity).total })) :=
          sortedKeys_updateSM m price _ hs
        have hagg' : AggInv (fillLoop now price acc l.orders l.total_quantity).acc.orders
            (updateSM m price (fun w => { w with
              orders := (fillLoop now price acc l.orders l.total_quantity).fifo,
              total_quantity := (fillLoop now price acc l.orders l.total_quantity).total })) := by
          intro kv' hkv'
          rcases mem_updateSM_cases _ _ _ _ hkv' with ⟨hmem, hnep⟩ | ⟨w, hwm, hweq⟩
          · have hdisj := joinFifos_disjoint m hndJ price l hkv kv' hmem hnep
            have hcongr : levelSum (fillLoop now price acc l.orders l.total_quantity).acc.orders
                kv'.2.orders = levelSum acc.orders kv'.2.orders :=
              levelSum_congr _ _ _ (fun oid hmo => hlp.frame oid (hdisj oid hmo))
            rw [hcongr]
            exact hagg kv' hmem
          · have hwl : w = l := mem_unique_of_sorted m hs price w l hwm hkv
            rw [hweq, hwl]
            exact hlp.agg
        have hne' : ∀ kv ∈ updateSM m price (fun w => { w with
            orders := (fillLoop now price acc l.orders l.total_quantity).fifo,
            total_quantity := (fillLoop now price acc l.orders l.total_quantity).total }),
            kv.1 ∈ (if (fillLoop now price acc l.orders l.total_quantity).marked = true
              then toRemove ++ [price] else toRemove) ∨ kv.2.total_quantity ≠ 0 := by
          intro kv' hkv'
          rcases mem_updateSM_cases _ _ _ _ hkv' with ⟨hmem, _⟩ | ⟨w, hwm, hweq⟩
          · rcases hne kv' hmem with h' | h'
            · left
              split
              · exact List.mem_append_left _ h'
              · exact h'
            · exact Or.inr h'
          · have hwl : w = l := mem_unique_of_sorted m hs price w l hwm hkv
            rcases hmk : (fillLoop now price acc l.orders l.total_quantity).marked with _ | _
            · by_cases hpr : price ∈ toRemove
              · left
                rw [hweq]
                split
                · exact List.mem_append_left _ hpr
                · exact hpr
              · right
                rw [hweq, hwl]
                have hlne : l.total_quantity ≠ 0 := by
                  rcases hne (price, l) hkv with h' | h'
                  · exact absurd h' hpr
                  · exact h'
                exact hlp.unmarked_total hmk hlne
            · left
              rw [hweq, if_pos rfl]
              exact List.mem_append_right _ (List.mem_cons_self _ _)
        have hdead' : ∀ kv ∈ updateSM m price (fun w => { w with
            orders := (fillLoop now price acc l.orders l.total_quantity).fifo,
            total_quantity := (fillLoop now price acc l.orders l.total_quantity).total }),
            kv.1 ∈ (if (fillLoop now price acc l.orders l.total_quantity).marked = true
              then toRemove ++ [price] else toRemove) → kv.2.total_quantity = 0 := by
          intro kv' hkv' hin
          rcases mem_updateSM_cases _ _ _ _ hkv' with ⟨hmem, hnep⟩ | ⟨w, hwm, hweq⟩
          · refine hdead kv' hmem ?_
            rcases hmk : (fillLoop now price acc l.orders l.total_quantity).marked with _ | _
            · rw [if_neg (bNeT hmk)] at hin
              exact hin
            · rw [if_pos hmk] at hin
              rcases List.mem_append.1 hin with h' | h'
              · exact h'
              · exact absurd (List.mem_singleton.1 h') hnep
          · have hwl : w = l := mem_unique_of_sorted m hs price w l hwm hkv
            rw [hweq]
            rcases hmk : (fillLoop now price acc l.orders l.total_quantity).marked with _ | _
            · rw [if_neg (bNeT hmk)] at hin
              have hin' : price ∈ toRemove := by
                rw [hweq] at hin
                exact hin
              have hl0 : l.total_quantity = 0 := hdead (price, l) hkv hin'
              rw [hwl]
              exact hlp.zero_frozen hl0
            · rw [hwl]
              exact hlp.marked_total hmk
        have hpost := ih
          (updateSM m price (fun w => { w with
            orders := (fillLoop now price acc l.orders l.total_quantity).fifo,
            total_quantity := (fillLoop now price acc l.orders l.total_quantity).total }))
          (fillLoop now price acc l.orders l.total_quantity).acc
          (if (fillLoop now price acc l.orders l.total_quantity).marked = true
            then toRemove ++ [price] else toRemove)
          hs' hagg' hlp.pos (hndJ.sublist hjsub) hne' hdead'
        refine
          { err_none := hpost.err_none
            keys_eq := ?_
            sorted := hpost.sorted
            agg := hpost.agg
            pos := hpost.pos
            join_sub := hpost.join_sub.trans hjsub
            frame := ?_
            shrink := ?_
            none_from := ?_
            live_mem := ?_
            ne_rem := hpost.ne_rem
            dead := hpost.dead
            keysnd := fun h => hpost.keysnd (hlp.keysnd h)
            fifo_sub := ?_
            taker_fields := ?_ }
        · rw [hpost.keys_eq, keys_updateSM]
        · intro oid ho
          have ho' : oid ∉ joinFifos (updateSM m price (fun w => { w with
              orders := (fillLoop now price acc l.orders l.total_quantity).fifo,
              total_quantity := (fillLoop now price acc l.orders l.total_quantity).total })) :=
            fun hc => ho (hjsub.subset hc)
          have hol : oid ∉ l.orders := fun hc => ho (hsubf.subset hc)
          rw [hpost.frame oid ho', hlp.frame oid hol]
        · intro oid e' h
          rcases hpost.shrink oid e' h with ⟨e1, he1, q1, q2, q3, q4⟩
          rcases hlp.shrink oid e1 he1 with ⟨e0, he0, r1, r2, r3, r4⟩
          exact ⟨e0, he0, q1.trans r1, q2.trans r2, q3.trans r3, le_trans q4 r4⟩
        · intro oid h
          rcases hpost.none_from oid h with h' | h'
          · rcases hlp.none_from oid h' with h'' | h''
            · exact Or.inl h''
            · exact Or.inr (hsubf.subset h'')
          · exact Or.inr (hjsub.subset h')
        · intro p l0 l'' hl0 hfin oid hmo hs2
          by_cases hp : p = price
          · subst hp
            have hl0l : l0 = l := by
              rw [hl0] at hlvl
              injection hlvl
            subst hl0l
            have hupd : lookupSM (updateSM m p (fun w => { w with
                orders := (fillLoop now p acc l0.orders l0.total_quantity).fifo,
                total_quantity := (fillLoop now p acc l0.orders l0.total_quantity).total })) p
                = some { l0 with
                  orders := (fillLoop now p acc l0.orders l0.total_quantity).fifo,
                  total_quantity := (fillLoop now p acc l0.orders l0.total_quantity).total } := by
              rw [lookupSM_update_self, hl0]
              rfl
            have hmid : (lookupTbl (fillLoop now p acc l0.orders l0.total_quantity).acc.orders
                oid).isSome = true := by
              rcases Option.isSome_iff_exists.1 hs2 with ⟨e', he'⟩
              rcases hpost.shrink oid e' he' with ⟨e1, he1, _⟩
              rw [he1]
              rfl
            have hmem2 := hlp.live_mem oid hmo hmid
            exact hpost.live_mem p _ l'' hupd hfin oid hmem2 hs2
          · have hupd : lookupSM (updateSM m price (fun w => { w with
                orders := (fillLoop now price acc l.orders l.total_quantity).fifo,
                total_quantity := (fillLoop now price acc l.orders l.total_quantity).total })) p
                = some l0 := by
              rw [lookupSM_update_ne m price p _ hp, hl0]
            exact hpost.live_mem p l0 l'' hupd hfin oid hmo hs2
        · intro p l0 l'' hl0 hfin
          by_cases hp : p = price
          · subst hp
            have hl0l : l0 = l := by
              rw [hl0] at hlvl
              injection hlvl
            subst hl0l
            have hupd : lookupSM (updateSM m p (fun w => { w with
                orders := (fillLoop now p acc l0.orders l0.total_quantity).fifo,
                total_quantity := (fillLoop now p acc l0.orders l0.total_quantity).total })) p
                = some { l0 with
                  orders := (fillLoop now p acc l0.orders l0.total_quantity).fifo,
                  total_quantity := (fillLoop now p acc l0.orders l0.total_quantity).total } := by
              rw [lookupSM_update_self, hl0]
              rfl
            have hstep := hpost.fifo_sub p _ l'' hupd hfin
            exact hstep.trans hfsub
          · have hupd : lookupSM (updateSM m price (fun w => { w with
                orders := (fillLoop now price acc l.orders l.total_quantity).fifo,
                total_quantity := (fillLoop now price acc l.orders l.total_quantity).total })) p
                = some l0 := by
              rw [lookupSM_update_ne m price p _ hp, hl0]
            exact hpost.fifo_sub p l0 l'' hupd hfin
        · rcases hpost.taker_fields with ⟨t1, t2, t3, t4, t5, t6, t7⟩
          rcases hlp.taker_fields with ⟨u1, u2, u3, u4, u5, u6, u7⟩
          exact ⟨t1.trans u1, t2.trans u2, t3.trans u3, t4.trans u4, t5.trans u5,
            le_trans t6 u6, t7.trans u7⟩

/-- `WF` with the three mutable components split out, so that the books
produced by the operations can be described by component equations. -/
def WFparts (t : Table) (bids asks : LevelMap) : Prop :=
  SortedKeys bids ∧ SortedKeys asks ∧
  (t.map (fun kv => kv.1)).Nodup ∧
  AggInv t bids ∧ AggInv t asks ∧
  LocInv t bids Side.Buy ∧ LocInv t asks Side.Sell ∧
  PosInv t ∧ NeInv bids ∧ NeInv asks ∧
  (joinFifos bids ++ joinFifos asks).Nodup ∧
  (∀ kv ∈ t, ∃ l, lookupSM (match kv.2.side with
      | Side.Buy => bids
      | Side.Sell => asks) kv.2.price = some l ∧ kv.1 ∈ l.orders)

theorem wf_to_parts (b : OrderBook) (h : WF b) : WFparts b.orders b.bids b.asks := by
  obtain ⟨h1, h2, h3, h4, h5, h6, h7, h8, h9, h10, h11, h12⟩ := h
  refine ⟨h1, h2, h3, h4, h5, h6, h7, h8, h9, h10, h11, ?_⟩
  intro kv hkv
  obtain ⟨l, hl, ho⟩ := h12 kv hkv
  refine ⟨l, ?_, ho⟩
  rcases hs : kv.2.side with _ | _ <;> rw [hs] at hl <;> exact hl

theorem parts_to_wf (b' : OrderBook) (t : Table) (bids asks : LevelMap)
    (ht : b'.orders = t) (hb : b'.bids = bids) (ha : b'.asks = asks)
    (h : WFparts t bids asks) : WF b' := by
  subst ht hb ha
  obtain ⟨h1, h2, h3, h4, h5, h6, h7, h8, h9, h10, h11, h12⟩ := h
  refine ⟨h1, h2, h3, h4, h5, h6, h7, h8, h9, h10, h11, ?_⟩
  intro kv hkv
  obtain ⟨l, hl, ho⟩ := h12 kv hkv
  refine ⟨l, ?_, ho⟩
  rcases hs : kv.2.side with _ | _ <;> rw [hs] at hl <;> unfold sideLevels <;> exact hl

theorem mem_of_lookupTbl (t : Table) (k : OrderId) (e : OrderEntry)
    (h : lookupTbl t k = some e) : (k, e) ∈ t := by
  induction t with
  | nil => cases h
  | cons kv t ih =>
    rw [lookupTbl_cons] at h
    by_cases hk : kv.1 = k
    · rw [if_pos hk] at h
      injection h with h2
      have hkv : kv = (k, e) := by
        rcases kv with ⟨a, v⟩
        simp only at hk h2
        rw [hk, h2]
      rw [← hkv]
      exact List.mem_cons_self _ _
    · rw [if_neg hk] at h
      exact List.mem_cons_of_mem _ (ih h)

theorem lookupTbl_erase_some (t : Table) (k k' : OrderId) (e : OrderEntry)
    (h : lookupTbl (eraseTbl t k) k' = some e) : lookupTbl t k' = some e := by
  by_cases hc : k' = k
  · rw [hc, lookupTbl_erase_self] at h
    cases h
  · rw [lookupTbl_erase_ne _ _ _ hc] at h
    exact h

theorem lookupTbl_of_mem_nodup (t : Table) (hnd : (t.map (fun kv => kv.1)).Nodup)
    (kv : OrderId × OrderEntry) (hm : kv ∈ t) : lookupTbl t kv.1 = some kv.2 := by
  induction t with
  | nil => cases hm
  | cons a s ih =>
    rw [List.map_cons] at hnd
    rcases List.mem_cons.1 hm with hm' | hm'
    · rw [hm', lookupTbl_cons, if_pos rfl]
    · rw [lookupTbl_cons]
      have hne : a.1 ≠ kv.1 := by
        intro hc
        exact (List.nodup_cons.1 hnd).1 (hc ▸ List.mem_map.2 ⟨kv, hm', rfl⟩)
      rw [if_neg hne]
      exact ih (List.nodup_cons.1 hnd).2 hm'

theorem bFalse {a : Bool} (h : ¬(a = true)) : a = false := by
  rcases a with _ | _
  · rfl
  · exact absurd rfl h

theorem is_empty_false_total (l : PriceLevel) (h : l.is_empty = false) :
    l.total_quantity ≠ 0 := by
  unfold PriceLevel.is_empty at h
  simpa using (bOrF h).1

theorem is_empty_true_cases (l : PriceLevel) (h : l.is_empty = true) :
    l.total_quantity = 0 ∨ l.orders = [] := by
  unfold PriceLevel.is_empty at h
  rcases bOrT h with h' | h'
  · exact Or.inl (by simpa using h')
  · exact Or.inr (List.isEmpty_iff.1 h')

theorem levelSum_ne_zero_of_mem (t : Table) (fifo : List OrderId) (oid : OrderId)
    (hm : oid ∈ fifo) (hc : contrib t oid ≠ 0) : levelSum t fifo ≠ 0 := by
  induction fifo with
  | nil => cases hm
  | cons x xs ih =>
    rw [levelSum_cons]
    rcases List.mem_cons.1 hm with rfl | hm'
    · intro h0
      exact hc (Nat.eq_zero_of_add_eq_zero_right h0)
    · intro h0
      exact ih hm' (Nat.eq_zero_of_add_eq_zero_left h0)

/-- An id listed at one level is not listed at any other level of the book. -/
theorem own_level_only (b : OrderBook) (hndF : (allFifoIds b).Nodup)
    (s : Side) (p : Price) (l : PriceLevel)
    (hl : lookupSM (sideLevels b s) p = some l) (oid : OrderId) (ho : oid ∈ l.orders) :
    ∀ (s' : Side) (kv : Price × PriceLevel), kv ∈ sideLevels b s' →
      (s' = s → kv.1 ≠ p) → oid ∉ kv.2.orders := by
  have hndF' : (joinFifos b.bids ++ joinFifos b.asks).Nodup := by
    rw [← allFifoIds_eq]
    exact hndF
  have hnd2 := List.nodup_append.1 hndF'
  intro s' kv hkv hne ho2
  rcases s with _ | _ <;> rcases s' with _ | _
  · exact joinFifos_disjoint b.bids hnd2.1 kv.1 kv.2 hkv (p, l)
      (lookupSM_mem _ _ _ hl) (fun hc => (hne rfl) hc.symm) oid ho ho2
  · exact hnd2.2.2
      ((fifo_sublist_joinFifos b.bids (p, l) (lookupSM_mem _ _ _ hl)).subset ho)
      ((fifo_sublist_joinFifos b.asks kv hkv).subset ho2)
  · exact hnd2.2.2
      ((fifo_sublist_joinFifos b.bids kv hkv).subset ho2)
      ((fifo_sublist_joinFifos b.asks (p, l) (lookupSM_mem _ _ _ hl)).subset ho)
  · exact joinFifos_disjoint b.asks hnd2.2.1 kv.1 kv.2 hkv (p, l)
      (lookupSM_mem _ _ _ hl) (fun hc => (hne rfl) hc.symm) oid ho ho2

/-- `remove_order` preserves well-formedness. -/
theorem remove_order_preserves_WF (b : OrderBook) (oid : OrderId) (hwf : WF b) :
    WF (b.remove_order oid).1 := by
  rcases hlk : lookupTbl b.orders oid with _ | e
  · rw [(remove_order_spec b oid).1 hlk]
    exact hwf
  · obtain ⟨hsb, hsa, hndK, haggB, haggA, hlocB, hlocA, hpos, hneB, hneA, hndF, hmem⟩ := hwf
    obtain ⟨_, r2, _, _, _, r6, r7, r8⟩ := (remove_order_spec b oid).2 e hlk
    obtain ⟨l, hl, hol⟩ := hmem (oid, e) (mem_of_lookupTbl _ _ _ hlk)
    have hndF' : (joinFifos b.bids ++ joinFifos b.asks).Nodup := by
      rw [← allFifoIds_eq]
      exact hndF
    have hnd2 := List.nodup_append.1 hndF'
    have hndK' : ((eraseTbl b.orders oid).map (fun kv => kv.1)).Nodup :=
      hndK.sublist (keys_sublist_eraseTbl b.orders oid)
    have hposE := posInv_eraseTbl b.orders oid hpos
    have hlocBE : LocInv (eraseTbl b.orders oid) b.bids Side.Buy :=
      fun kv hkv o ho e' he' => hlocB kv hkv o ho e' (lookupTbl_erase_some _ _ _ _ he')
    have hlocAE : LocInv (eraseTbl b.orders oid) b.asks Side.Sell :=
      fun kv hkv o ho e' he' => hlocA kv hkv o ho e' (lookupTbl_erase_some _ _ _ _ he')
    rcases hside : e.side with _ | _
    · rw [hside] at hl r6 r8
      have hasks : (b.remove_order oid).1.asks = b.asks := r6
      have hlb : lookupSM b.bids e.price = some l := hl
      have hkvm : (e.price, l) ∈ b.bids := lookupSM_mem _ _ _ hlb
      have hfnd : l.orders.Nodup :=
        hnd2.1.sublist (fifo_sublist_joinFifos b.bids (e.price, l) hkvm)
      have hltot : l.total_quantity = levelSum b.orders l.orders := haggB (e.price, l) hkvm
      have hsum : levelSum b.orders l.orders
          = levelSum (eraseTbl b.orders oid) l.orders + e.remaining_quantity :=
        levelSum_eraseTbl_of_mem b.orders oid e l.orders hfnd hol hlk
      have hother : ∀ (s' : Side) (kv : Price × PriceLevel), kv ∈ sideLevels b s' →
          (s' = Side.Buy → kv.1 ≠ e.price) →
          levelSum (eraseTbl b.orders oid) kv.2.orders = levelSum b.orders kv.2.orders := by
        intro s' kv hkv hne
        exact levelSum_eraseTbl_not_mem _ _ _
          (own_level_only b hndF Side.Buy e.price l hlb oid hol s' kv hkv hne)
      by_cases hemp : (l.remove_order e.remaining_quantity).is_empty = true
      · have hbids : (b.remove_order oid).1.bids = eraseSM b.bids e.price := (r8 l hlb).1 hemp
        have hzero : levelSum (eraseTbl b.orders oid) l.orders = 0 := by
          rcases is_empty_true_cases _ hemp with h0 | h0
          · have h1 : l.total_quantity - e.remaining_quantity = 0 := h0
            rw [hltot, hsum, Nat.add_sub_cancel] at h1
            exact h1
          · have h1 : l.orders = [] := h0
            rw [h1, levelSum_nil]
        refine parts_to_wf _ (eraseTbl b.orders oid) (eraseSM b.bids e.price) b.asks
          r2 hbids hasks ?_
        refine ⟨sortedKeys_eraseSM _ _ hsb, hsa, hndK', ?_, ?_, ?_, hlocAE, hposE, ?_,
          hneA, ?_, ?_⟩
        · intro kv hkv
          obtain ⟨hkm, hknep⟩ := (mem_eraseSM _ _ _).1 hkv
          rw [hother Side.Buy kv hkm (fun _ => hknep)]
          exact haggB kv hkm
        · intro kv hkv
          rw [hother Side.Sell kv hkv (fun hc => Side.noConfusion hc)]
          exact haggA kv hkv
        · intro kv hkv o ho e' he'
          exact hlocBE kv ((mem_eraseSM _ _ _).1 hkv).1 o ho e' he'
        · intro kv hkv
          exact hneB kv ((mem_eraseSM _ _ _).1 hkv).1
        · exact hndF'.sublist
            ((joinFifos_eraseSM_sublist b.bids e.price).append (List.Sublist.refl _))
        · intro kv hkv
          have hkmT : kv ∈ b.orders := List.mem_of_mem_filter hkv
          obtain ⟨l', hl', hol'⟩ := hmem kv hkmT
          rcases hks : kv.2.side with _ | _
          · rw [hks] at hl'
            by_cases hpp : kv.2.price = e.price
            · exfalso
              have hll' : l' = l := by
                have h1 : lookupSM b.bids kv.2.price = some l' := hl'
                rw [hpp, hlb] at h1
                injection h1 with h1
                exact h1.symm
              have hlk2 : lookupTbl (eraseTbl b.orders oid) kv.1 = some kv.2 :=
                lookupTbl_of_mem_nodup _ hndK' kv hkv
              have hc : contrib (eraseTbl b.orders oid) kv.1 ≠ 0 := by
                unfold contrib
                rw [hlk2]
                exact hpos kv hkmT
              rw [hll'] at hol'
              exact levelSum_ne_zero_of_mem _ l.orders kv.1 hol' hc hzero
            · refine ⟨l', ?_, hol'⟩
              show lookupSM (eraseSM b.bids e.price) kv.2.price = some l'
              rw [lookupSM_erase_ne _ _ _ hpp]
              exact hl'
          · rw [hks] at hl'
            exact ⟨l', hl', hol'⟩
      · have hempf := bFalse hemp
        have hbids : (b.remove_order oid).1.bids
            = updateSM b.bids e.price (fun _ => l.remove_order e.remaining_quantity) :=
          (r8 l hlb).2 hempf
        refine parts_to_wf _ (eraseTbl b.orders oid)
          (updateSM b.bids e.price (fun _ => l.remove_order e.remaining_quantity)) b.asks
          r2 hbids hasks ?_
        refine ⟨sortedKeys_updateSM _ _ _ hsb, hsa, hndK', ?_, ?_, ?_, hlocAE, hposE, ?_,
          hneA, ?_, ?_⟩
        · intro kv hkv
          rcases mem_updateSM_cases _ _ _ _ hkv with ⟨hkm, hknep⟩ | ⟨w, _, hweq⟩
          · rw [hother Side.Buy kv hkm (fun _ => hknep)]
            exact haggB kv hkm
          · rw [hweq]
            show l.total_quantity - e.remaining_quantity
              = levelSum (eraseTbl b.orders oid) l.orders
            rw [hltot, hsum, Nat.add_sub_cancel]
        · intro kv hkv
          rw [hother Side.Sell kv hkv (fun hc => Side.noConfusion hc)]
          exact haggA kv hkv
        · intro kv hkv o ho e' he'
          rcases mem_updateSM_cases _ _ _ _ hkv with ⟨hkm, _⟩ | ⟨w, _, hweq⟩
          · exact hlocBE kv hkm o ho e' he'
          · have ho2 : o ∈ l.orders := by
              rw [hweq] at ho
              exact ho
            have hcc := hlocBE (e.price, l) hkvm o ho2 e' he'
            rw [hweq]
            exact hcc
        · intro kv hkv
          rcases mem_updateSM_cases _ _ _ _ hkv with ⟨hkm, _⟩ | ⟨w, _, hweq⟩
          · exact hneB kv hkm
          · rw [hweq]
            exact is_empty_false_total _ hempf
        · refine hndF'.sublist (List.Sublist.append ?_ (List.Sublist.refl _))
          exact joinFifos_updateSM_sublist b.bids hsb e.price l hkvm _ (List.Sublist.refl _)
        · intro kv hkv
          have hkmT : kv ∈ b.orders := List.mem_of_mem_filter hkv
          obtain ⟨l', hl', hol'⟩ := hmem kv hkmT
          rcases hks : kv.2.side with _ | _
          · rw [hks] at hl'
            by_cases hpp : kv.2.price = e.price
            · have hll' : l' = l := by
                have h1 : lookupSM b.bids kv.2.price = some l' := hl'
                rw [hpp, hlb] at h1
                injection h1 with h1
                exact h1.symm
              refine ⟨l.remove_order e.remaining_quantity, ?_, ?_⟩
              · show lookupSM (updateSM b.bids e.price
                    (fun _ => l.remove_order e.remaining_quantity)) kv.2.price = _
                rw [hpp, lookupSM_update_self, hlb]
                rfl
              · show kv.1 ∈ l.orders
                rw [← hll']
                exact hol'
            · refine ⟨l', ?_, hol'⟩
              show lookupSM (updateSM b.bids e.price
                  (fun _ => l.remove_order e.remaining_quantity)) kv.2.price = some l'
              rw [lookupSM_update_ne _ _ _ _ hpp]
              exact hl'
          · rw [hks] at hl'
            exact ⟨l', hl', hol'⟩
    · rw [hside] at hl r6 r8
      have hbids2 : (b.remove_order oid).1.bids = b.bids := r6
      have hla : lookupSM b.asks e.price = some l := hl
      have hkvm : (e.price, l) ∈ b.asks := lookupSM_mem _ _ _ hla
      have hfnd : l.orders.Nodup :=
        hnd2.2.1.sublist (fifo_sublist_joinFifos b.asks (e.price, l) hkvm)
      have hltot : l.total_quantity = levelSum b.orders l.orders := haggA (e.price, l) hkvm
      have hsum : levelSum b.orders l.orders
          = levelSum (eraseTbl b.orders oid) l.orders + e.remaining_quantity :=
        levelSum_eraseTbl_of_mem b.orders oid e l.orders hfnd hol hlk
      have hother : ∀ (s' : Side) (kv : Price × PriceLevel), kv ∈ sideLevels b s' →
          (s' = Side.Sell → kv.1 ≠ e.price) →
          levelSum (eraseTbl b.orders oid) kv.2.orders = levelSum b.orders kv.2.orders := by
        intro s' kv hkv hne
        exact levelSum_eraseTbl_not_mem _ _ _
          (own_level_only b hndF Side.Sell e.price l hla oid hol s' kv hkv hne)
      by_cases hemp : (l.remove_order e.remaining_quantity).is_empty = true
      · have hasks2 : (b.remove_order oid).1.asks = eraseSM b.asks e.price := (r8 l hla).1 hemp
        have hzero : levelSum (eraseTbl b.orders oid) l.orders = 0 := by
          rcases is_empty_true_cases _ hemp with h0 | h0
          · have h1 : l.total_quantity - e.remaining_quantity = 0 := h0
            rw [hltot, hsum, Nat.add_sub_cancel] at h1
            exact h1
          · have h1 : l.orders = [] := h0
            rw [h1, levelSum_nil]
        refine parts_to_wf _ (eraseTbl b.orders oid) b.bids (eraseSM b.asks e.price)
          r2 hbids2 hasks2 ?_
        refine ⟨hsb, sortedKeys_eraseSM _ _ hsa, hndK', ?_, ?_, hlocBE, ?_, hposE, ?_,
          ?_, ?_, ?_⟩
        · intro kv hkv
          rw [hother Side.Buy kv hkv (fun hc => Side.noConfusion hc)]
          exact haggB kv hkv
        · intro kv hkv
          obtain ⟨hkm, hknep⟩ := (mem_eraseSM _ _ _).1 hkv
          rw [hother Side.Sell kv hkm (fun _ => hknep)]
          exact haggA kv hkm
        · intro kv hkv o ho e' he'
          exact hlocAE kv ((mem_eraseSM _ _ _).1 hkv).1 o ho e' he'
        · exact hneB
        · intro kv hkv
          exact hneA kv ((mem_eraseSM _ _ _).1 hkv).1
        · exact hndF'.sublist
            ((List.Sublist.refl _).append (joinFifos_eraseSM_sublist b.asks e.price))
        · intro kv hkv
          have hkmT : kv ∈ b.orders := List.mem_of_mem_filter hkv
          obtain ⟨l', hl', hol'⟩ := hmem kv hkmT
          rcases hks : kv.2.side with _ | _
          · rw [hks] at hl'
            exact ⟨l', hl', hol'⟩
          · rw [hks] at hl'
            by_cases hpp : kv.2.price = e.price
            · exfalso
              have hll' : l' = l := by
                have h1 : lookupSM b.asks kv.2.price = some l' := hl'
                rw [hpp, hla] at h1
                injection h1 with h1
                exact h1.symm
              have hlk2 : lookupTbl (eraseTbl b.orders oid) kv.1 = some kv.2 :=
                lookupTbl_of_mem_nodup _ hndK' kv hkv
              have hc : contrib (eraseTbl b.orders oid) kv.1 ≠ 0 := by
                unfold contrib
                rw [hlk2]
                exact hpos kv hkmT
              rw [hll'] at hol'
              exact levelSum_ne_zero_of_mem _ l.orders kv.1 hol' hc hzero
            · refine ⟨l', ?_, hol'⟩
              show lookupSM (eraseSM b.asks e.price) kv.2.price = some l'
              rw [lookupSM_erase_ne _ _ _ hpp]
              exact hl'
      · have hempf := bFalse hemp
        have hasks2 : (b.remove_order oid).1.asks
            = updateSM b.asks e.price (fun _ => l.remove_order e.remaining_quantity) :=
          (r8 l hla).2 hempf
        refine parts_to_wf _ (eraseTbl b.orders oid) b.bids
          (updateSM b.asks e.price (fun _ => l.remove_order e.remaining_quantity))
          r2 hbids2 hasks2 ?_
        refine ⟨hsb, sortedKeys_updateSM _ _ _ hsa, hndK', ?_, ?_, hlocBE, ?_, hposE, ?_,
          ?_, ?_, ?_⟩
        · intro kv hkv
          rw [hother Side.Buy kv hkv (fun hc => Side.noConfusion hc)]
          exact haggB kv hkv
        · intro kv hkv
          rcases mem_updateSM_cases _ _ _ _ hkv with ⟨hkm, hknep⟩ | ⟨w, _, hweq⟩
          · rw [hother Side.Sell kv hkm (fun _ => hknep)]
            exact haggA kv hkm
          · rw [hweq]
            show l.total_quantity - e.remaining_quantity
              = levelSum (eraseTbl b.orders oid) l.orders
            rw [hltot, hsum, Nat.add_sub_cancel]
        · intro kv hkv o ho e' he'
          rcases mem_updateSM_cases _ _ _ _ hkv with ⟨hkm, _⟩ | ⟨w, _, hweq⟩
          · exact hlocAE kv hkm o ho e' he'
          · have ho2 : o ∈ l.orders := by
              rw [hweq] at ho
              exact ho
            have hcc := hlocAE (e.price, l) hkvm o ho2 e' he'
            rw [hweq]
            exact hcc
        · exact hneB
        · intro kv hkv
          rcases mem_updateSM_cases _ _ _ _ hkv with ⟨hkm, _⟩ | ⟨w, _, hweq⟩
          · exact hneA kv hkm
          · rw [hweq]
            exact is_empty_false_total _ hempf
        · refine hndF'.sublist (List.Sublist.append (List.Sublist.refl _) ?_)
          exact joinFifos_updateSM_sublist b.asks hsa e.price l hkvm _ (List.Sublist.refl _)
        · intro kv hkv
          have hkmT : kv ∈ b.orders := List.mem_of_mem_filter hkv
          obtain ⟨l', hl', hol'⟩ := hmem kv hkmT
          rcases hks : kv.2.side with _ | _
          · rw [hks] at hl'
            exact ⟨l', hl', hol'⟩
          · rw [hks] at hl'
            by_cases hpp : kv.2.price = e.price
            · have hll' : l' = l := by
                have h1 : lookupSM b.asks kv.2.price = some l' := hl'
                rw [hpp, hla] at h1
                injection h1 with h1
                exact h1.symm
              refine ⟨l.remove_order e.remaining_quantity, ?_, ?_⟩
              · show lookupSM (updateSM b.asks e.price
                    (fun _ => l.remove_order e.remaining_quantity)) kv.2.price = _
                rw [hpp, lookupSM_update_self, hla]
                rfl
              · show kv.1 ∈ l.orders
                rw [← hll']
                exact hol'
            · refine ⟨l', ?_, hol'⟩
              show lookupSM (updateSM b.asks e.price
                  (fun _ => l.remove_order e.remaining_quantity)) kv.2.price = some l'
              rw [lookupSM_update_ne _ _ _ _ hpp]
              exact hl'

/-- `add_order` preserves well-formedness, for a fresh valid order whose
quantity does not overflow its level's aggregate. -/
theorem add_order_preserves_WF (b : OrderBook) (o : OrderEntry) (hwf : WF b)
    (hrem : o.remaining_quantity ≠ 0)
    (hrle : o.remaining_quantity ≤ U64MAX)
    (hfresh2 : o.order_id ∉ allFifoIds b)
    (hov : ∀ kv ∈ sideLevels b o.side, kv.1 = o.price →
      kv.2.total_quantity + o.remaining_quantity ≤ U64MAX) :
    WF (b.add_order o).1 := by
  by_cases hq : o.quantity = 0
  · unfold OrderBook.add_order
    rw [OrderEntry.validate_order, if_pos hq]
    exact hwf
  by_cases hp : o.price = 0
  · unfold OrderBook.add_order
    rw [OrderEntry.validate_order, if_neg hq, if_pos hp]
    exact hwf
  obtain ⟨_, a2, _, _, _, a6, a7⟩ := add_order_spec b o hq hp
  obtain ⟨hsb, hsa, hndK, haggB, haggA, hlocB, hlocA, hpos, hneB, hneA, hndF, hmem⟩ := hwf
  have hndF' : (joinFifos b.bids ++ joinFifos b.asks).Nodup := by
    rw [← allFifoIds_eq]
    exact hndF
  have hfresh2' : o.order_id ∉ joinFifos b.bids ++ joinFifos b.asks := by
    rw [← allFifoIds_eq]
    exact hfresh2
  have hnotinB : ∀ kv ∈ b.bids, o.order_id ∉ kv.2.orders := by
    intro kv hkv hc
    exact hfresh2' (List.mem_append_left _
      ((fifo_sublist_joinFifos b.bids kv hkv).subset hc))
  have hnotinA : ∀ kv ∈ b.asks, o.order_id ∉ kv.2.orders := by
    intro kv hkv hc
    exact hfresh2' (List.mem_append_right _
      ((fifo_sublist_joinFifos b.asks kv hkv).subset hc))
  have hndK' := keysNodup_insertTbl b.orders o.order_id o hndK
  have hpos' := posInv_insertTbl b.orders o.order_id o hpos hrem
  have hco : contrib (insertTbl b.orders o.order_id o) o.order_id = o.remaining_quantity := by
    unfold contrib
    rw [lookupTbl_insert_self]
  have hlocIns : ∀ (mside : LevelMap) (s : Side), LocInv b.orders mside s →
      (∀ kv ∈ mside, o.order_id ∉ kv.2.orders) →
      LocInv (insertTbl b.orders o.order_id o) mside s := by
    intro mside s hloc hno kv hkv o2 ho2 e' he'
    have hne : o2 ≠ o.order_id := fun hc => hno kv hkv (hc ▸ ho2)
    rw [lookupTbl_insert_ne _ _ _ _ hne] at he'
    exact hloc kv hkv o2 ho2 e' he'
  have haggIns : ∀ (mside : LevelMap), AggInv b.orders mside →
      (∀ kv ∈ mside, o.order_id ∉ kv.2.orders) →
      AggInv (insertTbl b.orders o.order_id o) mside := by
    intro mside hagg hno kv hkv
    rw [levelSum_insertTbl_not_mem _ _ _ _ (hno kv hkv)]
    exact hagg kv hkv
  rcases hos : o.side with _ | _
  · rw [hos] at a6 a7 hov
    have hasks : (b.add_order o).1.asks = b.asks := a6
    have ha7 : (b.add_order o).1.bids = match lookupSM b.bids o.price with
      | some _ => updateSM b.bids o.price
          (fun l => l.add_order o.order_id o.remaining_quantity)
      | none => insertSM b.bids o.price
          ((PriceLevel.new o.price).add_order o.order_id o.remaining_quantity) := a7
    rcases hl : lookupSM b.bids o.price with _ | l0
    · rw [hl] at ha7
      have hfar : ∀ kv ∈ b.bids, kv.1 ≠ o.price := forall_ne_of_lookupSM_none _ _ hl
      have hnew : satAdd 0 o.remaining_quantity = o.remaining_quantity := by
        rw [satAdd_eq 0 _ (by rw [Nat.zero_add]; exact hrle), Nat.zero_add]
      refine parts_to_wf _ (insertTbl b.orders o.order_id o)
        (insertSM b.bids o.price
          ((PriceLevel.new o.price).add_order o.order_id o.remaining_quantity)) b.asks
        a2 ha7 hasks ?_
      refine ⟨sortedKeys_insertSM _ _ _ hsb, hsa, hndK', ?_, haggIns b.asks haggA hnotinA,
        ?_, hlocIns b.asks Side.Sell hlocA hnotinA, hpos', ?_, hneA, ?_, ?_⟩
      · intro kv hkv
        rcases mem_insertSM _ _ _ _ hkv with hkm | hkm
        · rw [levelSum_insertTbl_not_mem _ _ _ _ (hnotinB kv hkm)]
          exact haggB kv hkm
        · rw [hkm]
          show satAdd 0 o.remaining_quantity
            = levelSum (insertTbl b.orders o.order_id o) ([] ++ [o.order_id])
          rw [hnew, List.nil_append, levelSum_cons, levelSum_nil, hco, Nat.add_zero]
      · intro kv hkv o2 ho2 e' he'
        rcases mem_insertSM _ _ _ _ hkv with hkm | hkm
        · exact hlocIns b.bids Side.Buy hlocB hnotinB kv hkm o2 ho2 e' he'
        · rw [hkm] at ho2
          have ho2' : o2 = o.order_id := List.mem_singleton.1 ho2
          rw [ho2', lookupTbl_insert_self] at he'
          injection he' with he'
          rw [← he', hkm, hos]
          exact ⟨rfl, rfl⟩
      · intro kv hkv
        rcases mem_insertSM _ _ _ _ hkv with hkm | hkm
        · exact hneB kv hkm
        · rw [hkm]
          show satAdd 0 o.remaining_quantity ≠ 0
          rw [hnew]
          exact hrem
      · have hperm : List.Perm
            (joinFifos (insertSM b.bids o.price
              ((PriceLevel.new o.price).add_order o.order_id o.remaining_quantity))
              ++ joinFifos b.asks)
            (o.order_id :: (joinFifos b.bids ++ joinFifos b.asks)) :=
          List.Perm.append_right _ (joinFifos_insertSM b.bids o.price _ hfar)
        exact hperm.nodup_iff.2 (List.nodup_cons.2 ⟨hfresh2', hndF'⟩)
      · intro kv hkv
        rcases List.mem_cons.1 hkv with hkv' | hkv'
        · rw [hkv']
          show ∃ l'', lookupSM (match o.side with
              | Side.Buy => insertSM b.bids o.price
                  ((PriceLevel.new o.price).add_order o.order_id o.remaining_quantity)
              | Side.Sell => b.asks) o.price = some l'' ∧ o.order_id ∈ l''.orders
          rw [hos]
          refine ⟨(PriceLevel.new o.price).add_order o.order_id o.remaining_quantity, ?_, ?_⟩
          · exact lookupSM_insert_self b.bids o.price _
          · show o.order_id ∈ [] ++ [o.order_id]
            simp
        · have hkmT : kv ∈ b.orders := List.mem_of_mem_filter hkv'
          obtain ⟨l', hl', hol'⟩ := hmem kv hkmT
          rcases hks : kv.2.side with _ | _
          · rw [hks] at hl'
            have hpp : kv.2.price ≠ o.price := by
              intro hc
              have h1 : lookupSM b.bids kv.2.price = some l' := hl'
              rw [hc, hl] at h1
              cases h1
            refine ⟨l', ?_, hol'⟩
            show lookupSM (insertSM b.bids o.price _) kv.2.price = some l'
            rw [lookupSM_insert_ne _ _ _ _ hpp]
            exact hl'
          · rw [hks] at hl'
            exact ⟨l', hl', hol'⟩
    · rw [hl] at ha7
      have hkvm : (o.price, l0) ∈ b.bids := lookupSM_mem _ _ _ hl
      have hbound : l0.total_quantity + o.remaining_quantity ≤ U64MAX :=
        hov (o.price, l0) hkvm rfl
      have hnol0 : o.order_id ∉ l0.orders := hnotinB (o.price, l0) hkvm
      refine parts_to_wf _ (insertTbl b.orders o.order_id o)
        (updateSM b.bids o.price (fun l => l.add_order o.order_id o.remaining_quantity))
        b.asks a2 ha7 hasks ?_
      refine ⟨sortedKeys_updateSM _ _ _ hsb, hsa, hndK', ?_, haggIns b.asks haggA hnotinA,
        ?_, hlocIns b.asks Side.Sell hlocA hnotinA, hpos', ?_, hneA, ?_, ?_⟩
      · intro kv hkv
        rcases mem_updateSM_cases _ _ _ _ hkv with ⟨hkm, _⟩ | ⟨w, hwm, hweq⟩
        · rw [levelSum_insertTbl_not_mem _ _ _ _ (hnotinB kv hkm)]
          exact haggB kv hkm
        · have hwl : w = l0 := mem_unique_of_sorted b.bids hsb o.price w l0 hwm hkvm
          rw [hweq, hwl]
          show satAdd l0.total_quantity o.remaining_quantity
            = levelSum (insertTbl b.orders o.order_id o) (l0.orders ++ [o.order_id])
          rw [satAdd_eq _ _ hbound, levelSum_append,
            levelSum_insertTbl_not_mem _ _ _ _ hnol0, levelSum_cons, levelSum_nil, hco,
            Nat.add_zero, haggB (o.price, l0) hkvm]
      · intro kv hkv o2 ho2 e' he'
        rcases mem_updateSM_cases _ _ _ _ hkv with ⟨hkm, _⟩ | ⟨w, hwm, hweq⟩
        · exact hlocIns b.bids Side.Buy hlocB hnotinB kv hkm o2 ho2 e' he'
        · have hwl : w = l0 := mem_unique_of_sorted b.bids hsb o.price w l0 hwm hkvm
          rw [hweq, hwl] at ho2 ⊢
          have ho2' : o2 ∈ l0.orders ++ [o.order_id] := ho2
          rcases List.mem_append.1 ho2' with hoL | hoR
          · have hne : o2 ≠ o.order_id := fun hc => hnol0 (hc ▸ hoL)
            rw [lookupTbl_insert_ne _ _ _ _ hne] at he'
            exact hlocB (o.price, l0) hkvm o2 hoL e' he'
          · have ho2'' : o2 = o.order_id := by simpa using hoR
            rw [ho2'', lookupTbl_insert_self] at he'
            injection he' with he'
            rw [← he', hos]
            exact ⟨rfl, rfl⟩
      · intro kv hkv
        rcases mem_updateSM_cases _ _ _ _ hkv with ⟨hkm, _⟩ | ⟨w, hwm, hweq⟩
        · exact hneB kv hkm
        · have hwl : w = l0 := mem_unique_of_sorted b.bids hsb o.price w l0 hwm hkvm
          rw [hweq, hwl]
          show satAdd l0.total_quantity o.remaining_quantity ≠ 0
          rw [satAdd_eq _ _ hbound]
          intro hc
          exact hrem (Nat.eq_zero_of_add_eq_zero_left hc)
      · have hperm : List.Perm
            (joinFifos (updateSM b.bids o.price
              (fun l => l.add_order o.order_id o.remaining_quantity))
              ++ joinFifos b.asks)
            (o.order_id :: (joinFifos b.bids ++ joinFifos b.asks)) :=
          List.Perm.append_right _
            (joinFifos_updateSM_append b.bids hsb o.price l0 hkvm o.order_id _
              (fun w => rfl))
        exact hperm.nodup_iff.2 (List.nodup_cons.2 ⟨hfresh2', hndF'⟩)
      · intro kv hkv
        rcases List.mem_cons.1 hkv with hkv' | hkv'
        · rw [hkv']
          show ∃ l'', lookupSM (match o.side with
              | Side.Buy => updateSM b.bids o.price
                  (fun l => l.add_order o.order_id o.remaining_quantity)
              | Side.Sell => b.asks) o.price = some l'' ∧ o.order_id ∈ l''.orders
          rw [hos]
          refine ⟨l0.add_order o.order_id o.remaining_quantity, ?_, ?_⟩
          · rw [lookupSM_update_self, hl]
            rfl
          · show o.order_id ∈ l0.orders ++ [o.order_id]
            exact List.mem_append_right _ (List.mem_cons_self _ _)
        · have hkmT : kv ∈ b.orders := List.mem_of_mem_filter hkv'
          obtain ⟨l', hl', hol'⟩ := hmem kv hkmT
          rcases hks : kv.2.side with _ | _
          · rw [hks] at hl'
            by_cases hpp : kv.2.price = o.price
            · have hll' : l' = l0 := by
                have h1 : lookupSM b.bids kv.2.price = some l' := hl'
                rw [hpp, hl] at h1
                injection h1 with h1
                exact h1.symm
              refine ⟨l0.add_order o.order_id o.remaining_quantity, ?_, ?_⟩
              · show lookupSM (updateSM b.bids o.price
                    (fun l => l.add_order o.order_id o.remaining_quantity)) kv.2.price = _
                rw [hpp, lookupSM_update_self, hl]
                rfl
              · show kv.1 ∈ l0.orders ++ [o.order_id]
                refine List.mem_append_left _ ?_
                rw [← hll']
                exact hol'
            · refine ⟨l', ?_, hol'⟩
              show lookupSM (updateSM b.bids o.price
                  (fun l => l.add_order o.order_id o.remaining_quantity)) kv.2.price = some l'
              rw [lookupSM_update_ne _ _ _ _ hpp]
              exact hl'
          · rw [hks] at hl'
            exact ⟨l', hl', hol'⟩
  · rw [hos] at a6 a7 hov
    have hbids : (b.add_order o).1.bids = b.bids := a6
    have ha7 : (b.add_order o).1.asks = match lookupSM b.asks o.price with
      | some _ => updateSM b.asks o.price
          (fun l => l.add_order o.order_id o.remaining_quantity)
      | none => insertSM b.asks o.price
          ((PriceLevel.new o.price).add_order o.order_id o.remaining_quantity) := a7
    rcases hl : lookupSM b.asks o.price with _ | l0
    · rw [hl] at ha7
      have hfar : ∀ kv ∈ b.asks, kv.1 ≠ o.price := forall_ne_of_lookupSM_none _ _ hl
      have hnew : satAdd 0 o.remaining_quantity = o.remaining_quantity := by
        rw [satAdd_eq 0 _ (by rw [Nat.zero_add]; exact hrle), Nat.zero_add]
      refine parts_to_wf _ (insertTbl b.orders o.order_id o) b.bids
        (insertSM b.asks o.price
          ((PriceLevel.new o.price).add_order o.order_id o.remaining_quantity))
        a2 hbids ha7 ?_
      refine ⟨hsb, sortedKeys_insertSM _ _ _ hsa, hndK', haggIns b.bids haggB hnotinB, ?_,
        hlocIns b.bids Side.Buy hlocB hnotinB, ?_, hpos', hneB, ?_, ?_, ?_⟩
      · intro kv hkv
        rcases mem_insertSM _ _ _ _ hkv with hkm | hkm
        · rw [levelSum_insertTbl_not_mem _ _ _ _ (hnotinA kv hkm)]
          exact haggA kv hkm
        · rw [hkm]
          show satAdd 0 o.remaining_quantity
            = levelSum (insertTbl b.orders o.order_id o) ([] ++ [o.order_id])
          rw [hnew, List.nil_append, levelSum_cons, levelSum_nil, hco, Nat.add_zero]
      · intro kv hkv o2 ho2 e' he'
        rcases mem_insertSM _ _ _ _ hkv with hkm | hkm
        · exact hlocIns b.asks Side.Sell hlocA hnotinA kv hkm o2 ho2 e' he'
        · rw [hkm] at ho2
          have ho2' : o2 = o.order_id := List.mem_singleton.1 ho2
          rw [ho2', lookupTbl_insert_self] at he'
          injection he' with he'
          rw [← he', hkm, hos]
          exact ⟨rfl, rfl⟩
      · intro kv hkv
        rcases mem_insertSM _ _ _ _ hkv with hkm | hkm
        · exact hneA kv hkm
        · rw [hkm]
          show satAdd 0 o.remaining_quantity ≠ 0
          rw [hnew]
          exact hrem
      · have hperm : List.Perm
            (joinFifos b.bids ++ joinFifos (insertSM b.asks o.price
              ((PriceLevel.new o.price).add_order o.order_id o.remaining_quantity)))
            (joinFifos b.bids ++ (o.order_id :: joinFifos b.asks)) :=
          List.Perm.append_left _ (joinFifos_insertSM b.asks o.price _ hfar)
        refine hperm.nodup_iff.2 ?_
        have hperm2 : List.Perm (joinFifos b.bids ++ (o.order_id :: joinFifos b.asks))
            (o.order_id :: (joinFifos b.bids ++ joinFifos b.asks)) := List.perm_middle
        exact hperm2.nodup_iff.2 (List.nodup_cons.2 ⟨hfresh2', hndF'⟩)
      · intro kv hkv
        rcases List.mem_cons.1 hkv with hkv' | hkv'
        · rw [hkv']
          show ∃ l'', lookupSM (match o.side with
              | Side.Buy => b.bids
              | Side.Sell => insertSM b.asks o.price
                  ((PriceLevel.new o.price).add_order o.order_id o.remaining_quantity))
              o.price = some l'' ∧ o.order_id ∈ l''.orders
          rw [hos]
          refine ⟨(PriceLevel.new o.price).add_order o.order_id o.remaining_quantity, ?_, ?_⟩
          · exact lookupSM_insert_self b.asks o.price _
          · show o.order_id ∈ [] ++ [o.order_id]
            simp
        · have hkmT : kv ∈ b.orders := List.mem_of_mem_filter hkv'
          obtain ⟨l', hl', hol'⟩ := hmem kv hkmT
          rcases hks : kv.2.side with _ | _
          · rw [hks] at hl'
            exact ⟨l', hl', hol'⟩
          · rw [hks] at hl'
            have hpp : kv.2.price ≠ o.price := by
              intro hc
              have h1 : lookupSM b.asks kv.2.price = some l' := hl'
              rw [hc, hl] at h1
              cases h1
            refine ⟨l', ?_, hol'⟩
            show lookupSM (insertSM b.asks o.price _) kv.2.price = some l'
            rw [lookupSM_insert_ne _ _ _ _ hpp]
            exact hl'
    · rw [hl] at ha7
      have hkvm : (o.price, l0) ∈ b.asks := lookupSM_mem _ _ _ hl
      have hbound : l0.total_quantity + o.remaining_quantity ≤ U64MAX :=
        hov (o.price, l0) hkvm rfl
      have hnol0 : o.order_id ∉ l0.orders := hnotinA (o.price, l0) hkvm
      refine parts_to_wf _ (insertTbl b.orders o.order_id o) b.bids
        (updateSM b.asks o.price (fun l => l.add_order o.order_id o.remaining_quantity))
        a2 hbids ha7 ?_
      refine ⟨hsb, sortedKeys_updateSM _ _ _ hsa, hndK', haggIns b.bids haggB hnotinB, ?_,
        hlocIns b.bids Side.Buy hlocB hnotinB, ?_, hpos', hneB, ?_, ?_, ?_⟩
      · intro kv hkv
        rcases mem_updateSM_cases _ _ _ _ hkv with ⟨hkm, _⟩ | ⟨w, hwm, hweq⟩
        · rw [levelSum_insertTbl_not_mem _ _ _ _ (hnotinA kv hkm)]
          exact haggA kv hkm
        · have hwl : w = l0 := mem_unique_of_sorted b.asks hsa o.price w l0 hwm hkvm
          rw [hweq, hwl]
          show satAdd l0.total_quantity o.remaining_quantity
            = levelSum (insertTbl b.orders o.order_id o) (l0.orders ++ [o.order_id])
          rw [satAdd_eq _ _ hbound, levelSum_append,
            levelSum_insertTbl_not_mem _ _ _ _ hnol0, levelSum_cons, levelSum_nil, hco,
            Nat.add_zero, haggA (o.price, l0) hkvm]
      · intro kv hkv o2 ho2 e' he'
        rcases mem_updateSM_cases _ _ _ _ hkv with ⟨hkm, _⟩ | ⟨w, hwm, hweq⟩
        · exact hlocIns b.asks Side.Sell hlocA hnotinA kv hkm o2 ho2 e' he'
        · have hwl : w = l0 := mem_unique_of_sorted b.asks hsa o.price w l0 hwm hkvm
          rw [hweq, hwl] at ho2 ⊢
          have ho2' : o2 ∈ l0.orders ++ [o.order_id] := ho2
          rcases List.mem_append.1 ho2' with hoL | hoR
          · have hne : o2 ≠ o.order_id := fun hc => hnol0 (hc ▸ hoL)
            rw [lookupTbl_insert_ne _ _ _ _ hne] at he'
            exact hlocA (o.price, l0) hkvm o2 hoL e' he'
          · have ho2'' : o2 = o.order_id := by simpa using hoR
            rw [ho2'', lookupTbl_insert_self] at he'
            injection he' with he'
            rw [← he', hos]
            exact ⟨rfl, rfl⟩
      · intro kv hkv
        rcases mem_updateSM_cases _ _ _ _ hkv with ⟨hkm, _⟩ | ⟨w, hwm, hweq⟩
        · exact hneA kv hkm
        · have hwl : w = l0 := mem_unique_of_sorted b.asks hsa o.price w l0 hwm hkvm
          rw [hweq, hwl]
          show satAdd l0.total_quantity o.remaining_quantity ≠ 0
          rw [satAdd_eq _ _ hbound]
          intro hc
          exact hrem (Nat.eq_zero_of_add_eq_zero_left hc)
      · have hperm : List.Perm
            (joinFifos b.bids ++ joinFifos (updateSM b.asks o.price
              (fun l => l.add_order o.order_id o.remaining_quantity)))
            (joinFifos b.bids ++ (o.order_id :: joinFifos b.asks)) :=
          List.Perm.append_left _
            (joinFifos_updateSM_append b.asks hsa o.price l0 hkvm o.order_id _
              (fun w => rfl))
        refine hperm.nodup_iff.2 ?_
        have hperm2 : List.Perm (joinFifos b.bids ++ (o.order_id :: joinFifos b.asks))
            (o.order_id :: (joinFifos b.bids ++ joinFifos b.asks)) := List.perm_middle
        exact hperm2.nodup_iff.2 (List.nodup_cons.2 ⟨hfresh2', hndF'⟩)
      · intro kv hkv
        rcases List.mem_cons.1 hkv with hkv' | hkv'
        · rw [hkv']
          show ∃ l'', lookupSM (match o.side with
              | Side.Buy => b.bids
              | Side.Sell => updateSM b.asks o.price
                  (fun l => l.add_order o.order_id o.remaining_quantity)) o.price
              = some l'' ∧ o.order_id ∈ l''.orders
          rw [hos]
          refine ⟨l0.add_order o.order_id o.remaining_quantity, ?_, ?_⟩
          · rw [lookupSM_update_self, hl]
            rfl
          · show o.order_id ∈ l0.orders ++ [o.order_id]
            exact List.mem_append_right _ (List.mem_cons_self _ _)
        · have hkmT : kv ∈ b.orders := List.mem_of_mem_filter hkv'
          obtain ⟨l', hl', hol'⟩ := hmem kv hkmT
          rcases hks : kv.2.side with _ | _
          · rw [hks] at hl'
            exact ⟨l', hl', hol'⟩
          · rw [hks] at hl'
            by_cases hpp : kv.2.price = o.price
            · have hll' : l' = l0 := by
                have h1 : lookupSM b.asks kv.2.price = some l' := hl'
                rw [hpp, hl] at h1
                injection h1 with h1
                exact h1.symm
              refine ⟨l0.add_order o.order_id o.remaining_quantity, ?_, ?_⟩
              · show lookupSM (updateSM b.asks o.price
                    (fun l => l.add_order o.order_id o.remaining_quantity)) kv.2.price = _
                rw [hpp, lookupSM_update_self, hl]
                rfl
              · show kv.1 ∈ l0.orders ++ [o.order_id]
                refine List.mem_append_left _ ?_
                rw [← hll']
                exact hol'
            · refine ⟨l', ?_, hol'⟩
              show lookupSM (updateSM b.asks o.price
                  (fun l => l.add_order o.order_id o.remaining_quantity)) kv.2.price = some l'
              rw [lookupSM_update_ne _ _ _ _ hpp]
              exact hl'

theorem WF_set_cache (b : OrderBook) (c : CachedDepth) (h : WF b) :
    WF { b with depth_cache := c } :=
  parts_to_wf _ b.orders b.bids b.asks rfl rfl rfl (wf_to_parts b h)

theorem WF_get_depth (b : OrderBook) (n : Nat) (h : WF b) : WF (b.get_depth n).1 := by
  unfold OrderBook.get_depth
  dsimp only
  split
  · exact h
  · unfold OrderBook.update_depth_cache
    split
    · exact h
    · exact parts_to_wf _ b.orders b.bids b.asks rfl rfl rfl (wf_to_parts b h)

theorem add_order_error_book (b : OrderBook) (o : OrderEntry) (e : OrderBookError)
    (h : (b.add_order o).2 = Except.error e) : (b.add_order o).1 = b := by
  unfold OrderBook.add_order at h ⊢
  rcases hv : o.validate_order with e2 | u
  · rfl
  · rw [hv] at h
    dsimp only at h
    cases h

/-- After the outer walk and the emptied-level sweep, all structural
invariants hold for the walked side, the untouched side, and the shrunken
order table. -/
theorem cleanup_parts (tbl : Table) (takerIn : OrderEntry) (m : LevelMap) (W : WalkOut)
    (hW : WalkPost tbl takerIn m W)
    (sOpp sOwn : Side) (own : LevelMap)
    (hndK : (tbl.map (fun kv => kv.1)).Nodup)
    (hlocOpp : LocInv tbl m sOpp)
    (hlocOwn : LocInv tbl own sOwn)
    (haggOwn : AggInv tbl own)
    (hdisj : ∀ oid, oid ∈ joinFifos m → oid ∈ joinFifos own → False)
    (hmemO : ∀ kv ∈ tbl,
      (kv.2.side = sOpp → ∃ l, lookupSM m kv.2.price = some l ∧ kv.1 ∈ l.orders) ∧
      (kv.2.side = sOwn → ∃ l, lookupSM own kv.2.price = some l ∧ kv.1 ∈ l.orders)) :
    SortedKeys (W.toRemove.foldl eraseSM W.levels) ∧
    (W.acc.orders.map (fun kv => kv.1)).Nodup ∧
    AggInv W.acc.orders (W.toRemove.foldl eraseSM W.levels) ∧
    AggInv W.acc.orders own ∧
    LocInv W.acc.orders (W.toRemove.foldl eraseSM W.levels) sOpp ∧
    LocInv W.acc.orders own sOwn ∧
    PosInv W.acc.orders ∧
    NeInv (W.toRemove.foldl eraseSM W.levels) ∧
    List.Sublist (joinFifos (W.toRemove.foldl eraseSM W.levels)) (joinFifos m) ∧
    (∀ kv ∈ W.acc.orders,
      (kv.2.side = sOpp → ∃ l, lookupSM (W.toRemove.foldl eraseSM W.levels) kv.2.price
        = some l ∧ kv.1 ∈ l.orders) ∧
      (kv.2.side = sOwn → ∃ l, lookupSM own kv.2.price = some l ∧ kv.1 ∈ l.orders)) := by
  have hsort' := sortedKeys_foldl_eraseSM W.toRemove W.levels hW.sorted
  have hjsubW : List.Sublist (joinFifos (W.toRemove.foldl eraseSM W.levels)) (joinFifos m) :=
    (joinFifos_foldl_eraseSM_sublist W.toRemove W.levels).trans hW.join_sub
  refine ⟨hsort', hW.keysnd hndK, ?_, ?_, ?_, ?_, hW.pos, ?_, hjsubW, ?_⟩
  · intro kv hkv
    exact hW.agg kv ((mem_foldl_eraseSM _ _ _).1 hkv).1
  · intro kv hkv
    have hcongr : levelSum W.acc.orders kv.2.orders = levelSum tbl kv.2.orders :=
      levelSum_congr _ _ _ (fun oid hoid => hW.frame oid (fun hc =>
        hdisj oid hc ((fifo_sublist_joinFifos own kv hkv).subset hoid)))
    rw [hcongr]
    exact haggOwn kv hkv
  · intro kv hkv oid hoid e' he'
    have hkW : kv ∈ W.levels := ((mem_foldl_eraseSM _ _ _).1 hkv).1
    have hlkW : lookupSM W.levels kv.1 = some kv.2 := lookupSM_of_mem _ kv hW.sorted hkW
    have hkeys : kv.1 ∈ m.map (fun kv => kv.1) := by
      rw [← hW.keys_eq]
      exact List.mem_map.2 ⟨kv, hkW, rfl⟩
    have hsom := lookupSM_isSome_of_mem_keys m kv.1 hkeys
    rcases hmm : lookupSM m kv.1 with _ | l0
    · rw [hmm] at hsom
      cases hsom
    · have hsubf := hW.fifo_sub kv.1 l0 kv.2 hmm hlkW
      have hoid0 : oid ∈ l0.orders := hsubf.subset hoid
      rcases hW.shrink oid e' he' with ⟨e0, he0, q1, q2, _, _⟩
      have hcc := hlocOpp (kv.1, l0) (lookupSM_mem _ _ _ hmm) oid hoid0 e0 he0
      exact ⟨q1.trans hcc.1, q2.trans hcc.2⟩
  · intro kv hkv oid hoid e' he'
    rcases hW.shrink oid e' he' with ⟨e0, he0, q1, q2, _, _⟩
    have hcc := hlocOwn kv hkv oid hoid e0 he0
    exact ⟨q1.trans hcc.1, q2.trans hcc.2⟩
  · intro kv hkv
    obtain ⟨hkW, hnr⟩ := (mem_foldl_eraseSM _ _ _).1 hkv
    rcases hW.ne_rem kv hkW with h' | h'
    · exact absurd h' hnr
    · exact h'
  · intro kv hkv
    have hlkT : lookupTbl W.acc.orders kv.1 = some kv.2 :=
      lookupTbl_of_mem_nodup _ (hW.keysnd hndK) kv hkv
    rcases hW.shrink kv.1 kv.2 hlkT with ⟨e0, he0, q1, q2, _, _⟩
    have hm0 := hmemO (kv.1, e0) (mem_of_lookupTbl _ _ _ he0)
    constructor
    · intro hs
      have hs0 : e0.side = sOpp := q1.symm.trans hs
      obtain ⟨l0, hl0, hol0⟩ := hm0.1 hs0
      have hkeys : e0.price ∈ W.levels.map (fun kv => kv.1) := by
        rw [hW.keys_eq]
        exact List.mem_map.2 ⟨(e0.price, l0), lookupSM_mem _ _ _ hl0, rfl⟩
      have hsom := lookupSM_isSome_of_mem_keys W.levels e0.price hkeys
      rcases hWl : lookupSM W.levels e0.price with _ | l1
      · rw [hWl] at hsom
        cases hsom
      · have hmem1 : kv.1 ∈ l1.orders :=
          hW.live_mem e0.price l0 l1 hl0 hWl kv.1 hol0 (by rw [hlkT]; rfl)
        have hnr : e0.price ∉ W.toRemove := by
          intro hc
          have hz := hW.dead (e0.price, l1) (lookupSM_mem _ _ _ hWl) hc
          have hagg1 : l1.total_quantity = levelSum W.acc.orders l1.orders :=
            hW.agg (e0.price, l1) (lookupSM_mem _ _ _ hWl)
          have hsum0 : levelSum W.acc.orders l1.orders = 0 := by
            rw [← hagg1]
            exact hz
          have hcne : contrib W.acc.orders kv.1 ≠ 0 := by
            unfold contrib
            rw [hlkT]
            exact hW.pos kv hkv
          exact levelSum_ne_zero_of_mem _ _ _ hmem1 hcne hsum0
        refine ⟨l1, ?_, hmem1⟩
        rw [q2, lookupSM_foldl_eraseSM W.toRemove W.levels e0.price hnr]
        exact hWl
    · intro hs
      have hs0 : e0.side = sOwn := q1.symm.trans hs
      obtain ⟨l0, hl0, hol0⟩ := hm0.2 hs0
      refine ⟨l0, ?_, hol0⟩
      rw [q2]
      exact hl0

/-- `match_limit_order` preserves well-formedness, for a taker whose id is
not already queued and whose resting quantity cannot overflow its own-side
level. -/
theorem match_limit_order_preserves_WF (b : OrderBook) (taker : OrderEntry) (now : Int)
    (hwf : WF b)
    (hfreshF : taker.order_id ∉ allFifoIds b)
    (hrle : taker.remaining_quantity ≤ U64MAX)
    (hov : ∀ kv ∈ sideLevels b taker.side, kv.1 = taker.price →
      kv.2.total_quantity + taker.remaining_quantity ≤ U64MAX) :
    WF (b.match_limit_order taker now).1 := by
  obtain ⟨hsb, hsa, hndK, haggB, haggA, hlocB, hlocA, hpos, hneB, hneA, hndF, hmem⟩ := hwf
  have hndF' : (joinFifos b.bids ++ joinFifos b.asks).Nodup := by
    rw [← allFifoIds_eq]
    exact hndF
  have hnd2 := List.nodup_append.1 hndF'
  have hfreshF' : taker.order_id ∉ joinFifos b.bids ++ joinFifos b.asks := by
    rw [← allFifoIds_eq]
    exact hfreshF
  have hmemBA : ∀ kv ∈ b.orders,
      (kv.2.side = Side.Buy → ∃ l, lookupSM b.bids kv.2.price = some l ∧ kv.1 ∈ l.orders) ∧
      (kv.2.side = Side.Sell → ∃ l, lookupSM b.asks kv.2.price = some l ∧ kv.1 ∈ l.orders) := by
    intro kv hkv
    obtain ⟨l, hl, ho⟩ := hmem kv hkv
    constructor
    · intro hs
      refine ⟨l, ?_, ho⟩
      rw [hs] at hl
      exact hl
    · intro hs
      refine ⟨l, ?_, ho⟩
      rw [hs] at hl
      exact hl
  unfold OrderBook.match_limit_order
  rcases hval : taker.validate_order with e | u
  · dsimp only
    exact ⟨hsb, hsa, hndK, haggB, haggA, hlocB, hlocA, hpos, hneB, hneA, hndF, hmem⟩
  · dsimp only
    rcases hside : taker.side with _ | _
    · simp only [show (Side.Buy == Side.Buy) = true from rfl, if_true]
      have hW := walkPrices_post now (candidatePrices taker b.asks) b.asks
        ⟨b.orders, taker, [], [], b.next_trade_id, false⟩ [] hsa haggA hpos hnd2.2.1
        (fun kv hkv => Or.inr (hneA kv hkv))
        (fun kv _ hc => absurd hc (List.not_mem_nil _))
      generalize hw : walkPrices now b.asks
        ⟨b.orders, taker, [], [], b.next_trade_id, false⟩ []
        (candidatePrices taker b.asks) = W
      rw [hw] at hW
      rw [hW.err_none]
      dsimp only
      obtain ⟨c1, c2, c3, c4, c5, c6, c7, c8, c9, c10⟩ := cleanup_parts b.orders taker
        b.asks W hW Side.Sell Side.Buy b.bids hndK hlocA hlocB haggB
        (fun oid h1 h2 => hnd2.2.2 h2 h1)
        (fun kv hkv => ⟨(hmemBA kv hkv).2, (hmemBA kv hkv).1⟩)
      obtain ⟨t1, t2, t3, t4, t5, t6, t7⟩ := hW.taker_fields
      have hwf1 : WF (setOpposite
          { b with orders := W.acc.orders, next_trade_id := W.acc.next_trade_id }
          true (W.toRemove.foldl eraseSM W.levels)) := by
        refine parts_to_wf _ W.acc.orders b.bids (W.toRemove.foldl eraseSM W.levels)
          rfl rfl rfl ⟨hsb, c1, c2, c4, c3, c6, c5, c7, hneB, c8, ?_, ?_⟩
        · exact hndF'.sublist ((List.Sublist.refl _).append c9)
        · intro kv hkv
          rcases hks : kv.2.side with _ | _
          · obtain ⟨l, hl, ho⟩ := (c10 kv hkv).2 hks
            exact ⟨l, hl, ho⟩
          · obtain ⟨l, hl, ho⟩ := (c10 kv hkv).1 hks
            exact ⟨l, hl, ho⟩
      split
      next hrest =>
        rcases hadd : (setOpposite
            { b with orders := W.acc.orders, next_trade_id := W.acc.next_trade_id }
            true (W.toRemove.foldl eraseSM W.levels)).add_order W.acc.taker with ⟨b2, r⟩
        rcases r with e2 | u2
        · dsimp only
          show WF b2
          have h4 : ((setOpposite
              { b with orders := W.acc.orders, next_trade_id := W.acc.next_trade_id }
              true (W.toRemove.foldl eraseSM W.levels)).add_order W.acc.taker).1 = b2 := by
            rw [hadd]
          have h5 : ((setOpposite
              { b with orders := W.acc.orders, next_trade_id := W.acc.next_trade_id }
              true (W.toRemove.foldl eraseSM W.levels)).add_order W.acc.taker).2
              = Except.error e2 := by
            rw [hadd]
          rw [← h4, add_order_error_book _ _ _ h5]
          exact hwf1
        · dsimp only
          have hwf2 : WF b2 := by
            have hx : WF ((setOpposite
                { b with orders := W.acc.orders, next_trade_id := W.acc.next_trade_id }
                true (W.toRemove.foldl eraseSM W.levels)).add_order W.acc.taker).1 := by
              refine add_order_preserves_WF _ W.acc.taker hwf1 hrest
                (le_trans t6 hrle) ?_ ?_
              · rw [t1]
                intro hc
                have hc' : taker.order_id ∈ joinFifos b.bids
                    ++ joinFifos (W.toRemove.foldl eraseSM W.levels) := hc
                rcases List.mem_append.1 hc' with h' | h'
                · exact hfreshF' (List.mem_append_left _ h')
                · exact hfreshF' (List.mem_append_right _ (c9.subset h'))
              · intro kv hkv hp
                have hksde : W.acc.taker.side = Side.Buy := t3.trans hside
                rw [hksde] at hkv
                have hkv' : kv ∈ b.bids := hkv
                have hp' : kv.1 = taker.price := hp.trans t4
                have hb := hov kv (by rw [hside]; exact hkv') hp'
                calc kv.2.total_quantity + W.acc.taker.remaining_quantity
                    ≤ kv.2.total_quantity + taker.remaining_quantity :=
                      Nat.add_le_add_left t6 _
                  _ ≤ U64MAX := hb
            rw [hadd] at hx
            exact hx
          exact WF_get_depth _ 20 (WF_set_cache _ _ hwf2)
      next hrest =>
        split
        · exact WF_get_depth _ 20 (WF_set_cache _ _ hwf1)
        · exact hwf1
    · simp only [show (Side.Sell == Side.Buy) = false from rfl, Bool.false_eq_true, if_false]
      have hW := walkPrices_post now (candidatePrices taker b.bids) b.bids
        ⟨b.orders, taker, [], [], b.next_trade_id, false⟩ [] hsb haggB hpos hnd2.1
        (fun kv hkv => Or.inr (hneB kv hkv))
        (fun kv _ hc => absurd hc (List.not_mem_nil _))
      generalize hw : walkPrices now b.bids
        ⟨b.orders, taker, [], [], b.next_trade_id, false⟩ []
        (candidatePrices taker b.bids) = W
      rw [hw] at hW
      rw [hW.err_none]
      dsimp only
      obtain ⟨c1, c2, c3, c4, c5, c6, c7, c8, c9, c10⟩ := cleanup_parts b.orders taker
        b.bids W hW Side.Buy Side.Sell b.asks hndK hlocB hlocA haggA
        (fun oid h1 h2 => hnd2.2.2 h1 h2)
        (fun kv hkv => ⟨(hmemBA kv hkv).1, (hmemBA kv hkv).2⟩)
      obtain ⟨t1, t2, t3, t4, t5, t6, t7⟩ := hW.taker_fields
      have hwf1 : WF (setOpposite
          { b with orders := W.acc.orders, next_trade_id := W.acc.next_trade_id }
          false (W.toRemove.foldl eraseSM W.levels)) := by
        refine parts_to_wf _ W.acc.orders (W.toRemove.foldl eraseSM W.levels) b.asks
          rfl rfl rfl ⟨c1, hsa, c2, c3, c4, c5, c6, c7, c8, hneA, ?_, ?_⟩
        · exact hndF'.sublist (c9.append (List.Sublist.refl _))
        · intro kv hkv
          rcases hks : kv.2.side with _ | _
          · obtain ⟨l, hl, ho⟩ := (c10 kv hkv).1 hks
            exact ⟨l, hl, ho⟩
          · obtain ⟨l, hl, ho⟩ := (c10 kv hkv).2 hks
            exact ⟨l, hl, ho⟩
      split
      next hrest =>
        rcases hadd : (setOpposite
            { b with orders := W.acc.orders, next_trade_id := W.acc.next_trade_id }
            false (W.toRemove.foldl eraseSM W.levels)).add_order W.acc.taker with ⟨b2, r⟩
        rcases r with e2 | u2
        · dsimp only
          show WF b2
          have h4 : ((setOpposite
              { b with orders := W.acc.orders, next_trade_id := W.acc.next_trade_id }
              false (W.toRemove.foldl eraseSM W.levels)).add_order W.acc.taker).1 = b2 := by
            rw [hadd]
          have h5 : ((setOpposite
              { b with orders := W.acc.orders, next_trade_id := W.acc.next_trade_id }
              false (W.toRemove.foldl eraseSM W.levels)).add_order W.acc.taker).2
              = Except.error e2 := by
            rw [hadd]
          rw [← h4, add_order_error_book _ _ _ h5]
          exact hwf1
        · dsimp only
          have hwf2 : WF b2 := by
            have hx : WF ((setOpposite
                { b with orders := W.acc.orders, next_trade_id := W.acc.next_trade_id }
                false (W.toRemove.foldl eraseSM W.levels)).add_order W.acc.taker).1 := by
              refine add_order_preserves_WF _ W.acc.taker hwf1 hrest
                (le_trans t6 hrle) ?_ ?_
              · rw [t1]
                intro hc
                have hc' : taker.order_id ∈ joinFifos (W.toRemove.foldl eraseSM W.levels)
                    ++ joinFifos b.asks := hc
                rcases List.mem_append.1 hc' with h' | h'
                · exact hfreshF' (List.mem_append_left _ (c9.subset h'))
                · exact hfreshF' (List.mem_append_right _ h')
              · intro kv hkv hp
                have hksde : W.acc.taker.side = Side.Sell := t3.trans hside
                rw [hksde] at hkv
                have hkv' : kv ∈ b.asks := hkv
                have hp' : kv.1 = taker.price := hp.trans t4
                have hb := hov kv (by rw [hside]; exact hkv') hp'
                calc kv.2.total_quantity + W.acc.taker.remaining_quantity
                    ≤ kv.2.total_quantity + taker.remaining_quantity :=
                      Nat.add_le_add_left t6 _
                  _ ≤ U64MAX := hb
            rw [hadd] at hx
            exact hx
          exact WF_get_depth _ 20 (WF_set_cache _ _ hwf2)
      next hrest =>
        split
        · exact WF_get_depth _ 20 (WF_set_cache _ _ hwf1)
        · exact hwf1

/-- The spec-modelled `match_market_order` preserves well-formedness (the
market taker never rests, so no freshness or overflow assumptions are
needed). -/
theorem match_market_order_preserves_WF (b : OrderBook) (taker : OrderEntry) (now : Int)
    (hwf : WF b) : WF (b.match_market_order taker now).1 := by
  obtain ⟨hsb, hsa, hndK, haggB, haggA, hlocB, hlocA, hpos, hneB, hneA, hndF, hmem⟩ := hwf
  have hndF' : (joinFifos b.bids ++ joinFifos b.asks).Nodup := by
    rw [← allFifoIds_eq]
    exact hndF
  have hnd2 := List.nodup_append.1 hndF'
  have hmemBA : ∀ kv ∈ b.orders,
      (kv.2.side = Side.Buy → ∃ l, lookupSM b.bids kv.2.price = some l ∧ kv.1 ∈ l.orders) ∧
      (kv.2.side = Side.Sell → ∃ l, lookupSM b.asks kv.2.price = some l ∧ kv.1 ∈ l.orders) := by
    intro kv hkv
    obtain ⟨l, hl, ho⟩ := hmem kv hkv
    constructor
    · intro hs
      refine ⟨l, ?_, ho⟩
      rw [hs] at hl
      exact hl
    · intro hs
      refine ⟨l, ?_, ho⟩
      rw [hs] at hl
      exact hl
  unfold OrderBook.match_market_order
  rcases hval : taker.validate_order with e | u
  · dsimp only
    exact ⟨hsb, hsa, hndK, haggB, haggA, hlocB, hlocA, hpos, hneB, hneA, hndF, hmem⟩
  · dsimp only
    rcases hside : taker.side with _ | _
    · simp only [show (Side.Buy == Side.Buy) = true from rfl, if_true]
      have hW := walkPrices_post now (b.asks.map (fun kv => kv.1)) b.asks
        ⟨b.orders, taker, [], [], b.next_trade_id, false⟩ [] hsa haggA hpos hnd2.2.1
        (fun kv hkv => Or.inr (hneA kv hkv))
        (fun kv _ hc => absurd hc (List.not_mem_nil _))
      generalize hw : walkPrices now b.asks
        ⟨b.orders, taker, [], [], b.next_trade_id, false⟩ []
        (b.asks.map (fun kv => kv.1)) = W
      rw [hw] at hW
      rw [hW.err_none]
      dsimp only
      obtain ⟨c1, c2, c3, c4, c5, c6, c7, c8, c9, c10⟩ := cleanup_parts b.orders taker
        b.asks W hW Side.Sell Side.Buy b.bids hndK hlocA hlocB haggB
        (fun oid h1 h2 => hnd2.2.2 h2 h1)
        (fun kv hkv => ⟨(hmemBA kv hkv).2, (hmemBA kv hkv).1⟩)
      have hwf1 : WF (setOpposite
          { b with orders := W.acc.orders, next_trade_id := W.acc.next_trade_id }
          true (W.toRemove.foldl eraseSM W.levels)) := by
        refine parts_to_wf _ W.acc.orders b.bids (W.toRemove.foldl eraseSM W.levels)
          rfl rfl rfl ⟨hsb, c1, c2, c4, c3, c6, c5, c7, hneB, c8, ?_, ?_⟩
        · exact hndF'.sublist ((List.Sublist.refl _).append c9)
        · intro kv hkv
          rcases hks : kv.2.side with _ | _
          · obtain ⟨l, hl, ho⟩ := (c10 kv hkv).2 hks
            exact ⟨l, hl, ho⟩
          · obtain ⟨l, hl, ho⟩ := (c10 kv hkv).1 hks
            exact ⟨l, hl, ho⟩
      split
      next hrest =>
        split
        · exact WF_set_cache _ _ hwf1
        · exact hwf1
      next hrest =>
        split
        · exact WF_get_depth _ 20 (WF_set_cache _ _ hwf1)
        · exact hwf1
    · simp only [show (Side.Sell == Side.Buy) = false from rfl, Bool.false_eq_true, if_false]
      have hW := walkPrices_post now ((b.bids.map (fun kv => kv.1)).reverse) b.bids
        ⟨b.orders, taker, [], [], b.next_trade_id, false⟩ [] hsb haggB hpos hnd2.1
        (fun kv hkv => Or.inr (hneB kv hkv))
        (fun kv _ hc => absurd hc (List.not_mem_nil _))
      generalize hw : walkPrices now b.bids
        ⟨b.orders, taker, [], [], b.next_trade_id, false⟩ []
        ((b.bids.map (fun kv => kv.1)).reverse) = W
      rw [hw] at hW
      rw [hW.err_none]
      dsimp only
      obtain ⟨c1, c2, c3, c4, c5, c6, c7, c8, c9, c10⟩ := cleanup_parts b.orders taker
        b.bids W hW Side.Buy Side.Sell b.asks hndK hlocB hlocA haggA
        (fun oid h1 h2 => hnd2.2.2 h1 h2)
        (fun kv hkv => ⟨(hmemBA kv hkv).1, (hmemBA kv hkv).2⟩)
      have hwf1 : WF (setOpposite
          { b with orders := W.acc.orders, next_trade_id := W.acc.next_trade_id }
          false (W.toRemove.foldl eraseSM W.levels)) := by
        refine parts_to_wf _ W.acc.orders (W.toRemove.foldl eraseSM W.levels) b.asks
          rfl rfl rfl ⟨c1, hsa, c2, c3, c4, c5, c6, c7, c8, hneA, ?_, ?_⟩
        · exact hndF'.sublist (c9.append (List.Sublist.refl _))
        · intro kv hkv
          rcases hks : kv.2.side with _ | _
          · obtain ⟨l, hl, ho⟩ := (c10 kv hkv).1 hks
            exact ⟨l, hl, ho⟩
          · obtain ⟨l, hl, ho⟩ := (c10 kv hkv).2 hks
            exact ⟨l, hl, ho⟩
      split
      next hrest =>
        split
        · exact WF_set_cache _ _ hwf1
        · exact hwf1
      next hrest =>
        split
        · exact WF_get_depth _ 20 (WF_set_cache _ _ hwf1)
        · exact hwf1

/-- A crossing sell taker used to exercise the matching operations on the
example book. -/
def exTakerSell : OrderEntry := OrderEntry.new 5 50 Side.Sell 90 4 0

/-- C2: the level-aggregate invariant holds after every operation on the
book — `add_order`, `remove_order`, `match_limit_order` and the
spec-modelled `match_market_order` — starting from any well-formed book,
for any cancelled id, any fresh valid added order that does not overflow its
level, and any taker whose id is not already queued and whose resting
quantity cannot overflow its own-side level: every price level's
`total_quantity` equals the sum of `remaining_quantity` over the table-
resident ids of its FIFO (absent ids contributing zero). -/
theorem level_aggregate_invariant (b : OrderBook) (o : OrderEntry) (oid : OrderId)
    (taker : OrderEntry) (now : Int)
    (hwf : WF b)
    (hoRem : o.remaining_quantity ≠ 0)
    (hoLe : o.remaining_quantity ≤ U64MAX)
    (hoFresh : o.order_id ∉ allFifoIds b)
    (hoOv : ∀ kv ∈ sideLevels b o.side, kv.1 = o.price →
      kv.2.total_quantity + o.remaining_quantity ≤ U64MAX)
    (htFresh : taker.order_id ∉ allFifoIds b)
    (htLe : taker.remaining_quantity ≤ U64MAX)
    (htOv : ∀ kv ∈ sideLevels b taker.side, kv.1 = taker.price →
      kv.2.total_quantity + taker.remaining_quantity ≤ U64MAX) :
    (AggInv (b.add_order o).1.orders (b.add_order o).1.bids ∧
      AggInv (b.add_order o).1.orders (b.add_order o).1.asks) ∧
    (AggInv (b.remove_order oid).1.orders (b.remove_order oid).1.bids ∧
      AggInv (b.remove_order oid).1.orders (b.remove_order oid).1.asks) ∧
    (AggInv (b.match_limit_order taker now).1.orders
        (b.match_limit_order taker now).1.bids ∧
      AggInv (b.match_limit_order taker now).1.orders
        (b.match_limit_order taker now).1.asks) ∧
    (AggInv (b.match_market_order taker now).1.orders
        (b.match_market_order taker now).1.bids ∧
      AggInv (b.match_market_order taker now).1.orders
        (b.match_market_order taker now).1.asks) := by
  obtain ⟨_, _, _, a4, a5, _⟩ := add_order_preserves_WF b o hwf hoRem hoLe hoFresh hoOv
  obtain ⟨_, _, _, r4, r5, _⟩ := remove_order_preserves_WF b oid hwf
  obtain ⟨_, _, _, l4, l5, _⟩ :=
    match_limit_order_preserves_WF b taker now hwf htFresh htLe htOv
  obtain ⟨_, _, _, m4, m5, _⟩ := match_market_order_preserves_WF b taker now hwf
  exact ⟨⟨a4, a5⟩, ⟨r4, r5⟩, ⟨l4, l5⟩, ⟨m4, m5⟩⟩

/-- Witness for C2 on a concrete book: one resting bid, a second bid added,
the first bid cancelled, and a crossing sell matched as a limit and a market
order. -/
theorem level_aggregate_invariant_witness :
    (WF exBookOneBid ∧ exOrder2.remaining_quantity ≠ 0 ∧
      exOrder2.remaining_quantity ≤ U64MAX ∧
      exOrder2.order_id ∉ allFifoIds exBookOneBid ∧
      (∀ kv ∈ sideLevels exBookOneBid exOrder2.side, kv.1 = exOrder2.price →
        kv.2.total_quantity + exOrder2.remaining_quantity ≤ U64MAX) ∧
      exTakerSell.order_id ∉ allFifoIds exBookOneBid ∧
      exTakerSell.remaining_quantity ≤ U64MAX ∧
      (∀ kv ∈ sideLevels exBookOneBid exTakerSell.side, kv.1 = exTakerSell.price →
        kv.2.total_quantity + exTakerSell.remaining_quantity ≤ U64MAX)) ∧
    ((AggInv (exBookOneBid.add_order exOrder2).1.orders
        (exBookOneBid.add_order exOrder2).1.bids ∧
      AggInv (exBookOneBid.add_order exOrder2).1.orders
        (exBookOneBid.add_order exOrder2).1.asks) ∧
     (AggInv (exBookOneBid.remove_order 1).1.orders
        (exBookOneBid.remove_order 1).1.bids ∧
      AggInv (exBookOneBid.remove_order 1).1.orders
        (exBookOneBid.remove_order 1).1.asks) ∧
     (AggInv (exBookOneBid.match_limit_order exTakerSell 0).1.orders
        (exBookOneBid.match_limit_order exTakerSell 0).1.bids ∧
      AggInv (exBookOneBid.match_limit_order exTakerSell 0).1.orders
        (exBookOneBid.match_limit_order exTakerSell 0).1.asks) ∧
     (AggInv (exBookOneBid.match_market_order exTakerSell 0).1.orders
        (exBookOneBid.match_market_order exTakerSell 0).1.bids ∧
      AggInv (exBookOneBid.match_market_order exTakerSell 0).1.orders
        (exBookOneBid.match_market_order exTakerSell 0).1.asks)) := by
  constructor
  · decide
  · exact level_aggregate_invariant exBookOneBid exOrder2 1 exTakerSell 0 (by decide)
      (by decide) (by decide) (by decide) (by decide) (by decide) (by decide) (by decide)

/-- C4 counterexample: cancelling order 2 on the two-bid book leaves id 2 in
the level's FIFO (`[1, 2]`) although it is gone from the order table, so
"every order id appearing in any price level's FIFO exists in the order
table" is violated right after `remove_order`. -/
theorem fifo_membership_counterexample :
    lookupSM (exBookTwoBids.remove_order 2).1.bids 100 = some ⟨100, [1, 2], 5⟩ ∧
    lookupTbl (exBookTwoBids.remove_order 2).1.orders 2 = none := by
  decide

/-- C4 amended claim: after every operation on a well-formed book (same
side conditions as the aggregate invariant), the weaker coherence invariant
holds — every FIFO id that IS present in the order table belongs to an entry
with the level's side and price, every table entry is listed in the FIFO of
its own level, and no id is listed twice across FIFOs; full FIFO-to-table
membership fails (stale ids survive `remove_order`, see the
counterexample). -/
theorem fifo_membership_invariant (b : OrderBook) (o : OrderEntry) (oid : OrderId)
    (taker : OrderEntry) (now : Int)
    (hwf : WF b)
    (hoRem : o.remaining_quantity ≠ 0)
    (hoLe : o.remaining_quantity ≤ U64MAX)
    (hoFresh : o.order_id ∉ allFifoIds b)
    (hoOv : ∀ kv ∈ sideLevels b o.side, kv.1 = o.price →
      kv.2.total_quantity + o.remaining_quantity ≤ U64MAX)
    (htFresh : taker.order_id ∉ allFifoIds b)
    (htLe : taker.remaining_quantity ≤ U64MAX)
    (htOv : ∀ kv ∈ sideLevels b taker.side, kv.1 = taker.price →
      kv.2.total_quantity + taker.remaining_quantity ≤ U64MAX) :
    (LocInv (b.add_order o).1.orders (b.add_order o).1.bids Side.Buy ∧
      LocInv (b.add_order o).1.orders (b.add_order o).1.asks Side.Sell ∧
      (allFifoIds (b.add_order o).1).Nodup ∧ MemInv (b.add_order o).1) ∧
    (LocInv (b.remove_order oid).1.orders (b.remove_order oid).1.bids Side.Buy ∧
      LocInv (b.remove_order oid).1.orders (b.remove_order oid).1.asks Side.Sell ∧
      (allFifoIds (b.remove_order oid).1).Nodup ∧ MemInv (b.remove_order oid).1) ∧
    (LocInv (b.match_limit_order taker now).1.orders
        (b.match_limit_order taker now).1.bids Side.Buy ∧
      LocInv (b.match_limit_order taker now).1.orders
        (b.match_limit_order taker now).1.asks Side.Sell ∧
      (allFifoIds (b.match_limit_order taker now).1).Nodup ∧
      MemInv (b.match_limit_order taker now).1) ∧
    (LocInv (b.match_market_order taker now).1.orders
        (b.match_market_order taker now).1.bids Side.Buy ∧
      LocInv (b.match_market_order taker now).1.orders
        (b.match_market_order taker now).1.asks Side.Sell ∧
      (allFifoIds (b.match_market_order taker now).1).Nodup ∧
      MemInv (b.match_market_order taker now).1) := by
  obtain ⟨_, _, _, _, _, a6, a7, _, _, _, a11, a12⟩ :=
    add_order_preserves_WF b o hwf hoRem hoLe hoFresh hoOv
  obtain ⟨_, _, _, _, _, r6, r7, _, _, _, r11, r12⟩ := remove_order_preserves_WF b oid hwf
  obtain ⟨_, _, _, _, _, l6, l7, _, _, _, l11, l12⟩ :=
    match_limit_order_preserves_WF b taker now hwf htFresh htLe htOv
  obtain ⟨_, _, _, _, _, m6, m7, _, _, _, m11, m12⟩ :=
    match_market_order_preserves_WF b taker now hwf
  exact ⟨⟨a6, a7, a11, a12⟩, ⟨r6, r7, r11, r12⟩, ⟨l6, l7, l11, l12⟩, ⟨m6, m7, m11, m12⟩⟩

/-- Witness for the C4 amended claim on the same concrete inputs as the
aggregate-invariant witness. -/
theorem fifo_membership_invariant_witness :
    (WF exBookOneBid ∧ exOrder2.remaining_quantity ≠ 0 ∧
      exOrder2.remaining_quantity ≤ U64MAX ∧
      exOrder2.order_id ∉ allFifoIds exBookOneBid ∧
      (∀ kv ∈ sideLevels exBookOneBid exOrder2.side, kv.1 = exOrder2.price →
        kv.2.total_quantity + exOrder2.remaining_quantity ≤ U64MAX) ∧
      exTakerSell.order_id ∉ allFifoIds exBookOneBid ∧
      exTakerSell.remaining_quantity ≤ U64MAX ∧
      (∀ kv ∈ sideLevels exBookOneBid exTakerSell.side, kv.1 = exTakerSell.price →
        kv.2.total_quantity + exTakerSell.remaining_quantity ≤ U64MAX)) ∧
    ((LocInv (exBookOneBid.add_order exOrder2).1.orders
        (exBookOneBid.add_order exOrder2).1.bids Side.Buy ∧
      LocInv (exBookOneBid.add_order exOrder2).1.orders
        (exBookOneBid.add_order exOrder2).1.asks Side.Sell ∧
      (allFifoIds (exBookOneBid.add_order exOrder2).1).Nodup ∧
      MemInv (exBookOneBid.add_order exOrder2).1) ∧
     (LocInv (exBookOneBid.remove_order 1).1.orders
        (exBookOneBid.remove_order 1).1.bids Side.Buy ∧
      LocInv (exBookOneBid.remove_order 1).1.orders
        (exBookOneBid.remove_order 1).1.asks Side.Sell ∧
      (allFifoIds (exBookOneBid.remove_order 1).1).Nodup ∧
      MemInv (exBookOneBid.remove_order 1).1) ∧
     (LocInv (exBookOneBid.match_limit_order exTakerSell 0).1.orders
        (exBookOneBid.match_limit_order exTakerSell 0).1.bids Side.Buy ∧
      LocInv (exBookOneBid.match_limit_order exTakerSell 0).1.orders
        (exBookOneBid.match_limit_order exTakerSell 0).1.asks Side.Sell ∧
      (allFifoIds (exBookOneBid.match_limit_order exTakerSell 0).1).Nodup ∧
      MemInv (exBookOneBid.match_limit_order exTakerSell 0).1) ∧
     (LocInv (exBookOneBid.match_market_order exTakerSell 0).1.orders
        (exBookOneBid.match_market_order exTakerSell 0).1.bids Side.Buy ∧
      LocInv (exBookOneBid.match_market_order exTakerSell 0).1.orders
        (exBookOneBid.match_market_order exTakerSell 0).1.asks Side.Sell ∧
      (allFifoIds (exBookOneBid.match_market_order exTakerSell 0).1).Nodup ∧
      MemInv (exBookOneBid.match_market_order exTakerSell 0).1)) := by
  constructor
  · decide
  · exact fifo_membership_invariant exBookOneBid exOrder2 1 exTakerSell 0 (by decide)
      (by decide) (by decide) (by decide) (by decide) (by decide) (by decide) (by decide)

/-! C1: price-time priority of `match_limit_order`.  The state "at match
time" of the i-th trade is the order table as consumed by the preceding
trades: `consumeTrade` performs exactly the table mutation the fill loop
does for one trade (fill the maker by the traded quantity, removing it when
exhausted), and `replayTrades` folds it over a trade prefix. -/

def consumeTrade (t : Table) (tr : Trade) : Table :=
  match lookupTbl t tr.maker_order_id with
  | none => t
  | some e =>
    if e.remaining_quantity - tr.quantity = 0 then
      eraseTbl (insertTbl t tr.maker_order_id
        { e with remaining_quantity := e.remaining_quantity - tr.quantity }) tr.maker_order_id
    else
      insertTbl t tr.maker_order_id
        { e with remaining_quantity := e.remaining_quantity - tr.quantity }

/-- Replay of a trade list on the order table, in trade order. -/
def replayTrades (t : Table) (trs : List Trade) : Table :=
  trs.foldl consumeTrade t

/-- The trades of one price level consume the level's FIFO from the head:
each trade's maker is the first id of the queue that is live in the table as
consumed by the earlier trades of the list. -/
def ConsumesLevel (f : List OrderId) : Table → List Trade → Prop
  | _, [] => True
  | tbl, tr :: trs =>
    (liveOrders tbl f).head? = some tr.maker_order_id ∧
    ConsumesLevel f (consumeTrade tbl tr) trs

/-- Price-time priority of a trade list relative to the opposite side `m0`
as it stood when matching began (`isBuy` is true for a Buy taker): each
trade's maker sits at the live head of its own level's FIFO in the order
table as consumed by all earlier trades, and every strictly better-priced
level (lower price for a Buy taker, higher for a Sell taker) has no live
order left at that moment. -/
def PriT (m0 : LevelMap) (isBuy : Bool) : Table → List Trade → Prop
  | _, [] => True
  | tbl, tr :: trs =>
    (∃ l, lookupSM m0 tr.price = some l ∧
      (liveOrders tbl l.orders).head? = some tr.maker_order_id) ∧
    (∀ q lq, lookupSM m0 q = some lq →
      (if isBuy then q < tr.price else tr.price < q) →
      liveOrders tbl lq.orders = []) ∧
    PriT m0 isBuy (consumeTrade tbl tr) trs

theorem consume_none (t : Table) (tr : Trade) (oid : OrderId)
    (h : lookupTbl t oid = none) : lookupTbl (consumeTrade t tr) oid = none := by
  unfold consumeTrade
  rcases hm : lookupTbl t tr.maker_order_id with _ | e
  · exact h
  · have hne : oid ≠ tr.maker_order_id := by
      intro hc
      rw [hc, hm] at h
      cases h
    dsimp only
    split
    · rw [eraseTbl_insertTbl, lookupTbl_erase_ne _ _ _ hne]
      exact h
    · rw [lookupTbl_insert_ne _ _ _ _ hne]
      exact h

theorem consume_isSome (t : Table) (tr : Trade) (oid : OrderId) (e' : OrderEntry)
    (h : lookupTbl (consumeTrade t tr) oid = some e') :
    (lookupTbl t oid).isSome = true := by
  rcases hx : lookupTbl t oid with _ | e
  · rw [consume_none t tr oid hx] at h
    cases h
  · rfl

theorem replayTrades_append (t : Table) (a b : List Trade) :
    replayTrades t (a ++ b) = replayTrades (replayTrades t a) b := by
  unfold replayTrades
  rw [List.foldl_append]

theorem liveOrders_eq_nil_iff (t : Table) (f : List OrderId) :
    liveOrders t f = [] ↔ ∀ oid ∈ f, lookupTbl t oid = none := by
  unfold liveOrders
  rw [List.filter_eq_nil]
  constructor
  · intro h oid hm
    have h' := h oid hm
    rcases hx : lookupTbl t oid with _ | e
    · rfl
    · rw [hx] at h'
      exact absurd rfl h'
  · intro h oid hm
    rw [h oid hm]
    exact fun hc => Bool.noConfusion hc

theorem live_empty_mono (t t' : Table) (f : List OrderId)
    (hsh : ∀ oid e', lookupTbl t' oid = some e' → (lookupTbl t oid).isSome = true)
    (h : liveOrders t f = []) : liveOrders t' f = [] := by
  rw [liveOrders_eq_nil_iff] at h ⊢
  intro oid hm
  rcases hx : lookupTbl t' oid with _ | e'
  · rfl
  · have hs := hsh oid e' hx
    rw [h oid hm] at hs
    cases hs

theorem liveOrders_nil_of_levelSum_zero (t : Table) (f : List OrderId)
    (hpos : PosInv t) (h : levelSum t f = 0) : liveOrders t f = [] := by
  rw [liveOrders_eq_nil_iff]
  intro oid hm
  rcases hx : lookupTbl t oid with _ | e
  · rfl
  · exfalso
    have hc : contrib t oid ≠ 0 := by
      unfold contrib
      rw [hx]
      exact hpos (oid, e) (mem_of_lookupTbl t oid e hx)
    exact levelSum_ne_zero_of_mem t f oid hm hc h

theorem liveOrders_cons_dead (t : Table) (mid : OrderId) (f : List OrderId)
    (h : lookupTbl t mid = none) : liveOrders t (mid :: f) = liveOrders t f := by
  unfold liveOrders
  rw [List.filter_cons, h]
  rfl

theorem liveOrders_cons_live (t : Table) (mid : OrderId) (f : List OrderId) (e : OrderEntry)
    (h : lookupTbl t mid = some e) : liveOrders t (mid :: f) = mid :: liveOrders t f := by
  unfold liveOrders
  rw [List.filter_cons, h]
  rfl

theorem consumesLevel_cons_dead (f : List OrderId) (mid : OrderId) :
    ∀ (trs : List Trade) (tbl : Table), lookupTbl tbl mid = none →
      ConsumesLevel f tbl trs → ConsumesLevel (mid :: f) tbl trs := by
  intro trs
  induction trs with
  | nil => intro tbl _ _; trivial
  | cons tr trs ih =>
    intro tbl hn h
    have h' : (liveOrders tbl f).head? = some tr.maker_order_id ∧
        ConsumesLevel f (consumeTrade tbl tr) trs := h
    refine ⟨?_, ih (consumeTrade tbl tr) (consume_none tbl tr mid hn) h'.2⟩
    rw [liveOrders_cons_dead tbl mid f hn]
    exact h'.1

theorem iteBoth {c : Prop} [Decidable c] {A B C D E : Prop}
    (h1 : if c then A else B) (h2 : if c then C else D)
    (hac : A → C → E) (hbd : B → D → E) : E := by
  by_cases hc : c
  · rw [if_pos hc] at h1 h2
    exact hac h1 h2
  · rw [if_neg hc] at h1 h2
    exact hbd h1 h2

theorem itelt_ne {c : Bool} {a b : Price} (h : if c then a < b else b < a) : b ≠ a := by
  intro hc
  subst hc
  by_cases hb : c = true
  · rw [if_pos hb] at h
    exact Nat.lt_irrefl _ h
  · rw [if_neg hb] at h
    exact Nat.lt_irrefl _ h

theorem itelt_irrefl {c : Bool} {a : Price} (h : if c then a < a else a < a) : False := by
  by_cases hb : c = true
  · rw [if_pos hb] at h
    exact Nat.lt_irrefl _ h
  · rw [if_neg hb] at h
    exact Nat.lt_irrefl _ h

theorem itelt_asymm {c : Bool} {a b : Price} (h1 : if c then a < b else b < a)
    (h2 : if c then b < a else a < b) : False := by
  by_cases hb : c = true
  · rw [if_pos hb] at h1
    rw [if_pos hb] at h2
    exact Nat.lt_irrefl _ (Nat.lt_trans h1 h2)
  · rw [if_neg hb] at h1
    rw [if_neg hb] at h2
    exact Nat.lt_irrefl _ (Nat.lt_trans h1 h2)

theorem PriT_append (m0 : LevelMap) (isBuy : Bool) :
    ∀ (d1 d2 : List Trade) (tbl : Table), PriT m0 isBuy tbl d1 →
      PriT m0 isBuy (replayTrades tbl d1) d2 → PriT m0 isBuy tbl (d1 ++ d2) := by
  intro d1
  induction d1 with
  | nil => intro d2 tbl _ h2; exact h2
  | cons tr trs ih =>
    intro d2 tbl h1 h2
    have h1' : (∃ l, lookupSM m0 tr.price = some l ∧
        (liveOrders tbl l.orders).head? = some tr.maker_order_id) ∧
        (∀ q lq, lookupSM m0 q = some lq →
          (if isBuy then q < tr.price else tr.price < q) →
          liveOrders tbl lq.orders = []) ∧
        PriT m0 isBuy (consumeTrade tbl tr) trs := h1
    exact ⟨h1'.1, h1'.2.1, ih d2 (consumeTrade tbl tr) h1'.2.2 h2⟩

/-- The trades produced at a single price level satisfy `PriT` whenever they
consume the level's FIFO from the head, all carry the level's price, and
every strictly better level is already drained when the level is entered. -/
theorem PriT_of_level (m0 : LevelMap) (isBuy : Bool) (p : Price) (l : PriceLevel)
    (hl : lookupSM m0 p = some l) :
    ∀ (trs : List Trade) (tbl : Table),
      ConsumesLevel l.orders tbl trs →
      (∀ tr ∈ trs, tr.price = p) →
      (∀ q lq, lookupSM m0 q = some lq → (if isBuy then q < p else p < q) →
        liveOrders tbl lq.orders = []) →
      PriT m0 isBuy tbl trs := by
  intro trs
  induction trs with
  | nil => intro tbl _ _ _; trivial
  | cons tr trs ih =>
    intro tbl hcons hpr hbet
    have hcons' : (liveOrders tbl l.orders).head? = some tr.maker_order_id ∧
        ConsumesLevel l.orders (consumeTrade tbl tr) trs := hcons
    have hp : tr.price = p := hpr tr (List.mem_cons_self _ _)
    refine ⟨⟨l, by rw [hp]; exact hl, hcons'.1⟩, ?_, ?_⟩
    · intro q lq hlq hbq
      rw [hp] at hbq
      exact hbet q lq hlq hbq
    · refine ih (consumeTrade tbl tr) hcons'.2
        (fun t ht => hpr t (List.mem_cons_of_mem _ ht)) ?_
      intro q lq hlq hbq
      exact live_empty_mono tbl (consumeTrade tbl tr) lq.orders
        (fun oid e' he' => consume_isSome tbl tr oid e' he') (hbet q lq hlq hbq)

/-- The fill loop's trades: they extend the accumulator's trade list, the
final table is exactly the replay of the new trades on the entry table, all
new trades carry the level's price, they consume the level's FIFO from the
head, and the loop only exits with the taker unfilled when the level is
drained (zero aggregate or exhausted queue). -/
theorem fillLoop_trades (now : Int) (price : Price) :
    ∀ (fifo : List OrderId) (acc : MatchAcc) (total : Quantity),
      total = levelSum acc.orders fifo → fifo.Nodup → PosInv acc.orders →
      ∃ d : List Trade,
        (fillLoop now price acc fifo total).acc.trades = acc.trades ++ d ∧
        (fillLoop now price acc fifo total).acc.orders = replayTrades acc.orders d ∧
        (∀ tr ∈ d, tr.price = price) ∧
        ConsumesLevel fifo acc.orders d ∧
        ((fillLoop now price acc fifo total).acc.taker.remaining_quantity = 0 ∨
          (fillLoop now price acc fifo total).total = 0 ∨
          (fillLoop now price acc fifo total).fifo = []) := by
  intro fifo
  induction fifo with
  | nil =>
    intro acc total hagg hnd hpos
    rw [fillLoop]
    split
    · exact ⟨[], (List.append_nil _).symm, rfl,
        fun tr h => absurd h (List.not_mem_nil _), trivial, Or.inr (Or.inr rfl)⟩
    · split
      · exact ⟨[], (List.append_nil _).symm, rfl,
          fun tr h => absurd h (List.not_mem_nil _), trivial, Or.inr (Or.inr rfl)⟩
      · exact ⟨[], (List.append_nil _).symm, rfl,
          fun tr h => absurd h (List.not_mem_nil _), trivial, Or.inr (Or.inr rfl)⟩
  | cons mid rest ih =>
    intro acc total hagg hnd hpos
    have hndr : rest.Nodup := (List.nodup_cons.1 hnd).2
    have hmidr : mid ∉ rest := (List.nodup_cons.1 hnd).1
    rw [fillLoop]
    split
    next h0 =>
      exact ⟨[], (List.append_nil _).symm, rfl,
        fun tr h => absurd h (List.not_mem_nil _), trivial, Or.inl h0⟩
    next h0 =>
      split
      next ht0 =>
        exact ⟨[], (List.append_nil _).symm, rfl,
          fun tr h => absurd h (List.not_mem_nil _), trivial, Or.inr (Or.inl ht0)⟩
      next ht0 =>
        rcases hlk : lookupTbl acc.orders mid with _ | maker
        · simp only [hlk]
          have hagg' : total = levelSum acc.orders rest := by
            rw [hagg, levelSum_cons]
            have hc : contrib acc.orders mid = 0 := by unfold contrib; rw [hlk]
            rw [hc, Nat.zero_add]
          obtain ⟨d, hd1, hd2, hd3, hd4, hd5⟩ := ih acc total hagg' hndr hpos
          exact ⟨d, hd1, hd2, hd3, consumesLevel_cons_dead rest mid d acc.orders hlk hd4, hd5⟩
        · simp only [hlk]
          generalize hfq : min maker.remaining_quantity acc.taker.remaining_quantity = fq
          have hle1 : fq ≤ maker.remaining_quantity := hfq ▸ min_le_left _ _
          have hle2 : fq ≤ acc.taker.remaining_quantity := hfq ▸ min_le_right _ _
          have hmkok := fill_ok maker fq hle1
          have htkok := fill_ok acc.taker fq hle2
          simp only [hmkok, htkok]
          have hcm : contrib acc.orders mid = maker.remaining_quantity := by
            unfold contrib; rw [hlk]
          have haggc : total = maker.remaining_quantity + levelSum acc.orders rest := by
            rw [hagg, levelSum_cons, hcm]
          split
          next hz =>
            have hz' : maker.remaining_quantity - fq = 0 := hz
            have hcons : consumeTrade acc.orders
                ⟨acc.next_trade_id, mid, maker.user_id, acc.taker.order_id,
                  acc.taker.user_id, fq, price, now⟩
                = eraseTbl (insertTbl acc.orders mid
                    { maker with remaining_quantity := maker.remaining_quantity - fq }) mid := by
              unfold consumeTrade
              dsimp only
              rw [hlk]
              dsimp only
              rw [if_pos hz']
            have htbl : eraseTbl (insertTbl acc.orders mid
                { maker with remaining_quantity := maker.remaining_quantity - fq }) mid
                = eraseTbl acc.orders mid := eraseTbl_insertTbl _ _ _
            have htot' : total - fq = levelSum (eraseTbl acc.orders mid) rest := by
              rw [haggc, natA _ _ _ hle1 hz', levelSum_eraseTbl_not_mem _ _ _ hmidr]
            split
            next hz2 =>
              refine ⟨[⟨acc.next_trade_id, mid, maker.user_id, acc.taker.order_id,
                acc.taker.user_id, fq, price, now⟩], rfl, hcons.symm, ?_, ?_, Or.inl hz2⟩
              · intro tr h
                rw [List.mem_singleton.1 h]
              · refine ⟨?_, trivial⟩
                rw [liveOrders_cons_live acc.orders mid rest maker hlk]
                rfl
            next hz2 =>
              have hagg2 : total - fq = levelSum (eraseTbl (insertTbl acc.orders mid
                  { maker with remaining_quantity := maker.remaining_quantity - fq }) mid)
                  rest := by
                rw [htbl]
                exact htot'
              have hpos2 : PosInv (eraseTbl (insertTbl acc.orders mid
                  { maker with remaining_quantity := maker.remaining_quantity - fq }) mid) := by
                rw [htbl]
                exact posInv_eraseTbl _ _ hpos
              obtain ⟨d', hd1, hd2, hd3, hd4, hd5⟩ := ih ⟨eraseTbl (insertTbl acc.orders mid
                  { maker with remaining_quantity := maker.remaining_quantity - fq }) mid,
                { acc.taker with remaining_quantity := acc.taker.remaining_quantity - fq },
                acc.fills ++
                  [⟨mid, maker.user_id, maker.side, price, fq, maker.remaining_quantity - fq⟩,
                   ⟨acc.taker.order_id, acc.taker.user_id, acc.taker.side, price, fq,
                    acc.taker.remaining_quantity - fq⟩],
                acc.trades ++
                  [⟨acc.next_trade_id, mid, maker.user_id, acc.taker.order_id,
                    acc.taker.user_id, fq, price, now⟩],
                satAdd acc.next_trade_id 1, true⟩ (total - fq) hagg2 hndr hpos2
              refine ⟨⟨acc.next_trade_id, mid, maker.user_id, acc.taker.order_id,
                acc.taker.user_id, fq, price, now⟩ :: d', ?_, ?_, ?_, ?_, hd5⟩
              · exact hd1.trans (List.append_assoc _ _ _)
              · exact hd2.trans (congrArg (fun tb => replayTrades tb d') hcons.symm)
              · intro tr h
                rcases List.mem_cons.1 h with rfl | h'
                · rfl
                · exact hd3 tr h'
              · refine ⟨?_, ?_⟩
                · rw [liveOrders_cons_live acc.orders mid rest maker hlk]
                  rfl
                · have h4' : ConsumesLevel rest (consumeTrade acc.orders
                      ⟨acc.next_trade_id, mid, maker.user_id, acc.taker.order_id,
                        acc.taker.user_id, fq, price, now⟩) d' := by
                    rw [hcons]
                    exact hd4
                  have hmd : lookupTbl (consumeTrade acc.orders
                      ⟨acc.next_trade_id, mid, maker.user_id, acc.taker.order_id,
                        acc.taker.user_id, fq, price, now⟩) mid = none := by
                    rw [hcons, eraseTbl_insertTbl]
                    exact lookupTbl_erase_self _ _
                  exact consumesLevel_cons_dead rest mid d' _ hmd h4'
          next hz =>
            have hzn : maker.remaining_quantity - fq ≠ 0 := hz
            have hcons2 : consumeTrade acc.orders
                ⟨acc.next_trade_id, mid, maker.user_id, acc.taker.order_id,
                  acc.taker.user_id, fq, price, now⟩
                = insertTbl acc.orders mid
                    { maker with remaining_quantity := maker.remaining_quantity - fq } := by
              unfold consumeTrade
              dsimp only
              rw [hlk]
              dsimp only
              rw [if_neg hzn]
            have hch : fq = maker.remaining_quantity ∨ fq = acc.taker.remaining_quantity := by
              rw [← hfq]
              exact min_choice _ _
            have htk0 : acc.taker.remaining_quantity - fq = 0 := by
              rcases hch with hch | hch
              · exact absurd (by rw [hch]; exact Nat.sub_self _) hzn
              · rw [hch]
                exact Nat.sub_self _
            refine ⟨[⟨acc.next_trade_id, mid, maker.user_id, acc.taker.order_id,
              acc.taker.user_id, fq, price, now⟩], rfl, hcons2.symm, ?_, ?_, Or.inl htk0⟩
            · intro tr h
              rw [List.mem_singleton.1 h]
            · refine ⟨?_, trivial⟩
              rw [liveOrders_cons_live acc.orders mid rest maker hlk]
              rfl

/-- If the fill loop's final queue has no live id, neither does the whole
entry queue: the popped prefix is dead in the final table. -/
theorem liveOrders_level_empty (tblIn : Table) (takerIn : OrderEntry) (f : List OrderId)
    (tq : Quantity) (out : LevelOut) (hlp : LoopPost tblIn takerIn f tq out)
    (hnd : f.Nodup) (hout : liveOrders out.acc.orders out.fifo = []) :
    liveOrders out.acc.orders f = [] := by
  rcases hlp.suffix with ⟨g, hg⟩
  have hnd2 : (g ++ out.fifo).Nodup := hg ▸ hnd
  have hdis := List.disjoint_of_nodup_append hnd2
  rw [hg]
  unfold liveOrders
  rw [List.filter_append]
  have hgnil : g.filter (fun oid => (lookupTbl out.acc.orders oid).isSome) = [] := by
    rw [List.filter_eq_nil]
    intro oid hog hs
    have hmem : oid ∈ out.fifo :=
      hlp.live_mem oid (hg ▸ List.mem_append_left _ hog) hs
    exact hdis hog hmem
  rw [hgnil, List.nil_append]
  exact hout

/-- When the fill loop exits with the taker still unfilled, the level it
worked on has no live order left. -/
theorem fillLoop_drain (now : Int) (price : Price) (f : List OrderId) (acc : MatchAcc)
    (total : Quantity) (hagg : total = levelSum acc.orders f) (hnd : f.Nodup)
    (hpos : PosInv acc.orders)
    (ht : (fillLoop now price acc f total).acc.taker.remaining_quantity ≠ 0) :
    liveOrders (fillLoop now price acc f total).acc.orders f = [] := by
  have hlp := fillLoop_post now price f acc total hagg hnd hpos
  obtain ⟨d, _, _, _, _, h5⟩ := fillLoop_trades now price f acc total hagg hnd hpos
  rcases h5 with h5 | h5 | h5
  · exact absurd h5 ht
  · refine liveOrders_level_empty _ _ _ _ _ hlp hnd
      (liveOrders_nil_of_levelSum_zero _ _ hlp.pos ?_)
    rw [← hlp.agg]
    exact h5
  · refine liveOrders_level_empty _ _ _ _ _ hlp hnd ?_
    rw [h5]
    rfl

/-- The outer walk produces a price-time-priority trade list: the trades
extend the accumulator, the final table is their replay, every trade is at
a candidate price, and `PriT` holds relative to the side as it stood when
matching began. -/
theorem walkPrices_pri (now : Int) (isBuy : Bool) (m0 : LevelMap) (candP : Price → Prop)
    (hdc : ∀ q q', (if isBuy then q < q' else q' < q) → candP q' → candP q) :
    ∀ (ps : List Price) (m : LevelMap) (acc : MatchAcc) (toRemove : List Price),
      SortedKeys m →
      AggInv acc.orders m →
      PosInv acc.orders →
      (joinFifos m).Nodup →
      (∀ p ∈ ps, lookupSM m p = lookupSM m0 p) →
      List.Pairwise (fun a b => if isBuy then a < b else b < a) ps →
      (∀ p ∈ ps, candP p) →
      (∀ q l, lookupSM m0 q = some l → candP q →
        q ∈ ps ∨ (∀ p ∈ ps, if isBuy then q < p else p < q)) →
      (acc.taker.remaining_quantity ≠ 0 →
        ∀ q l, lookupSM m0 q = some l → candP q →
        (∀ p ∈ ps, if isBuy then q < p else p < q) →
        liveOrders acc.orders l.orders = []) →
      ∃ d : List Trade,
        (walkPrices now m acc toRemove ps).acc.trades = acc.trades ++ d ∧
        (walkPrices now m acc toRemove ps).acc.orders = replayTrades acc.orders d ∧
        (∀ tr ∈ d, candP tr.price) ∧
        PriT m0 isBuy acc.orders d := by
  intro ps
  induction ps with
  | nil =>
    intro m acc toRemove _ _ _ _ _ _ _ _ _
    exact ⟨[], (List.append_nil _).symm, rfl,
      fun tr h => absurd h (List.not_mem_nil _), trivial⟩
  | cons price rest ih =>
    intro m acc toRemove hs hagg hpos hndJ hks hpw hcand htri hexh
    have hpwh : ∀ b ∈ rest, if isBuy then price < b else b < price :=
      (List.pairwise_cons.1 hpw).1
    have hpw' := (List.pairwise_cons.1 hpw).2
    rw [walkPrices]
    split
    next h0 =>
      exact ⟨[], (List.append_nil _).symm, rfl,
        fun tr h => absurd h (List.not_mem_nil _), trivial⟩
    next h0 =>
      rcases hlv : lookupSM m price with _ | level
      · simp only [hlv]
        have hm0n : lookupSM m0 price = none := by
          rw [← hks price (List.mem_cons_self _ _)]
          exact hlv
        have hks' : ∀ p ∈ rest, lookupSM m p = lookupSM m0 p :=
          fun p hp => hks p (List.mem_cons_of_mem _ hp)
        have hcand' : ∀ p ∈ rest, candP p :=
          fun p hp => hcand p (List.mem_cons_of_mem _ hp)
        have htri' : ∀ q l, lookupSM m0 q = some l → candP q →
            q ∈ rest ∨ (∀ p ∈ rest, if isBuy then q < p else p < q) := by
          intro q l hq hc
          rcases htri q l hq hc with hmem | hbet
          · rcases List.mem_cons.1 hmem with rfl | hmem'
            · rw [hm0n] at hq
              cases hq
            · exact Or.inl hmem'
          · exact Or.inr (fun p hp => hbet p (List.mem_cons_of_mem _ hp))
        have hexh' : acc.taker.remaining_quantity ≠ 0 →
            ∀ q l, lookupSM m0 q = some l → candP q →
            (∀ p ∈ rest, if isBuy then q < p else p < q) →
            liveOrders acc.orders l.orders = [] := by
          intro ht q l hq hc hbr
          rcases htri q l hq hc with hmem | hbet
          · rcases List.mem_cons.1 hmem with rfl | hmem'
            · rw [hm0n] at hq
              cases hq
            · exact absurd (hbr q hmem') (fun hc2 => itelt_irrefl hc2)
          · exact hexh ht q l hq hc hbet
        exact ih m acc toRemove hs hagg hpos hndJ hks' hpw' hcand' htri' hexh'
      · simp only [hlv]
        have hkv := lookupSM_mem m price level hlv
        have hsubf := fifo_sublist_joinFifos m (price, level) hkv
        have hfnd : level.orders.Nodup := hndJ.sublist hsubf
        have htq : level.total_quantity = levelSum acc.orders level.orders :=
          hagg (price, level) hkv
        have hl0 : lookupSM m0 price = some level := by
          rw [← hks price (List.mem_cons_self _ _)]
          exact hlv
        have hlp := fillLoop_post now price level.orders acc level.total_quantity
          htq hfnd hpos
        obtain ⟨dp, hp1, hp2, hp3, hp4, _⟩ := fillLoop_trades now price level.orders acc
          level.total_quantity htq hfnd hpos
        simp only [hlp.err_none]
        have hfsub : List.Sublist
            (fillLoop now price acc level.orders level.total_quantity).fifo
            level.orders := by
          rcases hlp.suffix with ⟨g, hg⟩
          conv_rhs => rw [hg]
          exact List.sublist_append_right _ _
        have hjsub : List.Sublist
            (joinFifos (updateSM m price (fun w => { w with
              orders := (fillLoop now price acc level.orders level.total_quantity).fifo,
              total_quantity :=
                (fillLoop now price acc level.orders level.total_quantity).total })))
            (joinFifos m) :=
          joinFifos_updateSM_sublist m hs price level hkv _ hfsub
        have hs' : SortedKeys (updateSM m price (fun w => { w with
            orders := (fillLoop now price acc level.orders level.total_quantity).fifo,
            total_quantity :=
              (fillLoop now price acc level.orders level.total_quantity).total })) :=
          sortedKeys_updateSM m price _ hs
        have hagg' : AggInv
            (fillLoop now price acc level.orders level.total_quantity).acc.orders
            (updateSM m price (fun w => { w with
              orders := (fillLoop now price acc level.orders level.total_quantity).fifo,
              total_quantity :=
                (fillLoop now price acc level.orders level.total_quantity).total })) := by
          intro kv' hkv'
          rcases mem_updateSM_cases _ _ _ _ hkv' with ⟨hmem, hnep⟩ | ⟨w, hwm, hweq⟩
          · have hdisj := joinFifos_disjoint m hndJ price level hkv kv' hmem hnep
            have hcongr : levelSum
                (fillLoop now price acc level.orders level.total_quantity).acc.orders
                kv'.2.orders = levelSum acc.orders kv'.2.orders :=
              levelSum_congr _ _ _ (fun oid hmo => hlp.frame oid (hdisj oid hmo))
            rw [hcongr]
            exact hagg kv' hmem
          · have hwl : w = level := mem_unique_of_sorted m hs price w level hwm hkv
            rw [hweq, hwl]
            exact hlp.agg
        have hks' : ∀ p ∈ rest, lookupSM (updateSM m price (fun w => { w with
            orders := (fillLoop now price acc level.orders level.total_quantity).fifo,
            total_quantity :=
              (fillLoop now price acc level.orders level.total_quantity).total })) p
            = lookupSM m0 p := by
          intro p hp
          rw [lookupSM_update_ne m price p _ (itelt_ne (hpwh p hp))]
          exact hks p (List.mem_cons_of_mem _ hp)
        have hcand' : ∀ p ∈ rest, candP p :=
          fun p hp => hcand p (List.mem_cons_of_mem _ hp)
        have htri' : ∀ q l, lookupSM m0 q = some l → candP q →
            q ∈ rest ∨ (∀ p ∈ rest, if isBuy then q < p else p < q) := by
          intro q l hq hc
          rcases htri q l hq hc with hmem | hbet
          · rcases List.mem_cons.1 hmem with rfl | hmem'
            · exact Or.inr (fun p hp => hpwh p hp)
            · exact Or.inl hmem'
          · exact Or.inr (fun p hp => hbet p (List.mem_cons_of_mem _ hp))
        have hexh' : (fillLoop now price acc level.orders
              level.total_quantity).acc.taker.remaining_quantity ≠ 0 →
            ∀ q l, lookupSM m0 q = some l → candP q →
            (∀ p ∈ rest, if isBuy then q < p else p < q) →
            liveOrders (fillLoop now price acc level.orders
              level.total_quantity).acc.orders l.orders = [] := by
          intro ht q l hq hc hbr
          rcases htri q l hq hc with hmem | hbet
          · rcases List.mem_cons.1 hmem with rfl | hmem'
            · have hlq : l = level := by
                rw [hl0] at hq
                injection hq with hq2
                exact hq2.symm
              rw [hlq]
              exact fillLoop_drain now q level.orders acc level.total_quantity htq hfnd hpos ht
            · exact absurd (hbr q hmem') (fun hc2 => itelt_irrefl hc2)
          · refine live_empty_mono acc.orders _ l.orders ?_ (hexh h0 q l hq hc hbet)
            intro oid e' he'
            rcases hlp.shrink oid e' he' with ⟨e0, he0, _⟩
            rw [he0]
            rfl
        obtain ⟨d', hq1, hq2, hq3, hq4⟩ := ih
          (updateSM m price (fun w => { w with
            orders := (fillLoop now price acc level.orders level.total_quantity).fifo,
            total_quantity :=
              (fillLoop now price acc level.orders level.total_quantity).total }))
          (fillLoop now price acc level.orders level.total_quantity).acc
          (if (fillLoop now price acc level.orders level.total_quantity).marked = true
            then toRemove ++ [price] else toRemove)
          hs' hagg' hlp.pos (hndJ.sublist hjsub) hks' hpw' hcand' htri' hexh'
        refine ⟨dp ++ d', ?_, ?_, ?_, ?_⟩
        · refine hq1.trans ?_
          rw [hp1, List.append_assoc]
        · refine hq2.trans ?_
          rw [hp2, ← replayTrades_append]
        · intro tr htr
          rcases List.mem_append.1 htr with htr' | htr'
          · rw [hp3 tr htr']
            exact hcand price (List.mem_cons_self _ _)
          · exact hq3 tr htr'
        · have hbet : ∀ q lq, lookupSM m0 q = some lq →
              (if isBuy then q < price else price < q) →
              liveOrders acc.orders lq.orders = [] := by
            intro q lq hq hlt
            have hcq : candP q := hdc q price hlt (hcand price (List.mem_cons_self _ _))
            rcases htri q lq hq hcq with hmem | hbq
            · rcases List.mem_cons.1 hmem with rfl | hmem'
              · exact absurd hlt (fun hc2 => itelt_irrefl hc2)
              · exact absurd hlt (fun hc2 => itelt_asymm hc2 (hpwh q hmem'))
            · exact hexh h0 q lq hq hcq hbq
          have hseg1 : PriT m0 isBuy acc.orders dp :=
            PriT_of_level m0 isBuy price level hl0 dp acc.orders hp4 hp3 hbet
          have hseg2 : PriT m0 isBuy (replayTrades acc.orders dp) d' := by
            rw [← hp2]
            exact hq4
          exact PriT_append m0 isBuy dp d' acc.orders hseg1 hseg2

theorem candidatePrices_buy (taker : OrderEntry) (m : LevelMap) (h : taker.side = Side.Buy) :
    candidatePrices taker m
      = (m.filter (fun kv => kv.1 ≤ taker.price)).map (fun kv => kv.1) := by
  unfold candidatePrices
  rw [h]
  rfl

theorem candidatePrices_sell (taker : OrderEntry) (m : LevelMap) (h : taker.side = Side.Sell) :
    candidatePrices taker m
      = ((m.filter (fun kv => taker.price ≤ kv.1)).map (fun kv => kv.1)).reverse := by
  unfold candidatePrices
  rw [h]
  rfl

theorem candidates_pairwise_buy (taker : OrderEntry) (m : LevelMap) (hs : SortedKeys m)
    (h : taker.side = Side.Buy) :
    List.Pairwise (fun a b => a < b) (candidatePrices taker m) := by
  rw [candidatePrices_buy taker m h, List.pairwise_map]
  exact hs.filter _

theorem candidates_pairwise_sell (taker : OrderEntry) (m : LevelMap) (hs : SortedKeys m)
    (h : taker.side = Side.Sell) :
    List.Pairwise (fun a b => b < a) (candidatePrices taker m) := by
  rw [candidatePrices_sell taker m h, List.pairwise_reverse, List.pairwise_map]
  exact hs.filter _

theorem mem_candidates_buy (taker : OrderEntry) (m : LevelMap) (h : taker.side = Side.Buy)
    (q : Price) (l : PriceLevel) (hl : lookupSM m q = some l) (hle : q ≤ taker.price) :
    q ∈ candidatePrices taker m := by
  rw [candidatePrices_buy taker m h]
  exact List.mem_map.2 ⟨(q, l),
    List.mem_filter.2 ⟨lookupSM_mem m q l hl, decide_eq_true hle⟩, rfl⟩

theorem mem_candidates_sell (taker : OrderEntry) (m : LevelMap) (h : taker.side = Side.Sell)
    (q : Price) (l : PriceLevel) (hl : lookupSM m q = some l) (hge : taker.price ≤ q) :
    q ∈ candidatePrices taker m := by
  rw [candidatePrices_sell taker m h, List.mem_reverse]
  exact List.mem_map.2 ⟨(q, l),
    List.mem_filter.2 ⟨lookupSM_mem m q l hl, decide_eq_true hge⟩, rfl⟩

theorem candidates_le_buy (taker : OrderEntry) (m : LevelMap) (h : taker.side = Side.Buy) :
    ∀ p ∈ candidatePrices taker m, p ≤ taker.price := by
  rw [candidatePrices_buy taker m h]
  intro p hp
  rcases List.mem_map.1 hp with ⟨kv, hkv, rfl⟩
  exact of_decide_eq_true (List.mem_filter.1 hkv).2

theorem candidates_ge_sell (taker : OrderEntry) (m : LevelMap) (h : taker.side = Side.Sell) :
    ∀ p ∈ candidatePrices taker m, taker.price ≤ p := by
  rw [candidatePrices_sell taker m h]
  intro p hp
  rw [List.mem_reverse] at hp
  rcases List.mem_map.1 hp with ⟨kv, hkv, rfl⟩
  exact of_decide_eq_true (List.mem_filter.1 hkv).2

/-- C1: price-time priority of `match_limit_order`.  On a well-formed book,
every trade of a successful match happens at a candidate price (at most the
taker's limit for a Buy taker, at least it for a Sell taker), and the whole
trade list satisfies `PriT`: each trade's maker sits at the head of the live
FIFO of its own opposite-side price level, and — in the order table as
consumed by all earlier trades of the match, i.e. at match time — every
strictly better-priced opposite level (lower for Buy, higher for Sell) has
no live order left.  Hence each maker came from the best-priced candidate
level at match time, the levels are walked ascending for a Buy taker and
descending for a Sell taker, and within a level makers are taken in FIFO
order. -/
theorem price_time_priority (b : OrderBook) (taker : OrderEntry) (now : Int)
    (b' : OrderBook) (r : MatchResult) (hwf : WF b)
    (h : b.match_limit_order taker now = (b', Except.ok r)) :
    (∀ tr ∈ r.trades,
      (taker.side = Side.Buy → tr.price ≤ taker.price) ∧
      (taker.side = Side.Sell → taker.price ≤ tr.price)) ∧
    PriT (sideLevels b (opposite taker.side)) (taker.side == Side.Buy)
      b.orders r.trades := by
  obtain ⟨c1, c2, c3, c4, c5, c6, c7, c8, c9, c10, c11, c12⟩ := hwf
  have hndJ : (joinFifos b.bids ++ joinFifos b.asks).Nodup := by
    rw [← allFifoIds_eq]
    exact c11
  have hnd2 := List.nodup_append.1 hndJ
  unfold OrderBook.match_limit_order at h
  rcases hval : taker.validate_order with e | u
  · rw [hval] at h
    dsimp only at h
    injection h with h1 h2
    cases h2
  · rw [hval] at h
    dsimp only at h
    rcases hside : taker.side with _ | _
    · rw [hside] at h
      simp only [show (Side.Buy == Side.Buy) = true from rfl, if_true] at h
      have hdcB : ∀ q q', (if (true : Bool) then q < q' else q' < q) →
          q' ≤ taker.price → q ≤ taker.price := by
        intro q q' hlt hle
        have hlt' : q < q' := hlt
        exact Nat.le_trans (Nat.le_of_lt hlt') hle
      obtain ⟨d, hd1, hd2, hd3, hd4⟩ := walkPrices_pri now true b.asks
        (fun x => x ≤ taker.price) hdcB
        (candidatePrices taker b.asks) b.asks
        ⟨b.orders, taker, [], [], b.next_trade_id, false⟩ []
        c2 c5 c8 hnd2.2.1
        (fun p _ => rfl)
        (candidates_pairwise_buy taker b.asks c2 hside)
        (candidates_le_buy taker b.asks hside)
        (fun q l hq hc => Or.inl (mem_candidates_buy taker b.asks hside q l hq hc))
        (fun _ q l hq hc hbet =>
          absurd (hbet q (mem_candidates_buy taker b.asks hside q l hq hc))
            (fun hc2 => itelt_irrefl hc2))
      have hmain : (∀ tr ∈ (walkPrices now b.asks
            ⟨b.orders, taker, [], [], b.next_trade_id, false⟩ []
            (candidatePrices taker b.asks)).acc.trades,
            (Side.Buy = Side.Buy → tr.price ≤ taker.price) ∧
            (Side.Buy = Side.Sell → taker.price ≤ tr.price)) ∧
          PriT (sideLevels b (opposite Side.Buy)) (Side.Buy == Side.Buy) b.orders
            (walkPrices now b.asks ⟨b.orders, taker, [], [], b.next_trade_id, false⟩ []
              (candidatePrices taker b.asks)).acc.trades := by
        constructor
        · intro tr htr
          rw [hd1] at htr
          have htr2 : tr ∈ ([] : List Trade) ++ d := htr
          rw [List.nil_append] at htr2
          exact ⟨fun _ => hd3 tr htr2, fun hc => Side.noConfusion hc⟩
        · rw [hd1]
          exact hd4
      rcases herr : (walkPrices now b.asks ⟨b.orders, taker, [], [], b.next_trade_id, false⟩
          [] (candidatePrices taker b.asks)).err with _ | e2
      · rw [herr] at h
        dsimp only at h
        split at h
        · split at h
          · injection h with h1 h2
            cases h2
          · injection h with h1 h2
            injection h2 with h2
            rw [← h2]
            exact hmain
        · split at h
          · injection h with h1 h2
            injection h2 with h2
            rw [← h2]
            exact hmain
          · injection h with h1 h2
            injection h2 with h2
            rw [← h2]
            exact hmain
      · rw [herr] at h
        dsimp only at h
        injection h with h1 h2
        cases h2
    · rw [hside] at h
      simp only [show (Side.Sell == Side.Buy) = false from rfl, Bool.false_eq_true,
        if_false] at h
      have hdcS : ∀ q q', (if (false : Bool) then q < q' else q' < q) →
          taker.price ≤ q' → taker.price ≤ q := by
        intro q q' hlt hle
        have hlt' : q' < q := hlt
        exact Nat.le_trans hle (Nat.le_of_lt hlt')
      obtain ⟨d, hd1, hd2, hd3, hd4⟩ := walkPrices_pri now false b.bids
        (fun x => taker.price ≤ x) hdcS
        (candidatePrices taker b.bids) b.bids
        ⟨b.orders, taker, [], [], b.next_trade_id, false⟩ []
        c1 c4 c8 hnd2.1
        (fun p _ => rfl)
        (candidates_pairwise_sell taker b.bids c1 hside)
        (candidates_ge_sell taker b.bids hside)
        (fun q l hq hc => Or.inl (mem_candidates_sell taker b.bids hside q l hq hc))
        (fun _ q l hq hc hbet =>
          absurd (hbet q (mem_candidates_sell taker b.bids hside q l hq hc))
            (fun hc2 => itelt_irrefl hc2))
      have hmain : (∀ tr ∈ (walkPrices now b.bids
            ⟨b.orders, taker, [], [], b.next_trade_id, false⟩ []
            (candidatePrices taker b.bids)).acc.trades,
            (Side.Sell = Side.Buy → tr.price ≤ taker.price) ∧
            (Side.Sell = Side.Sell → taker.price ≤ tr.price)) ∧
          PriT (sideLevels b (opposite Side.Sell)) (Side.Sell == Side.Buy) b.orders
            (walkPrices now b.bids ⟨b.orders, taker, [], [], b.next_trade_id, false⟩ []
              (candidatePrices taker b.bids)).acc.trades := by
        constructor
        · intro tr htr
          rw [hd1] at htr
          have htr2 : tr ∈ ([] : List Trade) ++ d := htr
          rw [List.nil_append] at htr2
          exact ⟨fun hc => Side.noConfusion hc, fun _ => hd3 tr htr2⟩
        · rw [hd1]
          exact hd4
      rcases herr : (walkPrices now b.bids ⟨b.orders, taker, [], [], b.next_trade_id, false⟩
          [] (candidatePrices taker b.bids)).err with _ | e2
      · rw [herr] at h
        dsimp only at h
        split at h
        · split at h
          · injection h with h1 h2
            cases h2
          · injection h with h1 h2
            injection h2 with h2
            rw [← h2]
            exact hmain
        · split at h
          · injection h with h1 h2
            injection h2 with h2
            rw [← h2]
            exact hmain
          · injection h with h1 h2
            injection h2 with h2
            rw [← h2]
            exact hmain
      · rw [herr] at h
        dsimp only at h
        injection h with h1 h2
        cases h2

/-- Concrete taker for the C1 witness: a limit buy of 30 at 50000 against
`exAskBook`, which holds one resting ask of 50 at 50000 with id 1. -/
def exTakerC1 : OrderEntry := OrderEntry.new 2 200 Side.Buy 50000 30 0

/-- The match result that `exAskBook.match_limit_order exTakerC1 0` returns. -/
def exResultC1 : MatchResult :=
  MatchResult.mk
    [⟨1, 100, Side.Sell, 50000, 30, 20⟩, ⟨2, 200, Side.Buy, 50000, 30, 0⟩]
    [⟨1, 1, 100, 2, 200, 30, 50000, 0⟩]
    (some ⟨List.replicate 20 (0, 0), (50000, 20) :: List.replicate 19 (0, 0)⟩)

/-- Witness for C1: the price-time-priority theorem applied to a concrete
well-formed one-ask book and a crossing limit buy, with both hypotheses
evaluated on the concrete input. -/
theorem price_time_priority_witness :
    (WF exAskBook ∧
      exAskBook.match_limit_order exTakerC1 0 =
        ((exAskBook.match_limit_order exTakerC1 0).1, Except.ok exResultC1)) ∧
    ((∀ tr ∈ exResultC1.trades,
        (exTakerC1.side = Side.Buy → tr.price ≤ exTakerC1.price) ∧
        (exTakerC1.side = Side.Sell → exTakerC1.price ≤ tr.price)) ∧
      PriT (sideLevels exAskBook (opposite exTakerC1.side)) (exTakerC1.side == Side.Buy)
        exAskBook.orders exResultC1.trades) :=
  ⟨⟨by decide, by decide⟩,
    price_time_priority exAskBook exTakerC1 0
      (exAskBook.match_limit_order exTakerC1 0).1 exResultC1 (by decide) (by decide)⟩

end Orderbook
